import Mathlib

/-!
# Connection pool of one data center (internal/pool/pool.go) and part sizes of the uploader
(telegram/uploader/part.go)

The first part, namespace `Pool`, is a shallow embedding of `DC` and of the goroutines that
run on it; the second, namespace `Uploader`, embeds the arithmetic of part.go.

* The pool state is the record `DC`.  A `*poolConn` is an address: an index into
  `DC.conns`, the store of every `poolConn` allocated by `createConnection`.
* Sequential pieces of the code (`pop`, `release`, the three parts of `dead`, the
  critical section of `acquire`) are functions on `DC`.
* Every goroutine is a program counter `PC`; `threadStep` executes one atomic
  action of the goroutine (one mutex critical section, one atomic operation or
  one `select`), and `Sys.step` interleaves the goroutines.
* What the code does not decide is an input: which ready branch of a `select`
  is taken, what `conn.InvokeRaw` and `conn.Run` return, when contexts are
  cancelled (`Choice`, `Event`).  The `stuck` gate belongs to another package:
  a parked `acquire` may take its `stuck.Ready()` branch at any time, which
  only adds behaviours.

`int64` fields are unbounded integers: the counters move by one per connection
or call, so wrap-around needs 2^63 live connections.

The invariants are counting statements: every goroutine carries a weight (does it
own connection `p`, is it past the test-and-set of `dead` on `r`, ...) and an
invariant relates the sum of the weights to the pool state.
-/

namespace Pool

/-! ## Errors -/

/-- The three messages pool.go wraps an error with, always through the `%w` verb. -/
inductive Wrap
  | acquireConnection
  | invokePool
  | dcClosed
  deriving DecidableEq, Repr

/-- Error values seen by the pool.  `wrap` is `xerrors.Errorf("...: %w", e)`. -/
inductive Err
  | connDead
  | dcIsClosed
  | dcAlreadyClosed
  | canceled
  | deadlineExceeded
  | other (code : Nat)
  | wrap (w : Wrap) (e : Err)
  deriving DecidableEq, Repr

/-- The test `xerrors.Is(err, ErrConnDead)`: follows the `%w` chain. -/
def Err.isConnDead : Err → Bool
  | .connDead => true
  | .wrap _ e => e.isConnDead
  | _ => false

/-! ## Data -/

/-- Modelled from the spec: the type `poolConn` is declared outside the files at
hand; `createConnection` fills the fields `id`, `deleted` and `dead` (the
connection's own Dead gate, which `poolConn.Dead()` exposes and `DC.dead`
signals).  The wrapped `Conn` is environment. -/
structure poolConn where
  id : Int
  deleted : Bool
  dead : Bool
  deriving DecidableEq, Repr

/-- Modelled from the spec: the request map (`reqMap`, section 4.2) is declared
outside the files at hand.  `entries` are the parked tokens, oldest first;
`next` is the next token; `slots` are the one-slot delivery channels that hold
a connection, keyed by the token they were created for. -/
structure reqMap where
  next : Nat
  entries : List Nat
  slots : List (Nat × Nat)
  deriving DecidableEq, Repr

/-- Modelled from the spec: `newReqMap()`, an empty map. -/
def newReqMap : reqMap := ⟨0, [], []⟩

/-- Modelled from the spec: `request()` allocates a token greater than all
prior ones and stores the entry with a fresh empty channel. -/
def reqMap.request (m : reqMap) : Nat × reqMap :=
  (m.next, { m with next := m.next + 1, entries := m.entries ++ [m.next] })

/-- Modelled from the spec: `transfer(conn)` pops the oldest entry and sends
`conn` on its channel; on an empty map it returns false without effect. -/
def reqMap.transfer (m : reqMap) (conn : Nat) : Bool × reqMap :=
  match m.entries with
  | [] => (false, m)
  | k :: rest => (true, { m with entries := rest, slots := m.slots ++ [(k, conn)] })

/-- Modelled from the spec: `delete(token)` removes the entry if present. -/
def reqMap.delete (m : reqMap) (key : Nat) : reqMap :=
  { m with entries := m.entries.filter (fun k => k ≠ key) }

/-- A non-blocking receive from the channel of token `key`: the value and the
remaining channel contents, or `none` when the channel is empty. -/
def takeSlot (key : Nat) : List (Nat × Nat) → Option (Nat × List (Nat × Nat))
  | [] => none
  | (k, c) :: rest =>
    if k = key then some (c, rest)
    else (takeSlot key rest).map (fun r => (r.1, (k, c) :: r.2))

/-- Receive on the request channel `ch` of `key` (`conn := <-ch`), if it holds a value. -/
def reqMap.recv (m : reqMap) (key : Nat) : Option (Nat × reqMap) :=
  (takeSlot key m.slots).map (fun r => (r.1, { m with slots := r.2 }))

/-- The fields of `DC` that the pool logic reads or writes.  `stuck` counts the
calls of `stuck.Reset()`, `ongoing` is the wait group of requests, `grp` the
number of supervised tasks that have not returned, `ctxDone` whether `c.ctx`
is cancelled, `panicked` whether the panic of `dead` was raised. -/
structure DC where
  max : Int
  free : List Nat
  total : Int
  nextConn : Int
  freeReq : reqMap
  stuck : Nat
  ongoing : Int
  grp : Nat
  closed : Bool
  ctxDone : Bool
  conns : List poolConn
  panicked : Bool
  deriving DecidableEq, Repr

/-- `NewDC(ctx, id, newConn, opts)` with `opts.MaxOpenConnections = max`. -/
def NewDC (max : Int) : DC :=
  { max := max, free := [], total := 0, nextConn := 0, freeReq := newReqMap,
    stuck := 0, ongoing := 0, grp := 0, closed := false, ctxDone := false,
    conns := [], panicked := false }

/-- The field `r.id`. -/
def DC.connId (d : DC) (r : Nat) : Int :=
  match d.conns[r]? with
  | some c => c.id
  | none => 0

/-- The flag `r.deleted`. -/
def DC.isDeleted (d : DC) (r : Nat) : Bool :=
  match d.conns[r]? with
  | some c => c.deleted
  | none => false

/-- Whether `<-r.Dead()` is ready: the gate `r.dead` has been signalled. -/
def DC.isDead (d : DC) (r : Nat) : Bool :=
  match d.conns[r]? with
  | some c => c.dead
  | none => false

/-! ## Sequential operations of `DC` -/

/-- `DC.pop`: the last element of `free`, if any. -/
def DC.pop (d : DC) : Option Nat × DC :=
  match d.free.getLast? with
  | some r => (some r, { d with free := d.free.dropLast })
  | none => (none, d)

/-- `DC.release`: `none` is the nil pointer. -/
def DC.release (d : DC) (r : Option Nat) : DC :=
  match r with
  | none => d
  | some r =>
    match d.freeReq.transfer r with
    | (true, m) => { d with freeReq := m }
    | (false, _) => { d with free := d.free ++ [r] }

/-- `r.deleted.Swap(true)`: the old value and the new state. -/
def DC.swapDeleted (d : DC) (r : Nat) : Bool × DC :=
  match d.conns[r]? with
  | some c => (c.deleted, { d with conns := d.conns.set r { c with deleted := true } })
  | none => (false, d)

/-- `c.stuck.Reset()`. -/
def DC.resetStuck (d : DC) : DC := { d with stuck := d.stuck + 1 }

/-- `r.dead.Signal()`. -/
def DC.signalDead (d : DC) (r : Nat) : DC :=
  match d.conns[r]? with
  | some c => { d with conns := d.conns.set r { c with dead := true } }
  | none => d

/-- The search loop of `dead`: `i` is the loop index, `idx` the running result. -/
def scanFree (connId : Nat → Int) (rid : Int) : List Nat → Int → Int → Int
  | [], _, idx => idx
  | conn :: rest, i, idx => scanFree connId rid rest (i + 1) (if connId conn = rid then i else idx)

/-- The critical section of `dead` (from `c.mu.Lock()` to the deferred unlock). -/
def DC.deadLocked (d : DC) (r : Nat) : DC :=
  let d1 := d.signalDead r
  let d2 := { d1 with total := d1.total - 1 }
  if d2.total < 0 then { d2 with panicked := true }
  else
    let idx := scanFree d2.connId (d2.connId r) d2.free 0 (-1)
    if 0 ≤ idx then { d2 with free := d2.free.eraseIdx idx.toNat } else d2

/-- `DC.dead(r, err)` run without interruption. -/
def DC.dead (d : DC) (r : Nat) : DC :=
  match d.swapDeleted r with
  | (true, _) => d
  | (false, d1) => (d1.resetStuck).deadLocked r

/-- The outcome of the critical section at the head of `acquire`. -/
inductive Acq
  | popped (r : Nat)
  | create
  | park (key : Nat)
  deriving DecidableEq, Repr

/-- The critical section at label `retry` of `acquire`: the three cases. -/
def DC.acquireLocked (d : DC) : Acq × DC :=
  match d.pop with
  | (some r, d1) => (.popped r, d1)
  | (none, _) =>
    if d.max < 1 ∨ d.total < d.max then (.create, { d with total := d.total + 1 })
    else (.park (d.freeReq.request).1, { d with freeReq := (d.freeReq.request).2 })

/-- `c.nextConn.Inc()`. -/
def DC.incNextConn (d : DC) : Int × DC :=
  (d.nextConn + 1, { d with nextConn := d.nextConn + 1 })

/-- `createConnection(id)`: allocates the `poolConn` and hands its task to the supervisor. -/
def DC.createConnection (d : DC) (id : Int) : Nat × DC :=
  (d.conns.length,
    { d with conns := d.conns ++ [{ id := id, deleted := false, dead := false }],
             grp := d.grp + 1 })

/-- `acquire` run by one goroutine without interruption, from label `retry` up to its first
return or `select`.  Each pass is the critical section at `retry`; a connection popped from
`free` is returned when its Dead gate has not fired (`some (popped r)`), and is given to
`dead` otherwise, after which the loop starts over.  The result is `some create` in the
`select` of the second case (after `total++`), `some (park key)` in that of the third, and
`none` when `dead` panicked.  `fuel` bounds the passes through `retry`. -/
def DC.acquire : Nat → DC → Option (Option Acq × DC)
  | 0, _ => none
  | fuel + 1, d =>
    match d.acquireLocked with
    | (.popped r, d1) =>
      if d1.isDead r then
        if (d1.dead r).panicked then some (none, d1.dead r)
        else DC.acquire fuel (d1.dead r)
      else some (some (.popped r), d1)
    | (a, d1) => some (some a, d1)

/-! ## Goroutines -/

/-- Who called `dead`: `acquire` (which then jumps to `retry`) or the supervised
task of the connection (which then returns). -/
inductive Caller
  | acquire
  | task
  deriving DecidableEq, Repr

/-- Program points of the goroutines, with their live local variables.  Each names the
atomic action the goroutine performs next (line numbers of pool.go). -/
inductive PC
  /- InvokeRaw and the acquire it runs -/
  | start                                     -- 252: closed.Load()
  | adding                                    -- 256: ongoing.Add(1)
  | retry                                     -- 168-208: the critical section at label retry
  | popped (r : Nat)                          -- 172-179: select on r.Dead() after a pop
  | creating                                  -- 188: nextConn.Inc()
  | created (id : Int)                        -- 192: createConnection(id)
  | waitReady (conn : Nat)                    -- 193-203: the four-way select of case 2
  | parked (key : Nat)                        -- 211-235: the four-way select of case 3
  | unstuck (key : Nat)                       -- 221: delete(key) after stuck.Ready()
  | unstuckDrain (key : Nat)                  -- 222-230: drain, then return conn or retry
  | cancelled (key : Nat) (e : Err)           -- 238: delete(key) after a context is done
  | cancelDrain (key : Nat) (e : Err)         -- 239-245: drain
  | cancelRelease (conn : Nat) (e : Err)      -- 243: release(conn), then 247: return nil, err
  | invoking (conn : Nat)                     -- 269: conn.InvokeRaw is running
  | invoked (conn : Nat) (res : Option Err)   -- 270-276: select on conn.Dead() if err != nil
  | releasing (conn : Nat) (res : Option Err) -- 277: release(conn)
  | returning (res : Option Err)              -- 257: the deferred ongoing.Done()
  | done (res : Option Err)                   -- InvokeRaw has returned res
  /- dead -/
  | deadSwap (r : Nat) (k : Caller)           -- 99: r.deleted.Swap(true)
  | deadReset (r : Nat) (k : Caller)          -- 103: stuck.Reset()
  | deadLock (r : Nat) (k : Caller)           -- 104-128: the critical section
  /- the task of createConnection -/
  | running (conn : Nat)                      -- 92: conn.Run(groupCtx) is running
  | exited
  /- Close -/
  | closeStart                                -- 291: closed.Swap(true)
  | closeWait (drained : Bool)                -- 297-303: wait for closed.Done()
  | closeCancel                               -- 305: c.cancel()
  | closeGrp                                  -- 306: grp.Wait()
  | closeDone (res : Option Err)
  deriving DecidableEq, Repr

/-- What the environment decides at a step. -/
inductive Choice
  | tick
  | ctxDone (e : Err)
  | poolDone
  | ready
  | dead
  | deliver
  | stuck
  | result (res : Option Err)
  deriving DecidableEq, Repr

/-- The effect of one atomic action. -/
structure Out where
  dc : DC
  pc : PC
  spawn : List PC
  deriving DecidableEq, Repr

/-- How `InvokeRaw` treats an error of `acquire`: retry on `ErrConnDead`,
otherwise return it wrapped. -/
def acquireFailed (e : Err) : PC :=
  if e.isConnDead then .retry else .returning (some (.wrap .acquireConnection e))

/-- Where control goes when `dead` returns. -/
def afterDead (d : DC) (k : Caller) : Out :=
  match k with
  | .acquire => ⟨d, .retry, []⟩
  | .task => ⟨{ d with grp := d.grp - 1 }, .exited, []⟩

/-- One atomic action of a goroutine at `pc` in pool state `d`.  A choice that
is not enabled leaves everything as it is.  In `closeWait` the choice `tick` is
the helper goroutine seeing `ongoing` at zero, `ready` is `Close` going on once
that happened, and `ctxDone` is `closeCtx` expiring. -/
def threadStep (d : DC) (pc : PC) (ch : Choice) : Out :=
  match pc with
  | .start =>
    if d.closed then ⟨d, .done (some .dcIsClosed), []⟩ else ⟨d, .adding, []⟩
  | .adding => ⟨{ d with ongoing := d.ongoing + 1 }, .retry, []⟩
  | .retry =>
    match d.acquireLocked with
    | (.popped r, d1) => ⟨d1, .popped r, []⟩
    | (.create, d1) => ⟨d1, .creating, []⟩
    | (.park key, d1) => ⟨d1, .parked key, []⟩
  | .popped r =>
    if d.isDead r then ⟨d, .deadSwap r .acquire, []⟩ else ⟨d, .invoking r, []⟩
  | .creating => ⟨(d.incNextConn).2, .created (d.incNextConn).1, []⟩
  | .created id =>
    ⟨(d.createConnection id).2, .waitReady (d.createConnection id).1,
      [.running (d.createConnection id).1]⟩
  | .waitReady conn =>
    match ch with
    | .ctxDone e => ⟨d, acquireFailed e, []⟩
    | .poolDone =>
      if d.ctxDone then ⟨d, acquireFailed (.wrap .dcClosed .canceled), []⟩ else ⟨d, pc, []⟩
    | .ready => ⟨d, .invoking conn, []⟩
    | .dead => if d.isDead conn then ⟨d, .deadSwap conn .acquire, []⟩ else ⟨d, pc, []⟩
    | _ => ⟨d, pc, []⟩
  | .parked key =>
    match ch with
    | .deliver =>
      match d.freeReq.recv key with
      | some (conn, m) => ⟨{ d with freeReq := m }, .invoking conn, []⟩
      | none => ⟨d, pc, []⟩
    | .stuck => ⟨d, .unstuck key, []⟩
    | .ctxDone e => ⟨d, .cancelled key e, []⟩
    | .poolDone =>
      if d.ctxDone then ⟨d, .cancelled key (.wrap .dcClosed .canceled), []⟩ else ⟨d, pc, []⟩
    | _ => ⟨d, pc, []⟩
  | .unstuck key => ⟨{ d with freeReq := d.freeReq.delete key }, .unstuckDrain key, []⟩
  | .unstuckDrain key =>
    match d.freeReq.recv key with
    | some (conn, m) => ⟨{ d with freeReq := m }, .invoking conn, []⟩
    | none => ⟨d, .retry, []⟩
  | .cancelled key e => ⟨{ d with freeReq := d.freeReq.delete key }, .cancelDrain key e, []⟩
  | .cancelDrain key e =>
    match d.freeReq.recv key with
    | some (conn, m) => ⟨{ d with freeReq := m }, .cancelRelease conn e, []⟩
    | none => ⟨d, acquireFailed e, []⟩
  | .cancelRelease conn e => ⟨d.release (some conn), acquireFailed e, []⟩
  | .invoking conn =>
    match ch with
    | .result res => ⟨d, .invoked conn res, []⟩
    | _ => ⟨d, pc, []⟩
  | .invoked conn res =>
    if res.isSome ∧ d.isDead conn then ⟨d, .retry, []⟩ else ⟨d, .releasing conn res, []⟩
  | .releasing conn res =>
    ⟨d.release (some conn), .returning (res.map (Err.wrap .invokePool)), []⟩
  | .returning res => ⟨{ d with ongoing := d.ongoing - 1 }, .done res, []⟩
  | .done res => ⟨d, .done res, []⟩
  | .deadSwap r k =>
    match d.swapDeleted r with
    | (true, _) => afterDead d k
    | (false, d1) => ⟨d1, .deadReset r k, []⟩
  | .deadReset r k => ⟨d.resetStuck, .deadLock r k, []⟩
  | .deadLock r k => afterDead (d.deadLocked r) k
  | .running conn =>
    match ch with
    | .result _ => ⟨d, .deadSwap conn .task, []⟩
    | _ => ⟨d, pc, []⟩
  | .exited => ⟨d, .exited, []⟩
  | .closeStart =>
    if d.closed then ⟨d, .closeDone (some .dcAlreadyClosed), []⟩
    else ⟨{ d with closed := true }, .closeWait false, []⟩
  | .closeWait drained =>
    match ch with
    | .tick => if d.ongoing = 0 then ⟨d, .closeWait true, []⟩ else ⟨d, pc, []⟩
    | .ready => if drained then ⟨d, .closeCancel, []⟩ else ⟨d, pc, []⟩
    | .ctxDone _ => ⟨d, .closeCancel, []⟩
    | _ => ⟨d, pc, []⟩
  | .closeCancel => ⟨{ d with ctxDone := true }, .closeGrp, []⟩
  | .closeGrp =>
    match ch with
    | .result res => if d.grp = 0 then ⟨d, .closeDone res, []⟩ else ⟨d, pc, []⟩
    | _ => ⟨d, pc, []⟩
  | .closeDone res => ⟨d, .closeDone res, []⟩

/-- The pool together with the goroutines that use it. -/
structure Sys where
  dc : DC
  threads : List PC
  deriving DecidableEq, Repr

/-- What can happen next in the system. -/
inductive Event
  | invoke
  | close
  | cancelParent
  | run (tid : Nat) (ch : Choice)
  deriving DecidableEq, Repr

/-- A fresh pool with no goroutine on it. -/
def Sys.init (max : Int) : Sys := ⟨NewDC max, []⟩

/-- One step of the system.  After the panic of `dead` the program is gone. -/
def Sys.step (s : Sys) (ev : Event) : Sys :=
  if s.dc.panicked then s
  else
    match ev with
    | .invoke => { s with threads := s.threads ++ [.start] }
    | .close => { s with threads := s.threads ++ [.closeStart] }
    | .cancelParent => { s with dc := { s.dc with ctxDone := true } }
    | .run tid ch =>
      match s.threads[tid]? with
      | none => s
      | some pc =>
        ⟨(threadStep s.dc pc ch).dc,
          s.threads.set tid (threadStep s.dc pc ch).pc ++ (threadStep s.dc pc ch).spawn⟩

/-- The state after a list of events. -/
def Sys.run (s : Sys) (evs : List Event) : Sys := evs.foldl Sys.step s

/-- States reachable from `NewDC` with limit `max`. -/
inductive Reachable (max : Int) : Sys → Prop
  | init : Reachable max (Sys.init max)
  | step {s : Sys} (ev : Event) : Reachable max s → Reachable max (s.step ev)

/-! ## Executions used as examples

Goroutine 0 is the first caller of `InvokeRaw`; the task of the first connection is
goroutine 1. -/

/-- One call on a cold pool: closed check, `ongoing.Add`, case 2 of `acquire` (`total++`),
`nextConn.Inc`, `createConnection`, Ready, `conn.InvokeRaw` returns nil, the Dead test is
skipped, `release`, `ongoing.Done`. -/
def traceCold : List Event :=
  [.invoke, .run 0 .tick, .run 0 .tick, .run 0 .tick, .run 0 .tick, .run 0 .tick,
   .run 0 .ready, .run 0 (.result none), .run 0 .tick, .run 0 .tick, .run 0 .tick]

/-- The connection dies while the caller holds it: as `traceCold` up to the return of
`conn.InvokeRaw` (nil) and the skipped Dead test; then `conn.Run` returns and its task runs
`dead` to the end (test-and-set, `stuck.Reset`, critical section); then the caller calls
`release` and returns. -/
def traceDeadHeld : List Event :=
  [.invoke, .run 0 .tick, .run 0 .tick, .run 0 .tick, .run 0 .tick, .run 0 .tick,
   .run 0 .ready, .run 0 (.result none), .run 0 .tick,
   .run 1 (.result none), .run 1 .tick, .run 1 .tick, .run 1 .tick,
   .run 0 .tick, .run 0 .tick]

/-- As `traceCold`, but `conn.InvokeRaw` returns `ErrConnDead` while the Dead gate of the
connection has not fired. -/
def traceConnDead : List Event :=
  [.invoke, .run 0 .tick, .run 0 .tick, .run 0 .tick, .run 0 .tick, .run 0 .tick,
   .run 0 .ready, .run 0 (.result (some .connDead)), .run 0 .tick, .run 0 .tick, .run 0 .tick]

/-- The caller's context is done while `acquire` waits for the connection it has just
created to become Ready. -/
def traceCancelCreate : List Event :=
  [.invoke, .run 0 .tick, .run 0 .tick, .run 0 .tick, .run 0 .tick, .run 0 .tick,
   .run 0 (.ctxDone .canceled), .run 0 .tick]

/-- A saturated pool of two connections, both in use, with three parked requests. -/
def parkedThree : DC :=
  { NewDC 2 with total := 2, nextConn := 2, conns := [⟨1, false, false⟩, ⟨2, false, false⟩],
                 freeReq := ⟨3, [0, 1, 2], []⟩ }

/-- The function `release` called once for each connection of the list, in order. -/
def DC.releaseAll (d : DC) (cs : List Nat) : DC := cs.foldl (fun d c => d.release (some c)) d

/-- Two calls of `Close`, then a call of `InvokeRaw`: goroutines 0 and 1 run the test-and-set
of `closed`, goroutine 2 the closed check of `InvokeRaw`. -/
def traceCloseTwice : List Event :=
  [.close, .close, .run 0 .tick, .run 1 .tick, .invoke, .run 2 .tick]

/-- Two overlapping calls of `InvokeRaw` on a pool of two: goroutine 0 takes id 1 from
`nextConn.Inc()`, goroutine 1 takes id 2 and calls `createConnection(2)`, and only then
goroutine 0 calls `createConnection(1)`. -/
def traceCrossCreate : List Event :=
  [.invoke, .invoke,
   .run 0 .tick, .run 0 .tick, .run 0 .tick, .run 0 .tick,
   .run 1 .tick, .run 1 .tick, .run 1 .tick, .run 1 .tick, .run 1 .tick,
   .run 0 .tick]

/-- A pool at its limit of two connections, both in use. -/
def fullTwo : DC :=
  { NewDC 2 with total := 2, nextConn := 2, conns := [⟨1, false, false⟩, ⟨2, false, false⟩] }

/-- A free stack with dead connections on top: connections 0 to 3, of which 2 and 3 died
while they were held and were released afterwards. -/
def deadOnTop : DC :=
  { NewDC 4 with total := 2, nextConn := 4, free := [0, 1, 2, 3],
                 conns := [⟨1, false, false⟩, ⟨2, false, false⟩, ⟨3, true, true⟩, ⟨4, true, true⟩] }

/-- A pool state whose only connection sits in `free` while `total` is 0. -/
def freeButUncounted : DC :=
  { NewDC 1 with free := [0], nextConn := 1, conns := [⟨1, false, false⟩] }

/-- A pool state with two `poolConn` of the same id, the second one in `free`. -/
def sameIdTwice : DC :=
  { NewDC 2 with total := 2, free := [1], nextConn := 1,
                 conns := [⟨1, false, false⟩, ⟨1, false, false⟩] }

/-! ## Weights of goroutines and counts on the pool -/

/-- The sum of a weight over the goroutines. -/
def weigh (f : PC → Nat) (ts : List PC) : Nat := (ts.map f).sum

/-- A truth value as 0 or 1. -/
def b2n (b : Bool) : Nat := if b then 1 else 0

/-- The `poolConn` a goroutine has in a local variable. -/
def PC.ref : PC → Option Nat
  | .popped r => some r
  | .waitReady r => some r
  | .cancelRelease r _ => some r
  | .invoking r => some r
  | .invoked r _ => some r
  | .releasing r _ => some r
  | .deadSwap r _ => some r
  | .deadReset r _ => some r
  | .deadLock r _ => some r
  | .running r => some r
  | _ => none

/-- Weight 1 when the goroutine refers to `p`. -/
def PC.refc (p : Nat) (pc : PC) : Nat := if pc.ref = some p then 1 else 0

/-- Weight 1 when the goroutine holds `p` as the connection it acquired (or is acquiring):
it is the one that will release it, invoke on it or drop it. -/
def PC.owns (p : Nat) : PC → Nat
  | .popped r => if r = p then 1 else 0
  | .waitReady r => if r = p then 1 else 0
  | .cancelRelease r _ => if r = p then 1 else 0
  | .invoking r => if r = p then 1 else 0
  | .invoked r _ => if r = p then 1 else 0
  | .releasing r _ => if r = p then 1 else 0
  | _ => 0

/-- Weight 1 when the goroutine has won the test-and-set of `dead` on `p` and has not yet
left the critical section. -/
def PC.won (p : Nat) : PC → Nat
  | .deadReset r _ => if r = p then 1 else 0
  | .deadLock r _ => if r = p then 1 else 0
  | _ => 0

/-- Weight 1 between `total++` and `createConnection`. -/
def PC.pending : PC → Nat
  | .creating => 1
  | .created _ => 1
  | _ => 0

/-- Weight 1 when the goroutine holds the connection id `i` it has not used yet. -/
def PC.pendId (i : Int) : PC → Nat
  | .created j => if j = i then 1 else 0
  | _ => 0

/-- Weight 1 when the goroutine is about to call `release(p)`. -/
def PC.releases (p : Nat) : PC → Bool
  | .releasing r _ => decide (r = p)
  | .cancelRelease r _ => decide (r = p)
  | _ => false

/-- Weight 1 when the goroutine is parked under token `k` and has not yet deleted it. -/
def PC.waits (k : Nat) : PC → Nat
  | .parked key => if key = k then 1 else 0
  | .unstuck key => if key = k then 1 else 0
  | .cancelled key _ => if key = k then 1 else 0
  | _ => 0

/-- Weight 1 when the goroutine has deleted its token `k` and is about to drain its channel. -/
def PC.drains (k : Nat) : PC → Nat
  | .unstuckDrain key => if key = k then 1 else 0
  | .cancelDrain key _ => if key = k then 1 else 0
  | _ => 0

/-- The goroutine is inside a call of `InvokeRaw` (a `dead` it calls from `acquire` included). -/
def PC.inInvokeRaw : PC → Bool
  | .done _ => false
  | .running _ => false
  | .exited => false
  | .closeStart => false
  | .closeWait _ => false
  | .closeCancel => false
  | .closeGrp => false
  | .closeDone _ => false
  | .deadSwap _ .task => false
  | .deadReset _ .task => false
  | .deadLock _ .task => false
  | _ => true

/-- The goroutine is in `dead` past the test-and-set. -/
def PC.inDead : PC → Bool
  | .deadReset _ _ => true
  | .deadLock _ _ => true
  | _ => false

/-- The goroutine is in `Close` past the test-and-set of `closed`. -/
def PC.closing : PC → Bool
  | .closeWait _ => true
  | .closeCancel => true
  | .closeGrp => true
  | .closeDone _ => true
  | _ => false

/-- Connections of the store whose Dead gate has not fired. -/
def live (cs : List poolConn) : Nat := cs.countP (fun c => !c.dead)

/-- The Dead gate of the connection at address `r` of a store. -/
def deadAt (cs : List poolConn) (r : Nat) : Bool :=
  match cs[r]? with
  | some c => c.dead
  | none => false

/-- The deleted flag of the connection at address `r` of a store. -/
def deletedAt (cs : List poolConn) (r : Nat) : Bool :=
  match cs[r]? with
  | some c => c.deleted
  | none => false

/-- The id of the connection at address `r` of a store. -/
def idAt (cs : List poolConn) (r : Nat) : Int :=
  match cs[r]? with
  | some c => c.id
  | none => 0

/-- How often `p` sits in a delivery channel. -/
def DC.slotc (d : DC) (p : Nat) : Nat := (d.freeReq.slots.map Prod.snd).count p

/-- How many connections of the store have id `i`. -/
def DC.idc (d : DC) (i : Int) : Nat := (d.conns.map (fun c => c.id)).count i

/-- How often token `k` is in the request map. -/
def DC.entc (d : DC) (k : Nat) : Nat := d.freeReq.entries.count k

/-- How many values the channel of token `k` holds. -/
def DC.keyc (d : DC) (k : Nat) : Nat := (d.freeReq.slots.map Prod.fst).count k

/-! ## Invariants -/

/-- What the invariant tells an atomic action about the pool and the goroutine taking it. -/
structure Pre (d : DC) (pc : PC) : Prop where
  vfree : ∀ p, d.conns.length ≤ p → d.free.count p = 0
  vslot : ∀ p, d.conns.length ≤ p → d.slotc p = 0
  vref : ∀ p, d.conns.length ≤ p → pc.refc p = 0
  wonLive : ∀ r, pc.won r = 1 → d.isDead r = false
  tot : (live d.conns : Int) ≤ d.total

/-- What an atomic action does to the counts of the invariant. -/
structure Post (d : DC) (pc : PC) (o : Out) : Prop where
  len : d.conns.length ≤ o.dc.conns.length
  max : o.dc.max = d.max
  valid : ∀ p, o.dc.conns.length ≤ p →
    o.dc.free.count p + o.dc.slotc p + o.pc.refc p + weigh (PC.refc p) o.spawn = 0
  own : ∀ p, o.dc.free.count p + o.dc.slotc p + o.pc.owns p + weigh (PC.owns p) o.spawn
    ≤ d.free.count p + d.slotc p + pc.owns p + (if d.conns.length ≤ p then 1 else 0)
  total : o.dc.total + (pc.pending : Int) + (live d.conns : Int)
    = d.total + (o.pc.pending : Int) + (weigh PC.pending o.spawn : Int) + (live o.dc.conns : Int)
  won : ∀ r, b2n (o.dc.isDeleted r) + pc.won r + b2n (d.isDead r)
    = b2n (d.isDeleted r) + o.pc.won r + weigh (PC.won r) o.spawn + b2n (o.dc.isDead r)
  np : d.panicked = false → o.dc.panicked = false
  next : d.nextConn ≤ o.dc.nextConn
  ids : ∀ i, o.dc.idc i + o.pc.pendId i + weigh (PC.pendId i) o.spawn
    ≤ d.idc i + pc.pendId i + (if d.nextConn < i ∧ i ≤ o.dc.nextConn then 1 else 0)

/-- The invariant of the pool with its goroutines.
* `valid`: nothing refers to an address that is not allocated;
* `own`: a connection is in `free`, in a channel or held by a goroutine at most once in all;
* `total`: `total` counts the creations under way and the connections whose gate has not fired;
* `won`: a connection is deleted exactly when its gate has fired or one `dead` call on it is
  past the test-and-set;
* `np`: no panic; `next`, `ids`: the ids handed out are distinct and lie in `1..nextConn`. -/
structure Inv (s : Sys) : Prop where
  valid : ∀ p, s.dc.conns.length ≤ p →
    s.dc.free.count p + s.dc.slotc p + weigh (PC.refc p) s.threads = 0
  own : ∀ p, s.dc.free.count p + s.dc.slotc p + weigh (PC.owns p) s.threads ≤ 1
  total : s.dc.total = (weigh PC.pending s.threads : Int) + (live s.dc.conns : Int)
  won : ∀ r, b2n (s.dc.isDeleted r) = weigh (PC.won r) s.threads + b2n (s.dc.isDead r)
  np : s.dc.panicked = false
  next : 0 ≤ s.dc.nextConn
  ids : ∀ i, s.dc.idc i + weigh (PC.pendId i) s.threads
    ≤ (if 1 ≤ i ∧ i ≤ s.dc.nextConn then 1 else 0)

/-- The action is an `acquire` leaving its second case because a context is done. -/
def abandons (pc : PC) (ch : Choice) : Bool :=
  match pc, ch with
  | .waitReady _, .ctxDone _ => true
  | .waitReady _, .poolDone => true
  | _, _ => false

/-- What the invariant tells an atomic action, second part. -/
structure Pre2 (d : DC) (pc : PC) : Prop where
  base : Pre d pc
  nodup : d.free.Nodup
  inj : ∀ p q, p < d.conns.length → q < d.conns.length → d.connId p = d.connId q → p = q
  deadDel : ∀ r, d.isDead r = true → d.isDeleted r = true
  wonDel : ∀ r, pc.won r = 1 → d.isDeleted r = true

/-- What an atomic action does to dead connections in `free` (`dl`) and to the whereabouts
of the connections (`acc`, `fresh`, `delMono`). -/
structure Post2 (d : DC) (pc : PC) (ch : Choice) (o : Out) : Prop where
  dl : ∀ p, p ∈ o.dc.free → o.dc.isDead p = true →
    (p ∈ d.free ∧ d.isDead p = true) ∨ (d.isDead p = true ∧ pc.releases p = true)
  acc : abandons pc ch = false → ∀ p, p < d.conns.length →
    o.dc.isDeleted p = true ∨
    d.free.count p + d.slotc p + pc.owns p
      ≤ o.dc.free.count p + o.dc.slotc p + o.pc.owns p + weigh (PC.owns p) o.spawn
  fresh : ∀ p, d.conns.length ≤ p → p < o.dc.conns.length →
    1 ≤ o.dc.free.count p + o.dc.slotc p + o.pc.owns p + weigh (PC.owns p) o.spawn
  delMono : ∀ p, d.isDeleted p = true → o.dc.isDeleted p = true

/-- The ways one atomic action can move the registration of token `k`: nothing or a
hand-off; a new request; a delete; a receive that ends the wait.  `E`, `L` count `k` in the
map and in its channel, `w`, `dr` are the weights of the goroutine, `nx` is the next token;
the second group is the same after the action. -/
def KeyStep (E L w dr nx E2 L2 w2 dr2 nx2 k : Nat) : Prop :=
  (nx2 = nx ∧ w2 = w ∧ dr2 = dr ∧ E2 + L2 = E + L ∧ E2 ≤ E)
  ∨ (nx2 = nx + 1 ∧ w = 0 ∧ dr = 0 ∧ dr2 = 0 ∧ L2 = L ∧
      ((k = nx ∧ w2 = 1 ∧ E2 = E + 1) ∨ (k ≠ nx ∧ w2 = 0 ∧ E2 = E)))
  ∨ (nx2 = nx ∧ w2 = 0 ∧ w + dr = dr2 ∧ L2 = L ∧ E2 ≤ E ∧ (w = 1 → E2 = 0))
  ∨ (nx2 = nx ∧ w2 = 0 ∧ dr2 = 0 ∧ E2 = E ∧ w + dr ≤ 1 ∧
      ((w + dr = 1 ∧ (L2 + 1 = L ∨ (L = 0 ∧ L2 = 0 ∧ w = 0))) ∨ (w + dr = 0 ∧ L2 = L)))

/-- What an atomic action does to the request map. -/
structure Post3 (d : DC) (pc : PC) (o : Out) : Prop where
  keys : ∀ k, KeyStep (d.entc k) (d.keyc k) (pc.waits k) (pc.drains k) d.freeReq.next
    (o.dc.entc k) (o.dc.keyc k) (o.pc.waits k) (o.pc.drains k) o.dc.freeReq.next k
  spawn : ∀ k, weigh (PC.waits k) o.spawn = 0 ∧ weigh (PC.drains k) o.spawn = 0

/-- The invariant of the request map: a token in the map or with a filled channel has its
goroutine still there to serve it, a token in the map has one that has not deleted it, and
every token belongs to at most one goroutine and was handed out. -/
structure KeyInv (s : Sys) : Prop where
  s1 : ∀ k, s.dc.entc k + s.dc.keyc k
    ≤ weigh (PC.waits k) s.threads + weigh (PC.drains k) s.threads
  s2 : ∀ k, s.dc.entc k ≤ weigh (PC.waits k) s.threads
  s3 : ∀ k, weigh (PC.waits k) s.threads + weigh (PC.drains k) s.threads
    ≤ if k < s.dc.freeReq.next then 1 else 0

/-- The event makes an `acquire` leave its second case because a context is done. -/
def Sys.abandoning (s : Sys) : Event → Bool
  | .run tid ch =>
    match s.threads[tid]? with
    | some pc => abandons pc ch
    | none => false
  | _ => false

/-- States reachable without an `acquire` leaving its second case on a done context. -/
inductive ReachableNA (max : Int) : Sys → Prop
  | init : ReachableNA max (Sys.init max)
  | step {s : Sys} (ev : Event) : ReachableNA max s → s.abandoning ev = false →
      ReachableNA max (s.step ev)

/-- No event of the list makes an `acquire` leave its second case on a done context. -/
def noAbandon (s : Sys) : List Event → Bool
  | [] => true
  | ev :: evs => !s.abandoning ev && noAbandon (s.step ev) evs

/-- Every connection of the store is deleted, in `free`, in a channel or held. -/
def Sys.accounted (s : Sys) : Prop :=
  ∀ p, p < s.dc.conns.length →
    s.dc.isDeleted p = true ∨ 1 ≤ s.dc.free.count p + s.dc.slotc p + weigh (PC.owns p) s.threads

/-- Every call of `InvokeRaw` has returned. -/
def Sys.quiescent (s : Sys) : Bool := s.threads.all (fun t => !t.inInvokeRaw)

/-- The errors `InvokeRaw` can hand to its caller: an error matching `ErrConnDead` only as
the `invoke pool` wrapping of what `conn.InvokeRaw` returned. -/
def surfaced : Option Err → Bool
  | some (.wrap .invokePool _) => true
  | some e => !e.isConnDead
  | none => true

/-- The result a goroutine returns or has returned from `InvokeRaw` is one of `surfaced`. -/
def PC.errOk : PC → Bool
  | .done res => surfaced res
  | .returning res => surfaced res
  | _ => true

/-- The event is a call of `Close` passing the check of `closed`: its test-and-set finds the
flag unset. -/
def Sys.passesClose (s : Sys) : Event → Bool
  | .run tid _ => !s.dc.panicked && !s.dc.closed && (s.threads[tid]? == some PC.closeStart)
  | _ => false

/-- How many calls of `Close` pass the check of `closed` along a list of events. -/
def closePasses (s : Sys) : List Event → Nat
  | [] => 0
  | ev :: evs => b2n (s.passesClose ev) + closePasses (s.step ev) evs

/-- What an atomic action does to the ids: the id `i` is in the store, held by the goroutine
between `nextConn.Inc()` and `createConnection`, or not handed out yet. -/
def IdStep (d : DC) (pc : PC) (o : Out) (i : Int) : Prop :=
  d.nextConn ≤ o.dc.nextConn ∧
  o.dc.idc i + o.pc.pendId i + weigh (PC.pendId i) o.spawn
    = d.idc i + pc.pendId i + (if d.nextConn < i ∧ i ≤ o.dc.nextConn then 1 else 0)

end Pool

/-! # Part sizes of the uploader (telegram/uploader/part.go) -/

namespace Uploader

/-- `bigFileLimit`: above this size `upload.saveBigFilePart` is used. -/
def bigFileLimit : Int := 10 * 1024 * 1024

/-- `partsLimit`. -/
def partsLimit : Int := 2999

/-- `defaultPartSize`. -/
def defaultPartSize : Int := 1024

/-- `paddingPartSize`. -/
def paddingPartSize : Int := 1024

/-- `MaximumPartSize`. -/
def MaximumPartSize : Int := 524288

/-- Go's `a % b` on `int`: the remainder of the division truncated toward zero, with the
sign of `a`; `none` is the run-time panic on `b = 0`. -/
def rem (a b : Int) : Option Int := if b = 0 then none else some (Int.tmod a b)

/-- Go's `a / b` on `int`: the quotient truncated toward zero; `none` is the run-time panic
on `b = 0`. -/
def quo (a b : Int) : Option Int := if b = 0 then none else some (Int.tdiv a b)

/-- The three errors of `checkPartSize`, with the number their message prints. -/
inductive PartSizeErr
  | isZero
  | notDivisibleBy1024 (partSize : Int)
  | notDivisorOf524288 (partSize : Int)
  deriving DecidableEq, Repr

/-- `checkPartSize` on `u.partSize`: the cases of the `switch` in order.  The outer `none`
is a run-time panic, `some none` is the result nil. -/
def checkPartSize (partSize : Int) : Option (Option PartSizeErr) :=
  if partSize = 0 then some (some .isZero)
  else
    match rem partSize paddingPartSize with
    | none => none
    | some r1 =>
      if r1 ≠ 0 then some (some (.notDivisibleBy1024 partSize))
      else
        match rem MaximumPartSize partSize with
        | none => none
        | some r2 =>
          if r2 ≠ 0 then some (some (.notDivisorOf524288 partSize))
          else some none

/-- Modelled from the spec: the type `Upload` is declared outside the files at hand and the
spec is silent about it; these are the fields that part.go reads and writes, with the types
their uses there require (`id` and `totalBytes` are `int64`, `partSize` and `totalParts`
are `int`). -/
structure Upload where
  id : Int
  partSize : Int
  big : Bool
  totalParts : Int
  totalBytes : Int
  deriving DecidableEq, Repr

/-- `computeParts` with `u.partSize = partSize`; `none` is the run-time panic of a division
by zero.  `int` is taken as 64 bits wide, so that `int(upload.totalBytes)` is the same
number; the quotient of a positive `int64` and the increment by one stay in range. -/
def computeParts (partSize : Int) (upload : Upload) : Option Int :=
  if upload.totalBytes ≤ 0 then some 0
  else
    match quo upload.totalBytes partSize with
    | none => none
    | some parts =>
      match rem upload.totalBytes partSize with
      | none => none
      | some r => if r ≠ 0 then some (parts + 1) else some parts

/-- The errors of `initUpload`; `idGeneration` wraps the error of `u.id()`. -/
inductive InitErr
  | partSizeTooSmall (totalBytes partSize : Int)
  | idGeneration (cause : Nat)
  | previousPartSize (previous uploader : Int)
  deriving DecidableEq, Repr

/-- `initUpload` with `u.partSize = partSize`; `newId` is what the call `u.id()` returns
(an id or an error), which is decided outside part.go.  The result is the error (`none` for
nil) and the contents of `*upload` afterwards; the outer `none` is a run-time panic. -/
def initUpload (partSize : Int) (newId : Except Nat Int) (upload : Upload) :
    Option (Option InitErr × Upload) :=
  let big := decide (upload.totalBytes > bigFileLimit)
  match computeParts partSize upload with
  | none => none
  | some totalParts =>
    if !big && decide (totalParts > partsLimit) then
      some (some (.partSizeTooSmall upload.totalBytes partSize), upload)
    else if upload.id = 0 then
      match newId with
      | .error e => some (some (.idGeneration e), upload)
      | .ok id =>
        some (none, { upload with id := id, partSize := partSize, big := big,
                                  totalParts := totalParts })
    else if upload.partSize ≠ partSize then
      some (some (.previousPartSize upload.partSize partSize), upload)
    else some (none, { upload with big := big, totalParts := totalParts })

/-- A new upload of 3000 parts of 1 KB: 3,072,000 bytes, the parts numbered 0 to 2,999. -/
def upload3000 : Upload :=
  { id := 0, partSize := 0, big := false, totalParts := 0, totalBytes := 3072000 }

/-- An upload of 2500 bytes that was started before with parts of 1 KB. -/
def resumed : Upload :=
  { id := 5, partSize := 1024, big := false, totalParts := 0, totalBytes := 2500 }

end Uploader

namespace Pool

/-! ## Theorems -/

theorem set_decomp {α : Type} {l : List α} {i : Nat} {a : α} (h : l[i]? = some a) (b : α) :
    ∃ pre post, l = pre ++ a :: post ∧ l.set i b = pre ++ b :: post ∧ pre.length = i := by
  induction l generalizing i with
  | nil => simp at h
  | cons x xs ih =>
    cases i with
    | zero =>
      simp at h
      exact ⟨[], xs, by simp [h], by simp, rfl⟩
    | succ n =>
      simp at h
      obtain ⟨pre, post, h1, h2, h3⟩ := ih h
      exact ⟨x :: pre, post, by simp [← h1], by simp [h2], by simp [h3]⟩

theorem weigh_append (f : PC → Nat) (a b : List PC) : weigh f (a ++ b) = weigh f a + weigh f b := by
  simp [weigh]

theorem weigh_set (f : PC → Nat) {ts : List PC} {i : Nat} {pc : PC} (h : ts[i]? = some pc) (x : PC) :
    weigh f (ts.set i x) + f pc = weigh f ts + f x := by
  obtain ⟨pre, post, h1, h2, _⟩ := set_decomp h x
  rw [h2]; conv => rhs; rw [h1]
  simp [weigh]; omega

theorem countP_set_add {α : Type} (p : α → Bool) {l : List α} {i : Nat} {a : α} (h : l[i]? = some a) (b : α) :
    (l.set i b).countP p + b2n (p a) = l.countP p + b2n (p b) := by
  obtain ⟨pre, post, h1, h2, _⟩ := set_decomp h b
  rw [h2]; conv => rhs; rw [h1]
  simp [List.countP_append, List.countP_cons, b2n]; omega

theorem pop_cases (d : DC) :
    (d.free = [] ∧ d.pop = (none, d)) ∨
    (∃ f r, d.free = f ++ [r] ∧ d.pop = (some r, { d with free := f })) := by
  unfold DC.pop
  rcases List.eq_nil_or_concat d.free with h | ⟨f, r, h⟩
  · left; simp [h]
  · right; refine ⟨f, r, by simpa using h, ?_⟩
    simp [h]

theorem acquireLocked_cases (d : DC) :
    (∃ f r, d.free = f ++ [r] ∧ d.acquireLocked = (.popped r, { d with free := f })) ∨
    (d.free = [] ∧ (d.max < 1 ∨ d.total < d.max) ∧
      d.acquireLocked = (.create, { d with total := d.total + 1 })) ∨
    (d.free = [] ∧ ¬ (d.max < 1 ∨ d.total < d.max) ∧
      d.acquireLocked = (.park d.freeReq.next,
        { d with freeReq := { d.freeReq with next := d.freeReq.next + 1,
                                             entries := d.freeReq.entries ++ [d.freeReq.next] } })) := by
  unfold DC.acquireLocked
  rcases pop_cases d with ⟨h, hp⟩ | ⟨f, r, h, hp⟩
  · right
    rw [hp]
    by_cases hc : d.max < 1 ∨ d.total < d.max
    · left; simp [h, hc]
    · right; simp [h, hc, reqMap.request]
  · left; exact ⟨f, r, h, by rw [hp]⟩

theorem release_cases (d : DC) (r : Nat) :
    (d.freeReq.entries = [] ∧ d.release (some r) = { d with free := d.free ++ [r] }) ∨
    (∃ k rest, d.freeReq.entries = k :: rest ∧
      d.release (some r) =
        { d with freeReq := ⟨d.freeReq.next, rest, d.freeReq.slots ++ [(k, r)]⟩ }) := by
  unfold DC.release reqMap.transfer
  cases h : d.freeReq.entries with
  | nil => left; simp
  | cons k rest => right; exact ⟨k, rest, rfl, by simp⟩

theorem takeSlot_some {key c : Nat} {sl rest : List (Nat × Nat)} (h : takeSlot key sl = some (c, rest)) :
    ∃ pre post, sl = pre ++ (key, c) :: post ∧ rest = pre ++ post ∧
      (pre.map Prod.fst).count key = 0 := by
  induction sl generalizing rest with
  | nil => simp [takeSlot] at h
  | cons x xs ih =>
    obtain ⟨k, c0⟩ := x
    unfold takeSlot at h
    split_ifs at h with hk
    · simp at h
      obtain ⟨h1, h2⟩ := h
      exact ⟨[], xs, by simp [hk, h1], by simp [h2], by simp⟩
    · simp at h
      obtain ⟨a, b, hab, h1, h2⟩ := h
      subst h1
      obtain ⟨pre, post, hp1, hp2, hp3⟩ := ih hab
      refine ⟨(k, c0) :: pre, post, ?_, ?_, ?_⟩
      · simp [hp1]
      · rw [← h2]; simp [hp2]
      · simp [List.count_cons, hp3]; exact hk

theorem takeSlot_none {key : Nat} {sl : List (Nat × Nat)} (h : takeSlot key sl = none) :
    (sl.map Prod.fst).count key = 0 := by
  induction sl with
  | nil => simp
  | cons x xs ih =>
    obtain ⟨k, c0⟩ := x
    unfold takeSlot at h
    split_ifs at h with hk
    simp at h
    simp [List.count_cons, ih h]; exact hk

theorem swapDeleted_cases (d : DC) (r : Nat) :
    (d.conns[r]? = none ∧ d.swapDeleted r = (false, d)) ∨
    (∃ c, d.conns[r]? = some c ∧
      d.swapDeleted r = (c.deleted, { d with conns := d.conns.set r { c with deleted := true } })) := by
  unfold DC.swapDeleted
  cases h : d.conns[r]? with
  | none => left; simp
  | some c => right; exact ⟨c, rfl, by simp⟩

theorem signalDead_cases (d : DC) (r : Nat) :
    (d.conns[r]? = none ∧ d.signalDead r = d) ∨
    (∃ c, d.conns[r]? = some c ∧
      d.signalDead r = { d with conns := d.conns.set r { c with dead := true } }) := by
  unfold DC.signalDead
  cases h : d.conns[r]? with
  | none => left; simp
  | some c => right; exact ⟨c, rfl, by simp⟩

theorem deadLocked_cases (d : DC) (r : Nat) :
    ((d.signalDead r).total - 1 < 0 ∧
      d.deadLocked r = { d.signalDead r with total := (d.signalDead r).total - 1, panicked := true }) ∨
    (0 ≤ (d.signalDead r).total - 1 ∧ ∃ f, f.Sublist d.free ∧
      d.deadLocked r = { d.signalDead r with total := (d.signalDead r).total - 1, free := f }) := by
  have hf : (d.signalDead r).free = d.free := by
    rcases signalDead_cases d r with ⟨_, h⟩ | ⟨c, _, h⟩ <;> rw [h]
  simp only [DC.deadLocked]
  split_ifs with h1 h2
  · left; exact ⟨h1, rfl⟩
  · right; refine ⟨by omega, _, ?_, rfl⟩
    rw [hf]; exact List.eraseIdx_sublist _ _
  · right; refine ⟨by omega, d.free, List.Sublist.refl _, ?_⟩
    cases hd : d.signalDead r
    simp [hd] at hf
    simp [hf]

theorem acquireFailed_ref (e : Err) : (acquireFailed e).ref = none := by
  unfold acquireFailed; split <;> rfl

theorem recv_cases (m : reqMap) (key : Nat) :
    (m.recv key = none ∧ (m.slots.map Prod.fst).count key = 0) ∨
    (∃ c pre post, m.recv key = some (c, ⟨m.next, m.entries, pre ++ post⟩) ∧
      m.slots = pre ++ (key, c) :: post ∧ (pre.map Prod.fst).count key = 0) := by
  unfold reqMap.recv
  cases h : takeSlot key m.slots with
  | none => left; exact ⟨rfl, takeSlot_none h⟩
  | some x =>
    obtain ⟨c, rest⟩ := x
    obtain ⟨pre, post, h1, h2, h3⟩ := takeSlot_some h
    right; exact ⟨c, pre, post, by simp [h2], h1, h3⟩

theorem isDead_eq (d : DC) (r : Nat) : d.isDead r = deadAt d.conns r := rfl

theorem isDeleted_eq (d : DC) (r : Nat) : d.isDeleted r = deletedAt d.conns r := rfl

theorem connId_eq (d : DC) (r : Nat) : d.connId r = idAt d.conns r := rfl

theorem deadAt_set_dead {cs : List poolConn} {r : Nat} {c : poolConn} (h : cs[r]? = some c) (p : Nat) :
    deadAt (cs.set r { c with dead := true }) p = if p = r then true else deadAt cs p := by
  have hr : r < cs.length := (List.getElem?_eq_some.mp h).1
  unfold deadAt
  rw [List.getElem?_set]
  by_cases hp : r = p
  · subst hp; simp [hr]
  · have : ¬ p = r := fun h => hp h.symm
    simp [hp, this]

theorem deletedAt_set_dead {cs : List poolConn} {r : Nat} {c : poolConn} (h : cs[r]? = some c) (p : Nat) :
    deletedAt (cs.set r { c with dead := true }) p = deletedAt cs p := by
  have hr : r < cs.length := (List.getElem?_eq_some.mp h).1
  unfold deletedAt
  rw [List.getElem?_set]
  by_cases hp : r = p
  · subst hp; simp [hr, h]
  · simp [hp]

theorem deadAt_set_deleted {cs : List poolConn} {r : Nat} {c : poolConn} (h : cs[r]? = some c) (p : Nat) :
    deadAt (cs.set r { c with deleted := true }) p = deadAt cs p := by
  have hr : r < cs.length := (List.getElem?_eq_some.mp h).1
  unfold deadAt
  rw [List.getElem?_set]
  by_cases hp : r = p
  · subst hp; simp [hr, h]
  · simp [hp]

theorem deletedAt_set_deleted {cs : List poolConn} {r : Nat} {c : poolConn} (h : cs[r]? = some c) (p : Nat) :
    deletedAt (cs.set r { c with deleted := true }) p = if p = r then true else deletedAt cs p := by
  have hr : r < cs.length := (List.getElem?_eq_some.mp h).1
  unfold deletedAt
  rw [List.getElem?_set]
  by_cases hp : r = p
  · subst hp; simp [hr]
  · have : ¬ p = r := fun h => hp h.symm
    simp [hp, this]

theorem deadAt_append (cs : List poolConn) (i : Int) (p : Nat) :
    deadAt (cs ++ [⟨i, false, false⟩]) p = deadAt cs p := by
  unfold deadAt
  rw [List.getElem?_append]
  by_cases hp : p < cs.length
  · simp [hp]
  · have h1 : cs[p]? = none := List.getElem?_eq_none (by omega)
    simp only [hp, if_false, h1]
    cases hn : p - cs.length <;> simp

theorem deletedAt_append (cs : List poolConn) (i : Int) (p : Nat) :
    deletedAt (cs ++ [⟨i, false, false⟩]) p = deletedAt cs p := by
  unfold deletedAt
  rw [List.getElem?_append]
  by_cases hp : p < cs.length
  · simp [hp]
  · have h1 : cs[p]? = none := List.getElem?_eq_none (by omega)
    simp only [hp, if_false, h1]
    cases hn : p - cs.length <;> simp

theorem live_set_dead {cs : List poolConn} {r : Nat} {c : poolConn} (h : cs[r]? = some c) :
    live (cs.set r { c with dead := true }) + b2n (!c.dead) = live cs := by
  have := countP_set_add (fun c => !c.dead) h { c with dead := true }
  simp [b2n] at this
  simp [live, b2n]; omega

theorem live_set_deleted {cs : List poolConn} {r : Nat} {c : poolConn} (h : cs[r]? = some c) :
    live (cs.set r { c with deleted := true }) = live cs := by
  have := countP_set_add (fun c => !c.dead) h { c with deleted := true }
  simp [b2n] at this
  simp [live]; omega

theorem live_append (cs : List poolConn) (i : Int) :
    live (cs ++ [⟨i, false, false⟩]) = live cs + 1 := by
  simp [live, List.countP_append]

theorem deadAt_of_some {cs : List poolConn} {r : Nat} {c : poolConn} (h : cs[r]? = some c) :
    deadAt cs r = c.dead := by simp [deadAt, h]

theorem deletedAt_of_some {cs : List poolConn} {r : Nat} {c : poolConn} (h : cs[r]? = some c) :
    deletedAt cs r = c.deleted := by simp [deletedAt, h]

theorem owns_le_refc (p : Nat) (pc : PC) : pc.owns p ≤ pc.refc p := by
  cases pc <;> simp [PC.owns, PC.refc, PC.ref]

theorem won_le_refc (p : Nat) (pc : PC) : pc.won p ≤ pc.refc p := by
  cases pc <;> simp [PC.won, PC.refc, PC.ref]

/-- A step that leaves `conns`, `free`, the slots, `total`, `max` and `panicked` alone and
only drops what the goroutine holds. -/
theorem post_frame {d : DC} {pc : PC} {o : Out} (hpre : Pre d pc)
    (hc : o.dc.conns = d.conns) (hf : o.dc.free = d.free)
    (hq : o.dc.freeReq.slots = d.freeReq.slots) (ht : o.dc.total = d.total)
    (hm : o.dc.max = d.max) (hp : o.dc.panicked = d.panicked) (hn : d.nextConn ≤ o.dc.nextConn)
    (hs : o.spawn = [])
    (h1 : ∀ p, o.pc.refc p ≤ pc.refc p) (h2 : ∀ p, o.pc.owns p ≤ pc.owns p)
    (h3 : o.pc.pending = pc.pending) (h4 : ∀ r, o.pc.won r = pc.won r)
    (h5 : ∀ i, o.pc.pendId i ≤ pc.pendId i + (if d.nextConn < i ∧ i ≤ o.dc.nextConn then 1 else 0)) :
    Post d pc o := by
  have hsl : ∀ p, o.dc.slotc p = d.slotc p := by intro p; simp [DC.slotc, hq]
  refine ⟨by rw [hc], hm, ?_, ?_, ?_, ?_, ?_, hn, ?_⟩
  · intro p hp'
    rw [hc] at hp'
    have a := hpre.vfree p hp'
    have b := hpre.vslot p hp'
    have c := hpre.vref p hp'
    have e := h1 p
    simp [hf, hsl, hs, weigh, a, b]; omega
  · intro p
    have e := h2 p
    simp [hf, hsl, hs, weigh]; omega
  · simp [ht, hc, h3, hs, weigh]
  · intro r
    simp [isDead_eq, isDeleted_eq, hc, hs, weigh, h4]
  · intro h; rw [hp]; exact h
  · intro i
    have e := h5 i
    simp [DC.idc, hc, hs, weigh]; omega

theorem acquireFailed_w (e : Err) :
    (∀ p, (acquireFailed e).refc p = 0) ∧ (∀ p, (acquireFailed e).owns p = 0) ∧
    (acquireFailed e).pending = 0 ∧ (∀ r, (acquireFailed e).won r = 0) ∧
    (∀ i, (acquireFailed e).pendId i = 0) := by
  unfold acquireFailed
  split <;> simp [PC.refc, PC.ref, PC.owns, PC.pending, PC.won, PC.pendId]

theorem post_recv {d : DC} {pc : PC} (hpre : Pre d pc) {key c : Nat} {pre post : List (Nat × Nat)}
    (hs : d.freeReq.slots = pre ++ (key, c) :: post) (pc2 : PC)
    (h1 : ∀ p, pc2.refc p = if c = p then 1 else 0) (h2 : ∀ p, pc2.owns p = if c = p then 1 else 0)
    (h3 : pc2.pending = 0) (h4 : ∀ r, pc2.won r = 0) (h5 : ∀ i, pc2.pendId i = 0)
    (g3 : pc.pending = 0) (g4 : ∀ r, pc.won r = 0) :
    Post d pc ⟨{ d with freeReq := ⟨d.freeReq.next, d.freeReq.entries, pre ++ post⟩ }, pc2, []⟩ := by
  refine ⟨le_refl _, rfl, ?_, ?_, ?_, ?_, fun h => h, le_refl _, ?_⟩
  · intro p hp
    have a := hpre.vfree p hp
    have b := hpre.vslot p hp
    simp [DC.slotc, hs, List.count_append, List.count_cons, weigh, h1] at a b hp ⊢
    omega
  · intro p
    simp [DC.slotc, hs, List.count_append, List.count_cons, weigh, h2]
    omega
  · simp [h3, g3, weigh]
  · intro r; simp [isDead_eq, isDeleted_eq, h4, g4, weigh]
  · intro i; simp [DC.idc, h5, weigh]; omega

theorem post_release {d : DC} {pc : PC} (hpre : Pre d pc) (conn : Nat) (pc2 : PC)
    (g1 : ∀ p, pc.refc p = if conn = p then 1 else 0) (g2 : ∀ p, pc.owns p = if conn = p then 1 else 0)
    (g3 : pc.pending = 0) (g4 : ∀ r, pc.won r = 0)
    (h1 : ∀ p, pc2.refc p = 0) (h2 : ∀ p, pc2.owns p = 0)
    (h3 : pc2.pending = 0) (h4 : ∀ r, pc2.won r = 0) (h5 : ∀ i, pc2.pendId i = 0) :
    Post d pc ⟨d.release (some conn), pc2, []⟩ := by
  rcases release_cases d conn with ⟨_, h⟩ | ⟨k, rest, _, h⟩ <;> rw [h] <;>
    refine ⟨le_refl _, rfl, ?_, ?_, ?_, ?_, fun h => h, le_refl _, ?_⟩
  all_goals first
    | (intro p hp
       have a := hpre.vfree p hp
       have b := hpre.vslot p hp
       have c := hpre.vref p hp
       simp [DC.slotc, List.count_append, List.count_cons, weigh, h1, g1] at a b c hp ⊢
       omega)
    | (intro p
       simp [DC.slotc, List.count_append, List.count_cons, weigh, h2, g2]
       done)
    | (intro p
       simp [DC.slotc, List.count_append, List.count_cons, weigh, h2, g2]
       omega)
    | (simp [h3, g3, weigh]; done)
    | (intro r; simp [isDead_eq, isDeleted_eq, h4, g4, weigh]; done)
    | (intro i; simp [DC.idc, h5, weigh]; omega)

theorem afterDead_frame (d : DC) (k : Caller) :
    (afterDead d k).dc.conns = d.conns ∧ (afterDead d k).dc.free = d.free ∧
    (afterDead d k).dc.freeReq = d.freeReq ∧
    (afterDead d k).spawn = [] ∧ (afterDead d k).dc.total = d.total ∧
    (afterDead d k).dc.panicked = d.panicked ∧ (afterDead d k).dc.nextConn = d.nextConn ∧
    (afterDead d k).dc.max = d.max ∧
    ((afterDead d k).pc = .retry ∨ (afterDead d k).pc = .exited) := by
  cases k <;> simp [afterDead]

theorem map_id_set {cs : List poolConn} {r : Nat} {c c2 : poolConn} (h : cs[r]? = some c)
    (hid : c2.id = c.id) : (cs.set r c2).map (fun c => c.id) = cs.map (fun c => c.id) := by
  obtain ⟨pre, post, h1, h2, _⟩ := set_decomp h c2
  rw [h2]; conv => rhs; rw [h1]
  simp [hid]

theorem threadStep_post (d : DC) (pc : PC) (ch : Choice) (hpre : Pre d pc) :
    Post d pc (threadStep d pc ch) := by
  have aw := acquireFailed_w
  cases pc <;> simp only [threadStep]
  all_goals first
    | (apply post_frame hpre <;> simp [PC.refc, PC.ref, PC.owns, PC.pending, PC.won, PC.pendId, aw, DC.resetStuck, DC.incNextConn]; done)
    | (split <;> apply post_frame hpre <;> simp [PC.refc, PC.ref, PC.owns, PC.pending, PC.won, PC.pendId, aw]; done)
    | (cases ch <;> simp only [] <;> (try split) <;> apply post_frame hpre <;> simp [PC.refc, PC.ref, PC.owns, PC.pending, PC.won, PC.pendId, aw]; done)
    | skip
  case creating =>
    apply post_frame hpre <;> simp [PC.refc, PC.ref, PC.owns, PC.pending, PC.won, PC.pendId, DC.incNextConn]
    intro i
    split_ifs <;> omega
  case waitReady conn =>
    cases ch <;> simp only [] <;> (try split) <;> apply post_frame hpre <;> simp only [aw] <;>
      simp [PC.refc, PC.ref, PC.owns, PC.pending, PC.won, PC.pendId]
  case unstuck key =>
    apply post_frame hpre <;> simp [PC.refc, PC.ref, PC.owns, PC.pending, PC.won, PC.pendId, reqMap.delete]
  case cancelled key e =>
    apply post_frame hpre <;> simp [PC.refc, PC.ref, PC.owns, PC.pending, PC.won, PC.pendId, reqMap.delete]
  case retry =>
    rcases acquireLocked_cases d with ⟨f, r, h1, h2⟩ | ⟨h1, hc, h2⟩ | ⟨h1, hc, h2⟩ <;> rw [h2] <;>
      simp only []
    · refine ⟨le_refl _, rfl, ?_, ?_, ?_, ?_, ?_, le_refl _, ?_⟩
      · intro p hp
        have a := hpre.vfree p hp
        have b := hpre.vslot p hp
        simp [h1, List.count_append, List.count_cons, DC.slotc, PC.refc, PC.ref, weigh] at a b hp ⊢
        omega
      · intro p
        simp [h1, List.count_append, List.count_cons, DC.slotc, PC.owns, weigh]
        omega
      · simp [PC.pending, weigh]
      · intro r; simp [isDead_eq, isDeleted_eq, PC.won, weigh]
      · exact id
      · intro i; simp [DC.idc, PC.pendId, weigh]
    · refine ⟨le_refl _, rfl, ?_, ?_, ?_, ?_, ?_, le_refl _, ?_⟩
      · intro p hp
        have a := hpre.vfree p hp
        have b := hpre.vslot p hp
        simp [h1, DC.slotc, PC.refc, PC.ref, weigh] at a b ⊢
        omega
      · intro p
        simp [h1, DC.slotc, PC.owns, weigh]
      · simp [PC.pending, weigh]
      · intro r; simp [isDead_eq, isDeleted_eq, PC.won, weigh]
      · exact id
      · intro i; simp [DC.idc, PC.pendId, weigh]
    · apply post_frame hpre <;> simp [PC.refc, PC.ref, PC.owns, PC.pending, PC.won, PC.pendId, h1]
  case created id =>
    refine ⟨by simp [DC.createConnection], rfl, ?_, ?_, ?_, ?_, ?_, le_refl _, ?_⟩
    · intro p hp
      simp [DC.createConnection] at hp
      have a := hpre.vfree p (by omega)
      have b := hpre.vslot p (by omega)
      simp [DC.createConnection, DC.slotc, PC.refc, PC.ref, weigh] at a b ⊢
      omega
    · intro p
      simp [DC.createConnection, DC.slotc, PC.owns, weigh]
      split_ifs <;> omega
    · simp [DC.createConnection, PC.pending, weigh, live_append]
      omega
    · intro r
      simp [isDead_eq, isDeleted_eq, DC.createConnection, PC.won, weigh, deadAt_append, deletedAt_append]
    · exact fun h => h
    · intro i
      simp [DC.idc, DC.createConnection, PC.pendId, weigh, List.count_append, List.count_cons]
  case parked key =>
    cases ch <;> simp only []
    case deliver =>
      rcases recv_cases d.freeReq key with ⟨h, _⟩ | ⟨c, pre, post, h, hs, _⟩ <;> rw [h] <;> simp only []
      · apply post_frame hpre <;> simp [PC.refc, PC.ref, PC.owns, PC.pending, PC.won, PC.pendId]
      · apply post_recv hpre hs <;> simp [PC.refc, PC.ref, PC.owns, PC.pending, PC.won, PC.pendId]
    all_goals first
      | (apply post_frame hpre <;> simp [PC.refc, PC.ref, PC.owns, PC.pending, PC.won, PC.pendId]; done)
      | (split <;> apply post_frame hpre <;> simp [PC.refc, PC.ref, PC.owns, PC.pending, PC.won, PC.pendId]; done)
  case unstuckDrain key =>
    rcases recv_cases d.freeReq key with ⟨h, _⟩ | ⟨c, pre, post, h, hs, _⟩ <;> rw [h] <;> simp only []
    · apply post_frame hpre <;> simp [PC.refc, PC.ref, PC.owns, PC.pending, PC.won, PC.pendId]
    · apply post_recv hpre hs <;> simp [PC.refc, PC.ref, PC.owns, PC.pending, PC.won, PC.pendId]
  case cancelDrain key e =>
    rcases recv_cases d.freeReq key with ⟨h, _⟩ | ⟨c, pre, post, h, hs, _⟩ <;> rw [h] <;> simp only []
    · apply post_frame hpre <;> simp only [aw] <;> simp [PC.refc, PC.ref, PC.owns, PC.pending, PC.won, PC.pendId]
    · apply post_recv hpre hs <;> simp [PC.refc, PC.ref, PC.owns, PC.pending, PC.won, PC.pendId]
  case cancelRelease conn e =>
    apply post_release hpre <;> (try simp only [aw]) <;>
      simp [PC.refc, PC.ref, PC.owns, PC.pending, PC.won, PC.pendId]
  case releasing conn res =>
    apply post_release hpre <;> simp [PC.refc, PC.ref, PC.owns, PC.pending, PC.won, PC.pendId]
  case deadSwap r k =>
    have hr : r < d.conns.length := by
      by_contra hcon
      have := hpre.vref r (by omega)
      simp [PC.refc, PC.ref] at this
    rcases swapDeleted_cases d r with ⟨h, _⟩ | ⟨c, hc, h⟩
    · rw [List.getElem?_eq_none_iff] at h; omega
    · rw [h]
      cases hdel : c.deleted <;> simp only []
      · refine ⟨by simp, rfl, ?_, ?_, ?_, ?_, fun h => h, le_refl _, ?_⟩
        · intro p hp
          simp at hp
          have a := hpre.vfree p hp
          have b := hpre.vslot p hp
          have e := hpre.vref p hp
          simp [DC.slotc, PC.refc, PC.ref, weigh] at a b e ⊢
          omega
        · intro p; simp [DC.slotc, PC.owns, weigh]
        · simp [PC.pending, weigh, live_set_deleted hc]
        · intro p
          have e := deletedAt_of_some hc
          simp [isDead_eq, isDeleted_eq, PC.won, weigh, deadAt_set_deleted hc,
            deletedAt_set_deleted hc, b2n]
          by_cases hp : p = r
          · subst hp; simp [e, hdel]
          · have : ¬ r = p := fun h => hp h.symm
            simp [hp, this]
        · intro i
          have e : (d.conns.set r { c with deleted := true }).map (fun c => c.id)
              = d.conns.map (fun c => c.id) := map_id_set hc rfl
          simp [DC.idc, PC.pendId, weigh, e]
      · obtain ⟨f1, f2, f3, f4, f5, f6, f7, f8, f9⟩ := afterDead_frame d k
        apply post_frame hpre <;> (try simp [f1, f2, f3, f4, f5, f6, f7, f8]) <;>
          rcases f9 with f9 | f9 <;> rw [f9] <;>
          simp [PC.refc, PC.ref, PC.owns, PC.pending, PC.won, PC.pendId]
  case deadLock r k =>
    have hr : r < d.conns.length := by
      by_contra hcon
      have := hpre.vref r (by omega)
      simp [PC.refc, PC.ref] at this
    obtain ⟨c, hc⟩ : ∃ c, d.conns[r]? = some c := ⟨d.conns[r], List.getElem?_eq_getElem hr⟩
    have hdead : c.dead = false := by
      have := hpre.wonLive r (by simp [PC.won])
      simpa [isDead_eq, deadAt, hc] using this
    have hsig : d.signalDead r = { d with conns := d.conns.set r { c with dead := true } } := by
      rcases signalDead_cases d r with ⟨h, _⟩ | ⟨c2, h, h2⟩
      · rw [hc] at h; cases h
      · rw [hc] at h; cases h; exact h2
    have hlive := live_set_dead hc
    have htot := hpre.tot
    simp [hdead, b2n] at hlive
    rcases deadLocked_cases d r with ⟨h1, _⟩ | ⟨h1, f, hf, h2⟩
    · rw [hsig] at h1; simp at h1; omega
    · obtain ⟨f1, f2, f3, f4, f5, f6, f7, f8, f9⟩ := afterDead_frame (d.deadLocked r) k
      have e1 : (d.deadLocked r).conns = d.conns.set r { c with dead := true } := by rw [h2, hsig]
      have e2 : (d.deadLocked r).free = f := by rw [h2]
      have e3 : (d.deadLocked r).freeReq = d.freeReq := by rw [h2, hsig]
      have e5 : (d.deadLocked r).total = d.total - 1 := by rw [h2, hsig]
      have e6 : (d.deadLocked r).panicked = d.panicked := by rw [h2, hsig]
      have e7 : (d.deadLocked r).nextConn = d.nextConn := by rw [h2, hsig]
      have e8 : (d.deadLocked r).max = d.max := by rw [h2, hsig]
      rw [e1] at f1; rw [e2] at f2; rw [e3] at f3; rw [e5] at f5; rw [e6] at f6
      rw [e7] at f7; rw [e8] at f8
      have g1 : ∀ p, (afterDead (d.deadLocked r) k).pc.refc p = 0 := by
        intro p; rcases f9 with f9 | f9 <;> rw [f9] <;> simp [PC.refc, PC.ref]
      have g2 : ∀ p, (afterDead (d.deadLocked r) k).pc.owns p = 0 := by
        intro p; rcases f9 with f9 | f9 <;> rw [f9] <;> simp [PC.owns]
      have g3 : (afterDead (d.deadLocked r) k).pc.pending = 0 := by
        rcases f9 with f9 | f9 <;> rw [f9] <;> simp [PC.pending]
      have g4 : ∀ p, (afterDead (d.deadLocked r) k).pc.won p = 0 := by
        intro p; rcases f9 with f9 | f9 <;> rw [f9] <;> simp [PC.won]
      have g5 : ∀ i, (afterDead (d.deadLocked r) k).pc.pendId i = 0 := by
        intro i; rcases f9 with f9 | f9 <;> rw [f9] <;> simp [PC.pendId]
      refine ⟨by simp [f1], f8, ?_, ?_, ?_, ?_, ?_, by rw [f7], ?_⟩
      · intro p hp
        simp [f1] at hp
        have a := hpre.vfree p hp
        have b := hpre.vslot p hp
        have s := hf.count_le p
        simp only [DC.slotc, f2, f3, f4, g1, weigh] at a b ⊢
        simp; omega
      · intro p
        have s := hf.count_le p
        simp only [DC.slotc, f2, f3, f4, g2, weigh]
        simp [PC.owns]; omega
      · simp only [f1, f4, f5, g3, weigh]
        simp [PC.pending]; omega
      · intro p
        have e := deadAt_of_some hc
        simp only [isDead_eq, isDeleted_eq, f1, f4, g4, weigh, deadAt_set_dead hc,
          deletedAt_set_dead hc]
        by_cases hp : p = r
        · subst hp; simp [e, hdead, b2n, PC.won]
        · have : ¬ r = p := fun h => hp h.symm
          simp [hp, this, b2n, PC.won]
      · intro h; rw [f6]; exact h
      · intro i
        have e : (d.conns.set r { c with dead := true }).map (fun c => c.id)
            = d.conns.map (fun c => c.id) := map_id_set hc rfl
        simp only [DC.idc, f1, f4, g5, weigh, e]
        simp [PC.pendId]

theorem weigh_ge (f : PC → Nat) {ts : List PC} {i : Nat} {pc : PC} (h : ts[i]? = some pc) :
    f pc ≤ weigh f ts := by
  obtain ⟨pre, post, h1, _, _⟩ := set_decomp h pc
  rw [h1]; simp [weigh]; omega

theorem weigh_mono {f g : PC → Nat} (h : ∀ t, f t ≤ g t) (ts : List PC) :
    weigh f ts ≤ weigh g ts := by
  induction ts with
  | nil => simp [weigh]
  | cons t ts ih => simp [weigh] at ih ⊢; have := h t; omega

theorem b2n_le (b : Bool) : b2n b ≤ 1 := by cases b <;> simp [b2n]

theorem Inv.pre {s : Sys} (h : Inv s) {tid : Nat} {pc : PC} (hpc : s.threads[tid]? = some pc) :
    Pre s.dc pc := by
  refine ⟨?_, ?_, ?_, ?_, ?_⟩
  · intro p hp; have := h.valid p hp; omega
  · intro p hp; have := h.valid p hp; omega
  · intro p hp
    have := h.valid p hp
    have := weigh_ge (PC.refc p) hpc
    omega
  · intro r hr
    have a := h.won r
    have b := weigh_ge (PC.won r) hpc
    have c := b2n_le (s.dc.isDeleted r)
    cases hd : s.dc.isDead r
    · rfl
    · simp [hd, b2n] at a; simp [b2n] at c; omega
  · have := h.total; omega

theorem inv_init (max : Int) : Inv (Sys.init max) := by
  refine ⟨?_, ?_, ?_, ?_, rfl, ?_, ?_⟩ <;>
    simp [Sys.init, NewDC, newReqMap, DC.slotc, weigh, live, DC.isDeleted, DC.isDead, b2n, DC.idc]

theorem step_invoke {s : Sys} (h : s.dc.panicked = false) :
    s.step .invoke = ⟨s.dc, s.threads ++ [.start]⟩ := by simp [Sys.step, h]

theorem step_close {s : Sys} (h : s.dc.panicked = false) :
    s.step .close = ⟨s.dc, s.threads ++ [.closeStart]⟩ := by simp [Sys.step, h]

theorem step_cancelParent {s : Sys} (h : s.dc.panicked = false) :
    s.step .cancelParent = ⟨{ s.dc with ctxDone := true }, s.threads⟩ := by simp [Sys.step, h]

theorem step_run_none {s : Sys} {tid : Nat} (ch : Choice) (hpc : s.threads[tid]? = none) :
    s.step (.run tid ch) = s := by
  simp [Sys.step, hpc]

theorem step_run_some {s : Sys} (h : s.dc.panicked = false) {tid : Nat} (ch : Choice) {pc : PC}
    (hpc : s.threads[tid]? = some pc) :
    s.step (.run tid ch) = ⟨(threadStep s.dc pc ch).dc,
      s.threads.set tid (threadStep s.dc pc ch).pc ++ (threadStep s.dc pc ch).spawn⟩ := by
  simp [Sys.step, hpc, h]

theorem step_panicked {s : Sys} (h : s.dc.panicked = true) (ev : Event) : s.step ev = s := by
  simp [Sys.step, h]

theorem inv_step {s : Sys} (h : Inv s) (ev : Event) : Inv (s.step ev) := by
  cases ev with
  | invoke =>
    rw [step_invoke h.np]
    refine ⟨?_, ?_, ?_, ?_, h.np, h.next, ?_⟩
    · intro p hp; have := h.valid p hp; simpa [weigh_append, weigh, PC.refc, PC.ref] using this
    · intro p; have := h.own p; simpa [weigh_append, weigh, PC.owns] using this
    · have := h.total; simpa [weigh_append, weigh, PC.pending] using this
    · intro r; have := h.won r; simpa [weigh_append, weigh, PC.won] using this
    · intro i; have := h.ids i; simpa [weigh_append, weigh, PC.pendId] using this
  | close =>
    rw [step_close h.np]
    refine ⟨?_, ?_, ?_, ?_, h.np, h.next, ?_⟩
    · intro p hp; have := h.valid p hp; simpa [weigh_append, weigh, PC.refc, PC.ref] using this
    · intro p; have := h.own p; simpa [weigh_append, weigh, PC.owns] using this
    · have := h.total; simpa [weigh_append, weigh, PC.pending] using this
    · intro r; have := h.won r; simpa [weigh_append, weigh, PC.won] using this
    · intro i; have := h.ids i; simpa [weigh_append, weigh, PC.pendId] using this
  | cancelParent =>
    rw [step_cancelParent h.np]
    exact ⟨h.valid, h.own, h.total, h.won, h.np, h.next, h.ids⟩
  | run tid ch =>
    cases hpc : s.threads[tid]? with
    | none => rw [step_run_none ch hpc]; exact h
    | some pc =>
      rw [step_run_some h.np ch hpc]
      have hpre := h.pre hpc
      have hpost := threadStep_post s.dc pc ch hpre
      generalize threadStep s.dc pc ch = o at hpost
      refine ⟨?_, ?_, ?_, ?_, hpost.np h.np, ?_, ?_⟩
      · intro p hp
        simp only [] at hp
        have a := hpost.valid p hp
        have b := h.valid p (by have := hpost.len; omega)
        have c := weigh_set (PC.refc p) hpc o.pc
        simp only [weigh_append]
        omega
      · intro p
        have a := hpost.own p
        have b := h.own p
        have c := weigh_set (PC.owns p) hpc o.pc
        have e := weigh_ge (PC.owns p) hpc
        have v := h.valid p
        have m := weigh_mono (fun t => owns_le_refc p t) s.threads
        simp only [weigh_append]
        split_ifs at a with hp
        · have := v hp; omega
        · omega
      · have a := hpost.total
        have b := h.total
        have c := weigh_set PC.pending hpc o.pc
        simp only [weigh_append]
        push_cast
        omega
      · intro r
        have a := hpost.won r
        have b := h.won r
        have c := weigh_set (PC.won r) hpc o.pc
        simp only [weigh_append]
        omega
      · have := hpost.next; have := h.next; simp only []; omega
      · intro i
        have a := hpost.ids i
        have b := h.ids i
        have c := weigh_set (PC.pendId i) hpc o.pc
        have n := hpost.next
        have n0 := h.next
        simp only [weigh_append]
        split_ifs at a b ⊢ <;> omega

theorem inv_reachable {max : Int} {s : Sys} (h : Reachable max s) : Inv s := by
  induction h with
  | init => exact inv_init max
  | step ev _ ih => exact inv_step ih ev

theorem release_total (d : DC) (r : Option Nat) :
    (d.release r).total = d.total ∧ (d.release r).max = d.max := by
  cases r with
  | none => simp [DC.release]
  | some r => rcases release_cases d r with ⟨_, h⟩ | ⟨k, rest, _, h⟩ <;> rw [h] <;> simp

theorem afterDead_total (d : DC) (k : Caller) :
    (afterDead d k).dc.total = d.total ∧ (afterDead d k).dc.max = d.max := by
  cases k <;> simp [afterDead]

theorem signalDead_total (d : DC) (r : Nat) :
    (d.signalDead r).total = d.total ∧ (d.signalDead r).max = d.max := by
  rcases signalDead_cases d r with ⟨_, h⟩ | ⟨c, _, h⟩ <;> rw [h] <;> simp

theorem deadLocked_total (d : DC) (r : Nat) :
    (d.deadLocked r).total = d.total - 1 ∧ (d.deadLocked r).max = d.max := by
  have s := signalDead_total d r
  rcases deadLocked_cases d r with ⟨_, h⟩ | ⟨_, f, _, h⟩ <;> rw [h] <;> simp [s]

theorem swapDeleted_total (d : DC) (r : Nat) :
    (d.swapDeleted r).2.total = d.total ∧ (d.swapDeleted r).2.max = d.max := by
  rcases swapDeleted_cases d r with ⟨_, h⟩ | ⟨c, _, h⟩ <;> rw [h] <;> simp

/-- Every atomic action keeps `max`, and raises `total` only by one and only below the limit. -/
theorem threadStep_cap (d : DC) (pc : PC) (ch : Choice) :
    (threadStep d pc ch).dc.max = d.max ∧
    ((threadStep d pc ch).dc.total ≤ d.total ∨
      ((threadStep d pc ch).dc.total = d.total + 1 ∧ (d.max < 1 ∨ d.total < d.max))) := by
  cases pc <;> simp only [threadStep]
  case retry =>
    rcases acquireLocked_cases d with ⟨f, r, _, h⟩ | ⟨_, hc, h⟩ | ⟨_, _, h⟩
    · rw [h]; simp
    · rw [h]; simp [hc]
    · rw [h]; simp
  case deadSwap r k =>
    have a := swapDeleted_total d r
    have b := afterDead_total d k
    rcases hs : d.swapDeleted r with ⟨b1, d1⟩
    rw [hs] at a
    cases b1 <;> simp_all
  case deadLock r k =>
    have a := deadLocked_total d r
    have b := afterDead_total (d.deadLocked r) k
    simp [a, b]
  case cancelRelease c e => simp [release_total]
  case releasing c e => simp [release_total]
  all_goals first
    | (simp [DC.incNextConn, DC.createConnection, DC.resetStuck]; done)
    | (split <;> simp; done)
    | (cases ch <;> simp only [] <;> (try split) <;> simp; done)

theorem reachable_run (max : Int) (evs : List Event) : Reachable max ((Sys.init max).run evs) := by
  suffices h : ∀ s, Reachable max s → Reachable max (s.run evs) from h _ Reachable.init
  induction evs with
  | nil => intro s hs; exact hs
  | cons ev evs ih => intro s hs; exact ih _ (Reachable.step ev hs)

theorem cap_reachable {max : Int} {s : Sys} (h : Reachable max s) :
    s.dc.max = max ∧ (1 ≤ max → s.dc.total ≤ max) := by
  induction h with
  | init => simp [Sys.init, NewDC]; intro h; omega
  | @step s ev hs ih =>
    by_cases hp : s.dc.panicked = true
    · rw [step_panicked hp]; exact ih
    · have hp : s.dc.panicked = false := by simpa using hp
      cases ev with
      | invoke => rw [step_invoke hp]; exact ih
      | close => rw [step_close hp]; exact ih
      | cancelParent => rw [step_cancelParent hp]; exact ih
      | run tid ch =>
        cases hpc : s.threads[tid]? with
        | none => rw [step_run_none ch hpc]; exact ih
        | some pc =>
          rw [step_run_some hp ch hpc]
          have c := threadStep_cap s.dc pc ch
          obtain ⟨i1, i2⟩ := ih
          refine ⟨by simp only []; rw [c.1]; exact i1, ?_⟩
          intro hm
          have := i2 hm
          simp only []
          rcases c.2 with c2 | ⟨c2, c3⟩ <;> omega

/-- C1 (capacity).  For a pool created with limit `max >= 1`, every state reachable from
`NewDC` by any interleaving of the goroutines (calls of `InvokeRaw` with their `acquire`,
`release` and `dead` steps, the supervised tasks, `Close`) has `total <= max`. -/
theorem capacity_respected (max : Int) (s : Sys) (hmax : 1 ≤ max) (h : Reachable max s) :
    s.dc.total ≤ max := (cap_reachable h).2 hmax

theorem capacity_respected_witness : ((Sys.init 2).run traceCold).dc.total ≤ 2 :=
  capacity_respected 2 _ (by decide) (reachable_run 2 traceCold)

/-- C3 (no double release).  In every reachable state no `poolConn` occurs more than once
in `free`. -/
theorem free_nodup (max : Int) (s : Sys) (h : Reachable max s) : s.dc.free.Nodup := by
  rw [List.nodup_iff_count_le_one]
  intro p
  have := (inv_reachable h).own p
  omega

theorem free_nodup_witness :
    Reachable 2 ((Sys.init 2).run traceCold) ∧ ((Sys.init 2).run traceCold).dc.free.Nodup :=
  ⟨reachable_run 2 traceCold, free_nodup 2 _ (reachable_run 2 traceCold)⟩

/-- C7 (total never negative).  In every reachable state `total >= 0` and the panic of `dead`
has not been raised; and whenever a goroutine stands before the critical section of `dead`,
the decrement it is about to make leaves `total >= 0`, so the panic branch is not taken. -/
theorem total_nonneg (max : Int) (s : Sys) (h : Reachable max s) :
    0 ≤ s.dc.total ∧ s.dc.panicked = false ∧
    ∀ (tid r : Nat) (k : Caller), s.threads[tid]? = some (PC.deadLock r k) →
      0 ≤ s.dc.total - 1 ∧ (s.dc.deadLocked r).panicked = false := by
  have hi := inv_reachable h
  refine ⟨by have := hi.total; omega, hi.np, ?_⟩
  intro tid r k hpc
  have hs := inv_reachable (Reachable.step (.run tid .tick) h)
  rw [step_run_some hi.np .tick hpc] at hs
  have t := hs.total
  have p := hs.np
  simp only [threadStep] at t p
  have f := afterDead_frame (s.dc.deadLocked r) k
  have dt := deadLocked_total s.dc r
  rw [f.2.2.2.2.1, dt.1] at t
  rw [f.2.2.2.2.2.1] at p
  exact ⟨by omega, p⟩

theorem total_nonneg_witness :
    Reachable 1 ((Sys.init 1).run (traceDeadHeld.take 12)) ∧
    ((Sys.init 1).run (traceDeadHeld.take 12)).threads[1]? = some (PC.deadLock 0 Caller.task) ∧
    0 ≤ ((Sys.init 1).run (traceDeadHeld.take 12)).dc.total - 1 :=
  ⟨reachable_run 1 _, by decide,
    ((total_nonneg 1 _ (reachable_run 1 (traceDeadHeld.take 12))).2.2 1 0 Caller.task
      (by decide)).1⟩

theorem scanFree_spec (cid : Nat → Int) (rid : Int) (l : List Nat) (i idx : Int) :
    (scanFree cid rid l i idx = idx ∧ ∀ q ∈ l, cid q ≠ rid) ∨
    (∃ j : Nat, ∃ hj : j < l.length, scanFree cid rid l i idx = i + j ∧ cid (l[j]) = rid) := by
  induction l generalizing i idx with
  | nil => left; simp [scanFree]
  | cons c cs ih =>
    simp only [scanFree]
    rcases ih (i + 1) (if cid c = rid then i else idx) with ⟨h1, h2⟩ | ⟨j, hj, h1, h2⟩
    · by_cases hc : cid c = rid
      · right
        refine ⟨0, by simp, ?_, by simpa using hc⟩
        rw [h1]; simp [hc]
      · left
        refine ⟨by rw [h1]; simp [hc], ?_⟩
        intro q hq
        rcases List.mem_cons.mp hq with rfl | hq
        · exact hc
        · exact h2 q hq
    · right
      refine ⟨j + 1, by simp; omega, ?_, by simpa using h2⟩
      rw [h1]; push_cast; ring

theorem deadLocked_free_eq (d : DC) (r : Nat) :
    (d.deadLocked r).free =
      if (d.signalDead r).total - 1 < 0 then (d.signalDead r).free
      else if 0 ≤ scanFree (d.signalDead r).connId ((d.signalDead r).connId r)
                (d.signalDead r).free 0 (-1)
        then (d.signalDead r).free.eraseIdx
          (scanFree (d.signalDead r).connId ((d.signalDead r).connId r)
            (d.signalDead r).free 0 (-1)).toNat
        else (d.signalDead r).free := by
  have e : ∀ (d1 : DC) (t : Int), ({ d1 with total := t } : DC).connId = d1.connId :=
    fun _ _ => rfl
  simp only [DC.deadLocked, e]
  split_ifs <;> rfl

theorem signalDead_frame (d : DC) (r : Nat) :
    (d.signalDead r).free = d.free ∧ (d.signalDead r).total = d.total ∧
    (d.signalDead r).connId = d.connId := by
  rcases signalDead_cases d r with ⟨_, h⟩ | ⟨c, hc, h⟩ <;> rw [h]
  · simp
  · refine ⟨rfl, rfl, ?_⟩
    funext q
    simp only [connId_eq, idAt]
    rw [List.getElem?_set]
    by_cases hq : r = q
    · subst hq
      have hr : r < d.conns.length := (List.getElem?_eq_some.mp hc).1
      simp [hr, hc]
    · simp [hq]

/-- What the critical section of dead does to free, beside the bookkeeping. -/
theorem deadLocked_free (d : DC) (r : Nat) (h : 0 ≤ d.total - 1) :
    ((d.deadLocked r).free = d.free ∧ ∀ q ∈ d.free, d.connId q ≠ d.connId r) ∨
    (∃ j : Nat, ∃ hj : j < d.free.length, (d.deadLocked r).free = d.free.eraseIdx j ∧
      d.connId (d.free[j]) = d.connId r) := by
  obtain ⟨h1, h2, h3⟩ := signalDead_frame d r
  rw [deadLocked_free_eq, h1, h2, h3, if_neg (by omega)]
  rcases scanFree_spec d.connId (d.connId r) d.free 0 (-1) with ⟨s1, s2⟩ | ⟨j, hj, s1, s2⟩
  · left
    rw [s1]; simp; exact s2
  · right
    refine ⟨j, hj, ?_, s2⟩
    rw [s1]; simp

theorem eraseIdx_decomp {α : Type} (l : List α) (j : Nat) (hj : j < l.length) :
    ∃ pre post, l = pre ++ l[j] :: post ∧ l.eraseIdx j = pre ++ post := by
  induction l generalizing j with
  | nil => simp at hj
  | cons x xs ih =>
    cases j with
    | zero => exact ⟨[], xs, by simp, by simp⟩
    | succ n =>
      obtain ⟨pre, post, h1, h2⟩ := ih n (by simpa using hj)
      refine ⟨x :: pre, post, ?_, ?_⟩
      · simp only [List.getElem_cons_succ, List.cons_append]; rw [← h1]
      · simp [h2]

theorem post2_frame {d : DC} {pc : PC} {ch : Choice} {o : Out}
    (hc : o.dc.conns = d.conns) (hf : o.dc.free = d.free)
    (hq : o.dc.freeReq.slots = d.freeReq.slots) (hs : o.spawn = [])
    (h2 : abandons pc ch = false → ∀ p, pc.owns p ≤ o.pc.owns p ∨ d.isDeleted p = true) :
    Post2 d pc ch o := by
  have hsl : ∀ p, o.dc.slotc p = d.slotc p := by intro p; simp [DC.slotc, hq]
  refine ⟨?_, ?_, ?_, ?_⟩
  · intro p hp hd
    left
    rw [hf] at hp
    rw [isDead_eq, hc] at hd
    exact ⟨hp, hd⟩
  · intro ha p _
    rcases h2 ha p with h | h
    · right; simp [hf, hsl, hs, weigh]; exact h
    · left; rw [isDeleted_eq, hc]; exact h
  · intro p h1 h3
    rw [hc] at h3; omega
  · intro p h; rw [isDeleted_eq, hc]; exact h

theorem acquireFailed_owns (e : Err) (p : Nat) : (acquireFailed e).owns p = 0 :=
  (acquireFailed_w e).2.1 p

theorem post2_recv {d : DC} {pc : PC} {ch : Choice} {key c : Nat} {pre post : List (Nat × Nat)}
    (hs : d.freeReq.slots = pre ++ (key, c) :: post) (pc2 : PC)
    (h2 : ∀ p, pc2.owns p = if c = p then 1 else 0) (g2 : ∀ p, pc.owns p = 0) :
    Post2 d pc ch ⟨{ d with freeReq := ⟨d.freeReq.next, d.freeReq.entries, pre ++ post⟩ }, pc2, []⟩ := by
  refine ⟨?_, ?_, ?_, ?_⟩
  · intro p hp hd; left; exact ⟨hp, hd⟩
  · intro _ p _
    right
    simp [DC.slotc, hs, List.count_append, List.count_cons, weigh, h2, g2]
    omega
  · intro p h1 h3; simp only [] at h3; omega
  · intro p h; exact h

theorem post2_release {d : DC} {pc : PC} {ch : Choice} (conn : Nat) (pc2 : PC)
    (g2 : ∀ p, pc.owns p = if conn = p then 1 else 0)
    (g3 : ∀ p, pc.releases p = decide (conn = p)) :
    Post2 d pc ch ⟨d.release (some conn), pc2, []⟩ := by
  rcases release_cases d conn with ⟨_, h⟩ | ⟨k, rest, _, h⟩ <;> rw [h] <;> refine ⟨?_, ?_, ?_, ?_⟩
  · intro p hp hd
    simp only [List.mem_append, List.mem_singleton] at hp
    rcases hp with hp | hp
    · left; exact ⟨hp, hd⟩
    · right; exact ⟨hd, by rw [g3]; simp [hp]⟩
  · intro _ p _
    right
    simp [DC.slotc, List.count_append, List.count_cons, weigh, g2]
    omega
  · intro p h1 h3; simp only [] at h3; omega
  · intro p h; exact h
  · intro p hp hd; left; exact ⟨hp, hd⟩
  · intro _ p _
    right
    simp [DC.slotc, List.count_append, List.count_cons, weigh, g2]
    omega
  · intro p h1 h3; simp only [] at h3; omega
  · intro p h; exact h

theorem threadStep_post2 (d : DC) (pc : PC) (ch : Choice) (hpre : Pre2 d pc) :
    Post2 d pc ch (threadStep d pc ch) := by
  cases pc <;> simp only [threadStep]
  case popped r =>
    split
    · rename_i hd
      apply post2_frame <;> (try rfl)
      intro _ p
      simp only [PC.owns]
      by_cases hp : r = p
      · right; subst hp; exact hpre.deadDel r hd
      · left; simp [hp]
    · apply post2_frame <;> (try rfl)
      intro _ p; left; simp [PC.owns]
  case invoked conn res =>
    split
    · rename_i hd
      apply post2_frame <;> (try rfl)
      intro _ p
      simp only [PC.owns]
      by_cases hp : conn = p
      · right; subst hp; exact hpre.deadDel conn hd.2
      · left; simp [hp]
    · apply post2_frame <;> (try rfl)
      intro _ p; left; simp [PC.owns]
  case waitReady conn =>
    cases ch <;> simp only []
    case ctxDone e => apply post2_frame <;> (try rfl); intro h; simp [abandons] at h
    case poolDone => split <;> apply post2_frame <;> (try rfl) <;> intro h <;> simp [abandons] at h
    case dead =>
      split
      · rename_i hd
        apply post2_frame <;> (try rfl)
        intro _ p
        simp only [PC.owns]
        by_cases hp : conn = p
        · right; subst hp; exact hpre.deadDel conn hd
        · left; simp [hp]
      · apply post2_frame <;> (try rfl)
        intro _ p; left; exact le_refl _
    all_goals
      apply post2_frame <;> (try rfl)
      intro _ p; left; simp [PC.owns]
  all_goals first
    | (apply post2_frame <;> (try rfl) <;> (try simp [DC.incNextConn, DC.resetStuck, reqMap.delete]) <;>
        intro _ p <;> left <;> simp [PC.owns, acquireFailed_owns]; done)
    | (split <;> apply post2_frame <;> (try rfl) <;> intro _ p <;> left <;> simp [PC.owns]; done)
    | (cases ch <;> simp only [] <;> (try split) <;> apply post2_frame <;> (try rfl) <;>
        intro _ p <;> left <;> simp [PC.owns]; done)
    | skip
  case retry =>
    rcases acquireLocked_cases d with ⟨f, r, h1, h2⟩ | ⟨h1, hc, h2⟩ | ⟨h1, hc, h2⟩ <;> rw [h2] <;>
      simp only []
    · refine ⟨?_, ?_, ?_, ?_⟩
      · intro p hp hd; left
        simp only [] at hp
        exact ⟨by rw [h1]; simp [hp], hd⟩
      · intro _ p _; right
        simp [h1, List.count_append, List.count_cons, DC.slotc, PC.owns, weigh]
        omega
      · intro p h1 h3; simp only [] at h3; omega
      · intro p h; exact h
    · apply post2_frame <;> (try rfl); intro _ p; left; simp [PC.owns]
    · apply post2_frame <;> (try rfl); intro _ p; left; simp [PC.owns]
  case created id =>
    refine ⟨?_, ?_, ?_, ?_⟩
    · intro p hp hd; left
      simp only [DC.createConnection, isDead_eq, deadAt_append] at hp hd
      exact ⟨hp, hd⟩
    · intro _ p _; right
      simp [DC.createConnection, DC.slotc, PC.owns, weigh]
    · intro p h1 h3
      simp [DC.createConnection] at h3
      have : d.conns.length = p := by omega
      simp [DC.createConnection, PC.owns, weigh, this]
    · intro p h
      simp only [DC.createConnection, isDeleted_eq, deletedAt_append] at h ⊢
      exact h
  case parked key =>
    cases ch <;> simp only []
    case deliver =>
      rcases recv_cases d.freeReq key with ⟨h, _⟩ | ⟨c, pre, post, h, hs, _⟩ <;> rw [h] <;> simp only []
      · apply post2_frame <;> (try rfl); intro _ p; left; exact le_refl _
      · apply post2_recv hs <;> simp [PC.owns]
    all_goals first
      | (apply post2_frame <;> (try rfl) <;> intro _ p <;> left <;> simp [PC.owns]; done)
      | (split <;> apply post2_frame <;> (try rfl) <;> intro _ p <;> left <;> simp [PC.owns]; done)
  case unstuckDrain key =>
    rcases recv_cases d.freeReq key with ⟨h, _⟩ | ⟨c, pre, post, h, hs, _⟩ <;> rw [h] <;> simp only []
    · apply post2_frame <;> (try rfl); intro _ p; left; simp [PC.owns]
    · apply post2_recv hs <;> simp [PC.owns]
  case cancelDrain key e =>
    rcases recv_cases d.freeReq key with ⟨h, _⟩ | ⟨c, pre, post, h, hs, _⟩ <;> rw [h] <;> simp only []
    · apply post2_frame <;> (try rfl); intro _ p; left; simp [PC.owns]
    · apply post2_recv hs <;> simp [PC.owns]
  case cancelRelease conn e =>
    apply post2_release <;> simp [PC.owns, PC.releases]
  case releasing conn res =>
    apply post2_release <;> simp [PC.owns, PC.releases]
  case deadSwap r k =>
    have hr : r < d.conns.length := by
      by_contra hcon
      have := hpre.base.vref r (by omega)
      simp [PC.refc, PC.ref] at this
    rcases swapDeleted_cases d r with ⟨h, _⟩ | ⟨c, hc, h⟩
    · rw [List.getElem?_eq_none_iff] at h; omega
    · rw [h]
      cases hdel : c.deleted <;> simp only []
      · refine ⟨?_, ?_, ?_, ?_⟩
        · intro p hp hd; left
          simp only [isDead_eq, deadAt_set_deleted hc] at hd
          exact ⟨hp, hd⟩
        · intro _ p _; right
          simp [DC.slotc, PC.owns, weigh]
        · intro p h1 h3; simp at h3; omega
        · intro p hp
          simp only [isDeleted_eq, deletedAt_set_deleted hc] at hp ⊢
          split <;> simp_all
      · obtain ⟨f1, f2, f3, f4, f5, f6, f7, f8, f9⟩ := afterDead_frame d k
        apply post2_frame f1 f2 (by rw [f3]) f4
        intro _ p; left; simp [PC.owns]
  case deadLock r k =>
    have hr : r < d.conns.length := by
      by_contra hcon
      have := hpre.base.vref r (by omega)
      simp [PC.refc, PC.ref] at this
    obtain ⟨c, hc⟩ : ∃ c, d.conns[r]? = some c := ⟨d.conns[r], List.getElem?_eq_getElem hr⟩
    have hdead : c.dead = false := by
      have := hpre.base.wonLive r (by simp [PC.won])
      simpa [isDead_eq, deadAt, hc] using this
    have hdel : d.isDeleted r = true := hpre.wonDel r (by simp [PC.won])
    have hsig : d.signalDead r = { d with conns := d.conns.set r { c with dead := true } } := by
      rcases signalDead_cases d r with ⟨h, _⟩ | ⟨c2, h, h2⟩
      · rw [hc] at h; cases h
      · rw [hc] at h; cases h; exact h2
    have hlive := live_set_dead hc
    have htot := hpre.base.tot
    simp [hdead, b2n] at hlive
    have hconns : (d.deadLocked r).conns = d.conns.set r { c with dead := true } := by
      rcases deadLocked_cases d r with ⟨_, h2⟩ | ⟨_, f, _, h2⟩ <;> rw [h2, hsig]
    have hslots : (d.deadLocked r).freeReq = d.freeReq := by
      rcases deadLocked_cases d r with ⟨_, h2⟩ | ⟨_, f, _, h2⟩ <;> rw [h2, hsig]
    obtain ⟨f1, f2, f3, f4, f5, f6, f7, f8, f9⟩ := afterDead_frame (d.deadLocked r) k
    rw [hconns] at f1; rw [hslots] at f3
    -- the shape of the new free list
    have hfree : ∃ f, (d.deadLocked r).free = f ∧ f.Sublist d.free ∧ r ∉ f ∧
        ∀ p, p ≠ r → f.count p = d.free.count p := by
      rcases deadLocked_free d r (by omega) with ⟨e1, e2⟩ | ⟨j, hj, e1, e2⟩
      · refine ⟨d.free, e1, List.Sublist.refl _, ?_, fun _ _ => rfl⟩
        intro hmem; exact e2 r hmem rfl
      · have hjv : d.free[j] < d.conns.length := by
          by_contra hcon
          have := hpre.base.vfree (d.free[j]) (by omega)
          have hm : d.free[j] ∈ d.free := List.getElem_mem _
          rw [List.count_eq_zero] at this
          exact this hm
        have hjr : d.free[j] = r := hpre.inj _ _ hjv hr e2
        obtain ⟨pre, post, d1, d2⟩ := eraseIdx_decomp d.free j hj
        rw [hjr] at d1
        have hnd := hpre.nodup
        rw [d1] at hnd
        refine ⟨d.free.eraseIdx j, e1, List.eraseIdx_sublist _ _, ?_, ?_⟩
        · rw [d2]
          have := List.nodup_middle.mp hnd
          simp only [List.nodup_cons] at this
          exact this.1
        · intro p hp
          rw [d2, d1]
          simp [List.count_append, List.count_cons]
          intro h; exact absurd h.symm hp
    obtain ⟨f, e1, hsub, hnot, hcount⟩ := hfree
    rw [e1] at f2
    have g2 : ∀ p, (afterDead (d.deadLocked r) k).pc.owns p = 0 := by
      intro p; rcases f9 with f9 | f9 <;> rw [f9] <;> simp [PC.owns]
    refine ⟨?_, ?_, ?_, ?_⟩
    · intro p hp hd
      rw [f2] at hp
      left
      rw [isDead_eq, f1, deadAt_set_dead hc] at hd
      by_cases hpr : p = r
      · subst hpr; exact absurd hp hnot
      · simp only [hpr, if_false] at hd
        exact ⟨hsub.subset hp, hd⟩
    · intro _ p _
      by_cases hpr : p = r
      · left
        rw [isDeleted_eq, f1, deletedAt_set_dead hc, hpr]
        exact hdel
      · right
        simp only [f2, DC.slotc, f3, f4, g2, weigh, hcount p hpr]
        simp [PC.owns]
    · intro p h1 h3; rw [f1] at h3; simp at h3; omega
    · intro p h
      rw [isDeleted_eq, f1, deletedAt_set_dead hc]
      exact h

theorem post3_frame {d : DC} {pc : PC} {o : Out} (hq : o.dc.freeReq = d.freeReq)
    (hs : o.spawn = []) (h1 : ∀ k, o.pc.waits k = pc.waits k)
    (h2 : ∀ k, o.pc.drains k = pc.drains k) : Post3 d pc o := by
  refine ⟨?_, ?_⟩
  · intro k; left
    simp [DC.entc, DC.keyc, hq, h1, h2]
  · intro k; simp [hs, weigh]

theorem acquireFailed_keys (e : Err) (k : Nat) :
    (acquireFailed e).waits k = 0 ∧ (acquireFailed e).drains k = 0 := by
  unfold acquireFailed; split <;> simp [PC.waits, PC.drains]

theorem afterDead_keys (d : DC) (c : Caller) (k : Nat) :
    (afterDead d c).pc.waits k = 0 ∧ (afterDead d c).pc.drains k = 0 := by
  cases c <;> simp [afterDead, PC.waits, PC.drains]

theorem deadLocked_freeReq (d : DC) (r : Nat) : (d.deadLocked r).freeReq = d.freeReq := by
  have hs : (d.signalDead r).freeReq = d.freeReq := by
    rcases signalDead_cases d r with ⟨_, h⟩ | ⟨c, _, h⟩ <;> rw [h]
  rcases deadLocked_cases d r with ⟨_, h⟩ | ⟨_, f, _, h⟩ <;> rw [h] <;> exact hs

theorem swapDeleted_freeReq (d : DC) (r : Nat) : (d.swapDeleted r).2.freeReq = d.freeReq := by
  rcases swapDeleted_cases d r with ⟨_, h⟩ | ⟨c, _, h⟩ <;> rw [h]

theorem post3_recv {d : DC} {pc : PC} {key c : Nat} {pre post : List (Nat × Nat)}
    (hs : d.freeReq.slots = pre ++ (key, c) :: post) (pc2 : PC)
    (g : ∀ k, pc.waits k + pc.drains k = if key = k then 1 else 0)
    (h1 : ∀ k, pc2.waits k = 0) (h2 : ∀ k, pc2.drains k = 0) :
    Post3 d pc ⟨{ d with freeReq := ⟨d.freeReq.next, d.freeReq.entries, pre ++ post⟩ }, pc2, []⟩ := by
  refine ⟨?_, ?_⟩
  · intro k
    right; right; right
    have := g k
    simp only [DC.entc, DC.keyc, hs, h1, h2]
    simp [List.count_append, List.count_cons]
    split_ifs at this ⊢ <;> omega
  · intro k; simp [weigh]

theorem post3_release {d : DC} {pc : PC} (conn : Nat) (pc2 : PC)
    (g1 : ∀ k, pc.waits k = 0) (g2 : ∀ k, pc.drains k = 0)
    (h1 : ∀ k, pc2.waits k = 0) (h2 : ∀ k, pc2.drains k = 0) :
    Post3 d pc ⟨d.release (some conn), pc2, []⟩ := by
  rcases release_cases d conn with ⟨_, h⟩ | ⟨k0, rest, he, h⟩ <;> rw [h] <;> refine ⟨?_, ?_⟩
  · intro k; left; simp [DC.entc, DC.keyc, g1, g2, h1, h2]
  · intro k; simp [weigh]
  · intro k; left
    simp only [DC.entc, DC.keyc, he, g1, g2, h1, h2]
    simp [List.count_append, List.count_cons]
    split_ifs <;> omega
  · intro k; simp [weigh]

theorem post3_delete {d : DC} {pc : PC} (key : Nat) (pc2 : PC)
    (g1 : ∀ k, pc.waits k = if key = k then 1 else 0) (g2 : ∀ k, pc.drains k = 0)
    (h1 : ∀ k, pc2.waits k = 0) (h2 : ∀ k, pc2.drains k = if key = k then 1 else 0) :
    Post3 d pc ⟨{ d with freeReq := d.freeReq.delete key }, pc2, []⟩ := by
  refine ⟨?_, ?_⟩
  · intro k
    right; right; left
    have a := g1 k
    have b := g2 k
    have c := h1 k
    have e := h2 k
    have hle : (d.freeReq.entries.filter (fun k => decide (k ≠ key))).count k
        ≤ d.freeReq.entries.count k := (List.filter_sublist _).count_le k
    have hz : key = k → (d.freeReq.entries.filter (fun k => decide (k ≠ key))).count k = 0 := by
      intro hk; subst hk
      rw [List.count_eq_zero]
      simp
    simp only [DC.entc, DC.keyc, reqMap.delete]
    refine ⟨trivial, c, by omega, trivial, hle, ?_⟩
    intro hk
    apply hz
    by_contra hc
    simp [hc] at a
    omega
  · intro k; simp [weigh]

theorem threadStep_post3 (d : DC) (pc : PC) (ch : Choice) : Post3 d pc (threadStep d pc ch) := by
  have aw := fun e k => (acquireFailed_keys e k).1
  have ad := fun e k => (acquireFailed_keys e k).2
  cases pc <;> simp only [threadStep]
  case deadSwap r k =>
    have a := swapDeleted_freeReq d r
    have f := afterDead_frame d k
    have k1 := fun x => (afterDead_keys d k x).1
    have k2 := fun x => (afterDead_keys d k x).2
    rcases hs : d.swapDeleted r with ⟨b1, d1⟩
    rw [hs] at a
    cases b1 <;> simp only []
    · apply post3_frame a rfl <;> simp [PC.waits, PC.drains]
    · apply post3_frame f.2.2.1 f.2.2.2.1 <;> intro k <;> simp only [k1, k2] <;>
        simp [PC.waits, PC.drains]
  case deadLock r k =>
    have f := afterDead_frame (d.deadLocked r) k
    have k1 := fun x => (afterDead_keys (d.deadLocked r) k x).1
    have k2 := fun x => (afterDead_keys (d.deadLocked r) k x).2
    apply post3_frame (by rw [f.2.2.1, deadLocked_freeReq]) f.2.2.2.1 <;> intro k <;>
      simp only [k1, k2] <;> simp [PC.waits, PC.drains]
  case waitReady conn =>
    cases ch <;> simp only [] <;> (try split) <;> apply post3_frame <;> (try rfl) <;> intro k <;>
      (try simp only [aw, ad]) <;> simp [PC.waits, PC.drains]
  case created id =>
    refine ⟨?_, ?_⟩
    · intro k; left; simp [DC.entc, DC.keyc, DC.createConnection, PC.waits, PC.drains]
    · intro k; simp [weigh, PC.waits, PC.drains]
  case retry =>
    rcases acquireLocked_cases d with ⟨f, r, h1, h2⟩ | ⟨h1, hc, h2⟩ | ⟨h1, hc, h2⟩ <;> rw [h2] <;>
      simp only []
    · apply post3_frame <;> (try rfl) <;> intro k <;> simp [PC.waits, PC.drains]
    · apply post3_frame <;> (try rfl) <;> intro k <;> simp [PC.waits, PC.drains]
    · refine ⟨?_, ?_⟩
      · intro k
        right; left
        simp only [DC.entc, DC.keyc, PC.waits, PC.drains]
        simp [List.count_append, List.count_cons]
        by_cases hk : k = d.freeReq.next
        · left; subst hk; simp
        · right
          have : ¬ d.freeReq.next = k := fun h => hk h.symm
          simp [hk, this]
      · intro k; simp [weigh]
  case parked key =>
    cases ch <;> simp only []
    case deliver =>
      rcases recv_cases d.freeReq key with ⟨h, _⟩ | ⟨c, pre, post, h, hs, _⟩ <;> rw [h] <;> simp only []
      · apply post3_frame <;> (try rfl) <;> intro k <;> rfl
      · apply post3_recv hs <;> simp [PC.waits, PC.drains]
    all_goals first
      | (apply post3_frame <;> (try rfl) <;> intro k <;> simp [PC.waits, PC.drains]; done)
      | (split <;> apply post3_frame <;> (try rfl) <;> intro k <;> simp [PC.waits, PC.drains]; done)
  case unstuck key => apply post3_delete <;> simp [PC.waits, PC.drains]
  case cancelled key e => apply post3_delete <;> simp [PC.waits, PC.drains]
  case unstuckDrain key =>
    rcases recv_cases d.freeReq key with ⟨h, hn⟩ | ⟨c, pre, post, h, hs, _⟩ <;> rw [h] <;> simp only []
    · refine ⟨?_, ?_⟩
      · intro k
        right; right; right
        simp only [DC.entc, DC.keyc, PC.waits, PC.drains]
        by_cases hk : key = k
        · subst hk; simp [hn]
        · simp [hk]
      · intro k; simp [weigh]
    · apply post3_recv hs <;> simp [PC.waits, PC.drains]
  case cancelDrain key e =>
    rcases recv_cases d.freeReq key with ⟨h, hn⟩ | ⟨c, pre, post, h, hs, _⟩ <;> rw [h] <;> simp only []
    · refine ⟨?_, ?_⟩
      · intro k
        right; right; right
        simp only [DC.entc, DC.keyc, aw, ad]
        simp only [PC.waits, PC.drains]
        by_cases hk : key = k
        · subst hk; simp [hn]
        · simp [hk]
      · intro k; simp [weigh]
    · apply post3_recv hs <;> simp [PC.waits, PC.drains]
  case cancelRelease conn e =>
    apply post3_release <;> (try simp only [aw, ad]) <;> simp [PC.waits, PC.drains]
  case releasing conn res =>
    apply post3_release <;> simp [PC.waits, PC.drains]
  all_goals first
    | (apply post3_frame <;> (try rfl) <;> intro k <;>
        simp [PC.waits, PC.drains]; done)
    | (split <;> apply post3_frame <;> (try rfl) <;> intro k <;>
        simp [PC.waits, PC.drains]; done)
    | (cases ch <;> simp only [] <;> (try split) <;> apply post3_frame <;> (try rfl) <;> intro k <;>
        simp [PC.waits, PC.drains]; done)

theorem keyInv_init (max : Int) : KeyInv (Sys.init max) := by
  refine ⟨?_, ?_, ?_⟩ <;> intro k <;> simp [Sys.init, NewDC, newReqMap, DC.entc, DC.keyc, weigh]

theorem keyInv_step {s : Sys} (h : KeyInv s) (ev : Event) : KeyInv (s.step ev) := by
  by_cases hp : s.dc.panicked = true
  · rw [step_panicked hp]; exact h
  have hp : s.dc.panicked = false := by simpa using hp
  cases ev with
  | invoke =>
    rw [step_invoke hp]
    refine ⟨?_, ?_, ?_⟩ <;> intro k
    · have := h.s1 k; simpa [weigh_append, weigh, PC.waits, PC.drains] using this
    · have := h.s2 k; simpa [weigh_append, weigh, PC.waits, PC.drains] using this
    · have := h.s3 k; simpa [weigh_append, weigh, PC.waits, PC.drains] using this
  | close =>
    rw [step_close hp]
    refine ⟨?_, ?_, ?_⟩ <;> intro k
    · have := h.s1 k; simpa [weigh_append, weigh, PC.waits, PC.drains] using this
    · have := h.s2 k; simpa [weigh_append, weigh, PC.waits, PC.drains] using this
    · have := h.s3 k; simpa [weigh_append, weigh, PC.waits, PC.drains] using this
  | cancelParent =>
    rw [step_cancelParent hp]
    exact ⟨h.s1, h.s2, h.s3⟩
  | run tid ch =>
    cases hpc : s.threads[tid]? with
    | none => rw [step_run_none ch hpc]; exact h
    | some pc =>
      rw [step_run_some hp ch hpc]
      have hpost := threadStep_post3 s.dc pc ch
      generalize threadStep s.dc pc ch = o at hpost
      have key : ∀ k,
          (o.dc.entc k + o.dc.keyc k ≤ weigh (PC.waits k) (s.threads.set tid o.pc ++ o.spawn)
            + weigh (PC.drains k) (s.threads.set tid o.pc ++ o.spawn)) ∧
          (o.dc.entc k ≤ weigh (PC.waits k) (s.threads.set tid o.pc ++ o.spawn)) ∧
          (weigh (PC.waits k) (s.threads.set tid o.pc ++ o.spawn)
            + weigh (PC.drains k) (s.threads.set tid o.pc ++ o.spawn)
            ≤ if k < o.dc.freeReq.next then 1 else 0) := by
        intro k
        have a := hpost.keys k
        have sp := hpost.spawn k
        have b1 := h.s1 k
        have b2 := h.s2 k
        have b3 := h.s3 k
        have c1 := weigh_set (PC.waits k) hpc o.pc
        have c2 := weigh_set (PC.drains k) hpc o.pc
        have e1 := weigh_ge (PC.waits k) hpc
        have e2 := weigh_ge (PC.drains k) hpc
        simp only [weigh_append]
        unfold KeyStep at a
        split_ifs at b3 ⊢ <;> omega
      exact ⟨fun k => (key k).1, fun k => (key k).2.1, fun k => (key k).2.2⟩

theorem keyInv_reachable {max : Int} {s : Sys} (h : Reachable max s) : KeyInv s := by
  induction h with
  | init => exact keyInv_init max
  | step ev _ ih => exact keyInv_step ih ev

theorem connId_inj {d : DC} (hids : ∀ i, d.idc i ≤ 1) (p q : Nat) (hp : p < d.conns.length)
    (hq : q < d.conns.length) (h : d.connId p = d.connId q) : p = q := by
  have hnd : (d.conns.map (fun c => c.id)).Nodup := by
    rw [List.nodup_iff_count_le_one]; exact hids
  have hp2 : p < (d.conns.map (fun c => c.id)).length := by simpa using hp
  have hq2 : q < (d.conns.map (fun c => c.id)).length := by simpa using hq
  have e : (d.conns.map (fun c => c.id))[p] = (d.conns.map (fun c => c.id))[q] := by
    simp only [connId_eq, idAt, List.getElem?_eq_getElem hp, List.getElem?_eq_getElem hq] at h
    simpa using h
  exact (List.Nodup.getElem_inj_iff hnd).mp e

theorem Inv.pre2 {s : Sys} (h : Inv s) {tid : Nat} {pc : PC} (hpc : s.threads[tid]? = some pc) :
    Pre2 s.dc pc := by
  refine ⟨h.pre hpc, ?_, ?_, ?_, ?_⟩
  · rw [List.nodup_iff_count_le_one]
    intro p; have := h.own p; omega
  · apply connId_inj
    intro i
    have := h.ids i
    split_ifs at this <;> omega
  · intro r hr
    have a := h.won r
    cases hd : s.dc.isDeleted r
    · simp [hd, hr, b2n] at a
    · rfl
  · intro r hr
    have a := h.won r
    have b := weigh_ge (PC.won r) hpc
    cases hd : s.dc.isDeleted r
    · simp [hd, b2n] at a; omega
    · rfl

theorem ReachableNA.reachable {max : Int} {s : Sys} (h : ReachableNA max s) : Reachable max s := by
  induction h with
  | init => exact Reachable.init
  | step ev _ _ ih => exact Reachable.step ev ih

theorem accounted_step {s : Sys} (hi : Inv s) (h : s.accounted) (ev : Event)
    (hna : s.abandoning ev = false) : (s.step ev).accounted := by
  have hp := hi.np
  cases ev with
  | invoke =>
    rw [step_invoke hp]
    intro p hpl
    rcases h p hpl with a | a
    · left; exact a
    · right; simpa [weigh_append, weigh, PC.owns] using a
  | close =>
    rw [step_close hp]
    intro p hpl
    rcases h p hpl with a | a
    · left; exact a
    · right; simpa [weigh_append, weigh, PC.owns] using a
  | cancelParent =>
    rw [step_cancelParent hp]
    exact h
  | run tid ch =>
    cases hpc : s.threads[tid]? with
    | none => rw [step_run_none ch hpc]; exact h
    | some pc =>
      rw [step_run_some hp ch hpc]
      have hab : abandons pc ch = false := by simpa [Sys.abandoning, hpc] using hna
      have hpost := threadStep_post2 s.dc pc ch (hi.pre2 hpc)
      generalize threadStep s.dc pc ch = o at hpost
      intro p hpl
      simp only [] at hpl
      have c := weigh_set (PC.owns p) hpc o.pc
      have e := weigh_ge (PC.owns p) hpc
      simp only [weigh_append]
      by_cases hlt : p < s.dc.conns.length
      · rcases h p hlt with a | a
        · left; exact hpost.delMono p a
        · rcases hpost.acc hab p hlt with b | b
          · left; exact b
          · right; omega
      · right
        have := hpost.fresh p (by omega) hpl
        omega

theorem accounted_reachable {max : Int} {s : Sys} (h : ReachableNA max s) : s.accounted := by
  induction h with
  | init => intro p hp; simp [Sys.init, NewDC] at hp
  | step ev hs hna ih => exact accounted_step (inv_reachable hs.reachable) ih ev hna

theorem weigh_zero_of_all {f : PC → Nat} {b : PC → Bool} (hf : ∀ t, b t = false → f t = 0)
    {ts : List PC} (h : ts.all (fun t => !b t) = true) : weigh f ts = 0 := by
  induction ts with
  | nil => simp [weigh]
  | cons t ts ih =>
    simp only [List.all_cons, Bool.and_eq_true, Bool.not_eq_true'] at h
    have := hf t h.1
    have := ih h.2
    simp [weigh] at this ⊢
    omega

theorem owns_idle (p : Nat) (t : PC) (h : t.inInvokeRaw = false) : t.owns p = 0 := by
  cases t <;> simp [PC.inInvokeRaw, PC.owns] at h ⊢

theorem pending_idle (t : PC) (h : t.inInvokeRaw = false) : t.pending = 0 := by
  cases t <;> simp [PC.inInvokeRaw, PC.pending] at h ⊢

theorem waits_idle (k : Nat) (t : PC) (h : t.inInvokeRaw = false) : t.waits k = 0 := by
  cases t <;> simp [PC.inInvokeRaw, PC.waits] at h ⊢

theorem drains_idle (k : Nat) (t : PC) (h : t.inInvokeRaw = false) : t.drains k = 0 := by
  cases t <;> simp [PC.inInvokeRaw, PC.drains] at h ⊢

theorem won_idle (r : Nat) (t : PC) (h : t.inDead = false) : t.won r = 0 := by
  cases t <;> simp [PC.inDead, PC.won] at h ⊢

theorem weigh_pos {f : PC → Nat} {ts : List PC} (h : 0 < weigh f ts) :
    ∃ (tid : Nat) (t : PC), ts[tid]? = some t ∧ 0 < f t := by
  induction ts with
  | nil => simp [weigh] at h
  | cons t ts ih =>
    by_cases ht : 0 < f t
    · exact ⟨0, t, by simp, ht⟩
    · have h2 : 0 < weigh f ts := by simp [weigh] at h ⊢; omega
      obtain ⟨tid, t2, h3, h4⟩ := ih h2
      exact ⟨tid + 1, t2, by simpa using h3, h4⟩

theorem live_eq_range (cs : List poolConn) :
    live cs = ((List.range cs.length).filter (fun p => !deadAt cs p)).length := by
  induction cs using List.reverseRecOn with
  | nil => simp [live]
  | append_singleton cs c ih =>
    have hf : (List.range cs.length).filter (fun p => !deadAt (cs ++ [c]) p)
        = (List.range cs.length).filter (fun p => !deadAt cs p) := by
      apply List.filter_congr
      intro p hp
      have hp : p < cs.length := by simpa using hp
      simp [deadAt, List.getElem?_append_left hp]
    have hl : deadAt (cs ++ [c]) cs.length = c.dead := by
      simp [deadAt]
    simp only [List.length_append, List.length_singleton, List.range_succ, List.filter_append,
      hf, List.length_append, ← ih]
    simp only [live, List.countP_append]
    cases hc : c.dead <;> simp [hl, hc]

/-- C2, amended.  In an execution in which no `acquire` leaves its second case because a
context is done, once every call of `InvokeRaw` has returned: every connection the pool
created is in `free` or is deleted, no delivery channel holds a connection, and `total` is
the number of created connections whose Dead gate has not fired; when also no `dead` call is
past its test-and-set, `total` is the number of connections in `free` whose Dead gate has not
fired. -/
theorem quiescent_accounting (max : Int) (s : Sys) (h : ReachableNA max s)
    (hq : s.quiescent = true) :
    (∀ p, p < s.dc.conns.length → p ∈ s.dc.free ∨ s.dc.isDeleted p = true) ∧
    s.dc.freeReq.slots = [] ∧
    s.dc.total = live s.dc.conns ∧
    (s.threads.all (fun t => !t.inDead) = true →
      s.dc.total = (s.dc.free.filter (fun p => !s.dc.isDead p)).length) := by
  have hi := inv_reachable h.reachable
  have hk := keyInv_reachable h.reachable
  have ha := accounted_reachable h
  have hown : ∀ p, weigh (PC.owns p) s.threads = 0 :=
    fun p => weigh_zero_of_all (owns_idle p) hq
  have hpend : weigh PC.pending s.threads = 0 := weigh_zero_of_all pending_idle hq
  have hslots : s.dc.freeReq.slots = [] := by
    rw [List.eq_nil_iff_forall_not_mem]
    intro x hx
    have a := hk.s1 x.1
    have w : weigh (PC.waits x.1) s.threads = 0 := weigh_zero_of_all (waits_idle x.1) hq
    have dr : weigh (PC.drains x.1) s.threads = 0 := weigh_zero_of_all (drains_idle x.1) hq
    have : 0 < s.dc.keyc x.1 := by
      unfold DC.keyc
      rw [List.count_pos_iff]
      exact List.mem_map_of_mem Prod.fst hx
    omega
  have hfree : ∀ p, p < s.dc.conns.length → p ∈ s.dc.free ∨ s.dc.isDeleted p = true := by
    intro p hp
    rcases ha p hp with a | a
    · right; exact a
    · left
      have := hown p
      have hs : s.dc.slotc p = 0 := by simp [DC.slotc, hslots]
      rw [← List.count_pos_iff]
      omega
  have htot : s.dc.total = live s.dc.conns := by
    have := hi.total
    rw [hpend] at this
    simpa using this
  refine ⟨hfree, hslots, htot, ?_⟩
  intro hnd
  rw [htot, live_eq_range]
  congr 1
  apply List.Perm.length_eq
  have hn1 : ((List.range s.dc.conns.length).filter (fun p => !deadAt s.dc.conns p)).Nodup :=
    (List.nodup_range _).filter _
  have hn2 : (s.dc.free.filter (fun p => !s.dc.isDead p)).Nodup := by
    apply List.Nodup.filter
    rw [List.nodup_iff_count_le_one]
    intro p; have := hi.own p; omega
  rw [List.perm_ext_iff_of_nodup hn1 hn2]
  intro p
  simp only [List.mem_filter, List.mem_range, isDead_eq]
  constructor
  · rintro ⟨hp, hd⟩
    refine ⟨?_, hd⟩
    rcases hfree p hp with a | a
    · exact a
    · exfalso
      have w := hi.won p
      have w0 : weigh (PC.won p) s.threads = 0 := weigh_zero_of_all (won_idle p) hnd
      rw [isDead_eq] at w
      simp only [Bool.not_eq_true', ] at hd
      simp [a, hd, w0, b2n] at w
  · rintro ⟨hp, hd⟩
    refine ⟨?_, hd⟩
    by_contra hcon
    have v := hi.valid p (by omega)
    have : 0 < s.dc.free.count p := List.count_pos_iff.mpr hp
    omega

theorem reachableNA_run (max : Int) (evs : List Event) (s : Sys) (h : ReachableNA max s)
    (hna : noAbandon s evs = true) : ReachableNA max (s.run evs) := by
  induction evs generalizing s with
  | nil => exact h
  | cons ev evs ih =>
    simp only [noAbandon, Bool.and_eq_true, Bool.not_eq_true'] at hna
    exact ih (s.step ev) (ReachableNA.step ev h hna.1) hna.2

theorem quiescent_accounting_witness :
    (((Sys.init 2).run traceCold).quiescent = true) ∧
    ((Sys.init 2).run traceCold).dc.total = live ((Sys.init 2).run traceCold).dc.conns :=
  ⟨by decide, (quiescent_accounting 2 _
    (reachableNA_run 2 traceCold _ ReachableNA.init (by decide)) (by decide)).2.2.1⟩

/-- C2 as stated fails: a connection dies while a caller holds it, the caller's successful
invoke then releases it; after the call has returned `free` holds one connection and
`total` is 0. -/
theorem quiescent_total_ne_free :
    ((Sys.init 1).run traceDeadHeld).quiescent = true ∧
    ((Sys.init 1).run traceDeadHeld).dc.total = 0 ∧
    ((Sys.init 1).run traceDeadHeld).dc.free = [0] := by
  decide

/-- C8, amended.  In every reachable state a deleted `poolConn` has its Dead gate fired or
has a `dead` call between the test-and-set and the critical section; and a `poolConn` is in
`free` with its Dead gate fired after a step only if it was so before the step or the step
is a `release` of it by a goroutine that held it after the gate had fired.  So no step fires
the gate of a connection and leaves it in `free`, and nothing but `release` puts a dead
connection there. -/
theorem dead_in_free (max : Int) (s : Sys) (h : Reachable max s) :
    (∀ p, s.dc.isDeleted p = true → s.dc.isDead p = true ∨
      ∃ (tid : Nat) (k : Caller), s.threads[tid]? = some (PC.deadReset p k) ∨
        s.threads[tid]? = some (PC.deadLock p k)) ∧
    (∀ (ev : Event) (p : Nat), p ∈ (s.step ev).dc.free → (s.step ev).dc.isDead p = true →
      (p ∈ s.dc.free ∧ s.dc.isDead p = true) ∨
      (s.dc.isDead p = true ∧ ∃ (tid : Nat) (ch : Choice), ev = Event.run tid ch ∧
        ((∃ res, s.threads[tid]? = some (PC.releasing p res)) ∨
          ∃ e, s.threads[tid]? = some (PC.cancelRelease p e)))) := by
  have hi := inv_reachable h
  have hp := hi.np
  constructor
  · intro p hdel
    cases hd : s.dc.isDead p
    · right
      have w := hi.won p
      simp [hdel, hd, b2n] at w
      obtain ⟨tid, t, ht, hpos⟩ := @weigh_pos (PC.won p) s.threads (by omega)
      cases t <;> simp [PC.won] at hpos
      case deadReset r k =>
        have e : r = p := by by_contra hc; simp [hc] at hpos
        subst e; exact ⟨tid, k, Or.inl ht⟩
      case deadLock r k =>
        have e : r = p := by by_contra hc; simp [hc] at hpos
        subst e; exact ⟨tid, k, Or.inr ht⟩
    · left; rfl
  · intro ev p hmem hdead
    cases ev with
    | invoke => rw [step_invoke hp] at hmem hdead; exact Or.inl ⟨hmem, hdead⟩
    | close => rw [step_close hp] at hmem hdead; exact Or.inl ⟨hmem, hdead⟩
    | cancelParent => rw [step_cancelParent hp] at hmem hdead; exact Or.inl ⟨hmem, hdead⟩
    | run tid ch =>
      cases hpc : s.threads[tid]? with
      | none => rw [step_run_none ch hpc] at hmem hdead; exact Or.inl ⟨hmem, hdead⟩
      | some pc =>
        rw [step_run_some hp ch hpc] at hmem hdead
        have hpost := threadStep_post2 s.dc pc ch (hi.pre2 hpc)
        rcases hpost.dl p hmem hdead with a | ⟨a, b⟩
        · exact Or.inl a
        · right
          refine ⟨a, tid, ch, rfl, ?_⟩
          cases pc <;> simp [PC.releases] at b
          case cancelRelease r e => subst b; exact Or.inr ⟨e, hpc⟩
          case releasing r res => subst b; exact Or.inl ⟨res, hpc⟩

/-- C8 as stated fails: after a connection died while a caller held it and the caller
released it, `free` holds a deleted connection whose Dead gate has fired. -/
theorem free_holds_dead_conn :
    0 ∈ ((Sys.init 1).run traceDeadHeld).dc.free ∧
    ((Sys.init 1).run traceDeadHeld).dc.isDeleted 0 = true ∧
    ((Sys.init 1).run traceDeadHeld).dc.isDead 0 = true := by
  decide

theorem dead_in_free_witness :
    Reachable 1 ((Sys.init 1).run (traceDeadHeld.take 13)) ∧
    ((0 ∈ ((Sys.init 1).run (traceDeadHeld.take 13)).dc.free ∧
        ((Sys.init 1).run (traceDeadHeld.take 13)).dc.isDead 0 = true) ∨
      (((Sys.init 1).run (traceDeadHeld.take 13)).dc.isDead 0 = true ∧
        ∃ (tid : Nat) (ch : Choice), Event.run 0 Choice.tick = Event.run tid ch ∧
          ((∃ res, ((Sys.init 1).run (traceDeadHeld.take 13)).threads[tid]?
              = some (PC.releasing 0 res)) ∨
            ∃ e, ((Sys.init 1).run (traceDeadHeld.take 13)).threads[tid]?
              = some (PC.cancelRelease 0 e)))) :=
  ⟨reachable_run 1 _,
    (dead_in_free 1 _ (reachable_run 1 (traceDeadHeld.take 13))).2 (Event.run 0 .tick) 0
      (by decide) (by decide)⟩

theorem acquireFailed_errOk (e : Err) : (acquireFailed e).errOk = true := by
  unfold acquireFailed
  split
  · rfl
  · rename_i h
    simp [PC.errOk, surfaced, Err.isConnDead]
    simpa using h

theorem afterDead_errOk (d : DC) (k : Caller) : (afterDead d k).pc.errOk = true := by
  cases k <;> simp [afterDead, PC.errOk]

theorem afterDead_spawn (d : DC) (k : Caller) : (afterDead d k).spawn = [] := by
  cases k <;> simp [afterDead]

theorem threadStep_errOk (d : DC) (pc : PC) (ch : Choice) (h : pc.errOk = true) :
    (threadStep d pc ch).pc.errOk = true ∧ (threadStep d pc ch).spawn.all PC.errOk = true := by
  cases pc <;> simp only [threadStep]
  case releasing conn res => cases res <;> simp [PC.errOk, surfaced]
  case returning res => simpa [PC.errOk] using h
  case done res => simpa [PC.errOk] using h
  case deadSwap r k =>
    rcases hs : d.swapDeleted r with ⟨b1, d1⟩
    cases b1 <;> simp only [afterDead_errOk, afterDead_spawn] <;> simp [PC.errOk]
  case deadLock r k => simp only [afterDead_errOk, afterDead_spawn]; simp
  case retry =>
    rcases acquireLocked_cases d with ⟨f, r, _, h2⟩ | ⟨_, _, h2⟩ | ⟨_, _, h2⟩ <;> rw [h2] <;>
      simp [PC.errOk]
  all_goals first
    | (simp only [acquireFailed_errOk]; simp [PC.errOk, surfaced, Err.isConnDead]; done)
    | (simp [PC.errOk, surfaced, Err.isConnDead]; done)
    | (split <;> (try simp only [acquireFailed_errOk]) <;>
        simp [PC.errOk, surfaced, Err.isConnDead]; done)
    | (cases ch <;> simp only [] <;> (try split) <;> (try simp only [acquireFailed_errOk]) <;>
        simp [PC.errOk, surfaced, Err.isConnDead]; done)

theorem errOk_reachable {max : Int} {s : Sys} (h : Reachable max s) :
    ∀ t ∈ s.threads, t.errOk = true := by
  induction h with
  | init => simp [Sys.init]
  | @step s ev hs ih =>
    by_cases hp : s.dc.panicked = true
    · rw [step_panicked hp]; exact ih
    have hp : s.dc.panicked = false := by simpa using hp
    cases ev with
    | invoke =>
      rw [step_invoke hp]
      intro t ht
      simp only [List.mem_append, List.mem_singleton] at ht
      rcases ht with ht | rfl
      · exact ih t ht
      · rfl
    | close =>
      rw [step_close hp]
      intro t ht
      simp only [List.mem_append, List.mem_singleton] at ht
      rcases ht with ht | rfl
      · exact ih t ht
      · rfl
    | cancelParent => rw [step_cancelParent hp]; exact ih
    | run tid ch =>
      cases hpc : s.threads[tid]? with
      | none => rw [step_run_none ch hpc]; exact ih
      | some pc =>
        rw [step_run_some hp ch hpc]
        have hin : pc ∈ s.threads := List.mem_iff_getElem?.mpr ⟨_, hpc⟩
        obtain ⟨a, b⟩ := threadStep_errOk s.dc pc ch (ih pc hin)
        intro t ht
        simp only [List.mem_append] at ht
        rcases ht with ht | ht
        · rcases List.mem_or_eq_of_mem_set ht with h1 | h1
          · exact ih t h1
          · rw [h1]; exact a
        · exact (List.all_eq_true.mp b) t ht

/-- C9, amended.  An error that `InvokeRaw` returns matches `ErrConnDead` only when it is the
`invoke pool` wrapping of an error of `conn.InvokeRaw` that matches it; an error of `acquire`
that matches `ErrConnDead` is retried, and an error of `conn.InvokeRaw` is retried whenever
the connection's Dead gate has fired. -/
theorem connDead_surfaces_only_from_invoke (max : Int) (s : Sys) (h : Reachable max s)
    (tid : Nat) (err : Err) (ht : s.threads[tid]? = some (PC.done (some err)))
    (hd : err.isConnDead = true) :
    (∃ e, err = Err.wrap Wrap.invokePool e ∧ e.isConnDead = true) ∧
    (∀ e, e.isConnDead = true → acquireFailed e = PC.retry) ∧
    (∀ (d : DC) (conn : Nat) (e : Err) (ch : Choice), d.isDead conn = true →
      threadStep d (PC.invoked conn (some e)) ch = ⟨d, PC.retry, []⟩) := by
  refine ⟨?_, ?_, ?_⟩
  · have := errOk_reachable h _ (List.mem_iff_getElem?.mpr ⟨_, ht⟩)
    simp only [PC.errOk] at this
    cases err with
    | wrap w e =>
      cases w
      · simp [surfaced, hd] at this
      · exact ⟨e, rfl, by simpa [Err.isConnDead] using hd⟩
      · simp [surfaced, hd] at this
    | connDead => simp [surfaced, Err.isConnDead] at this
    | dcIsClosed => simp [Err.isConnDead] at hd
    | dcAlreadyClosed => simp [Err.isConnDead] at hd
    | canceled => simp [Err.isConnDead] at hd
    | deadlineExceeded => simp [Err.isConnDead] at hd
    | other c => simp [Err.isConnDead] at hd
  · intro e he; simp [acquireFailed, he]
  · intro d conn e ch hdead
    simp [threadStep, hdead]

/-- C9 as stated fails: `conn.InvokeRaw` returns `ErrConnDead` before the Dead gate of the
connection fires, and `InvokeRaw` returns it wrapped; `xerrors.Is` sees it through `%w`. -/
theorem connDead_surfaces :
    ((Sys.init 1).run traceConnDead).threads[0]?
      = some (PC.done (some (Err.wrap Wrap.invokePool Err.connDead))) ∧
    (Err.wrap Wrap.invokePool Err.connDead).isConnDead = true := by
  decide

theorem connDead_surfaces_only_from_invoke_witness :
    ∃ e, Err.wrap Wrap.invokePool Err.connDead = Err.wrap Wrap.invokePool e ∧
      e.isConnDead = true :=
  (connDead_surfaces_only_from_invoke 1 ((Sys.init 1).run traceConnDead)
    (reachable_run 1 traceConnDead) 0 _ (by decide) (by decide)).1

theorem takeSlot_zip (ts cs : List Nat) (pre : List (Nat × Nat)) (i : Nat) (hi : i < cs.length)
    (hit : i < ts.length) (hnd : ts.Nodup) (hpre : ∀ x ∈ pre, x.1 ∉ ts) :
    (takeSlot ts[i] (pre ++ ts.zip cs)).map Prod.fst = some cs[i] := by
  induction pre with
  | cons x pre ih =>
    obtain ⟨k, c⟩ := x
    have hk : k ≠ ts[i] := by
      intro h
      have := hpre (k, c) (by simp)
      apply this
      simp only [h]
      exact List.getElem_mem _
    simp only [List.cons_append, takeSlot, hk, if_false, Option.map_map]
    have := ih (fun x hx => hpre x (by simp [hx]))
    simpa [Function.comp] using this
  | nil =>
    simp only [List.nil_append]
    clear hpre
    induction ts generalizing cs i with
    | nil => simp at hit
    | cons t ts ih =>
      cases cs with
      | nil => simp at hi
      | cons c cs =>
        cases i with
        | zero => simp [takeSlot]
        | succ n =>
          have hnd2 := List.nodup_cons.mp hnd
          have hn : n < ts.length := by simpa using hit
          have hne : t ≠ ts[n] := by
            intro h
            apply hnd2.1
            rw [h]
            exact List.getElem_mem _
          simp only [List.zip_cons_cons, List.getElem_cons_succ, takeSlot, hne, if_false,
            Option.map_map]
          have := ih cs n (by simpa using hi) hn hnd2.2
          simpa [Function.comp] using this

theorem releaseAll_spec (d : DC) (cs : List Nat) (hK : cs.length ≤ d.freeReq.entries.length) :
    (d.releaseAll cs).freeReq.slots
      = d.freeReq.slots ++ (d.freeReq.entries.take cs.length).zip cs ∧
    (d.releaseAll cs).freeReq.entries = d.freeReq.entries.drop cs.length ∧
    (d.releaseAll cs).free = d.free ∧ (d.releaseAll cs).total = d.total := by
  induction cs generalizing d with
  | nil => simp [DC.releaseAll]
  | cons c cs ih =>
    rcases release_cases d c with ⟨he, _⟩ | ⟨k, rest, he, h⟩
    · simp [he] at hK
    · have hK2 : cs.length ≤ (d.release (some c)).freeReq.entries.length := by
        rw [h]; simp [he] at hK ⊢; omega
      obtain ⟨a1, a2, a3, a4⟩ := ih (d.release (some c)) hK2
      have e : d.releaseAll (c :: cs) = (d.release (some c)).releaseAll cs := rfl
      rw [e, a1, a2, a3, a4, h]
      simp [he]

/-- C4 (FIFO wake).  With the parked tokens `t1 < ... < tN` in the request map, their channels
empty, and `K <= N` calls of `release` in a row: the i-th released connection is put on the
channel of `ti` (and is what a receive on that channel yields), the tokens after the K-th
stay parked and are all larger than the served ones, and `free` and `total` are unchanged. -/
theorem fifo_wake (d : DC) (cs : List Nat) (hs : d.freeReq.entries.Pairwise (fun a b => a < b))
    (hK : cs.length ≤ d.freeReq.entries.length)
    (hempty : ∀ x ∈ d.freeReq.slots, x.1 ∉ d.freeReq.entries) :
    (d.releaseAll cs).freeReq.slots
      = d.freeReq.slots ++ (d.freeReq.entries.take cs.length).zip cs ∧
    (d.releaseAll cs).freeReq.entries = d.freeReq.entries.drop cs.length ∧
    (d.releaseAll cs).free = d.free ∧ (d.releaseAll cs).total = d.total ∧
    (∀ t ∈ d.freeReq.entries.take cs.length, ∀ u ∈ (d.releaseAll cs).freeReq.entries, t < u) ∧
    (∀ (i t : Nat), i < cs.length → d.freeReq.entries[i]? = some t →
      ((d.releaseAll cs).freeReq.recv t).map Prod.fst = cs[i]?) := by
  obtain ⟨a1, a2, a3, a4⟩ := releaseAll_spec d cs hK
  refine ⟨a1, a2, a3, a4, ?_, ?_⟩
  · rw [a2]
    have := hs
    rw [← List.take_append_drop cs.length d.freeReq.entries, List.pairwise_append] at this
    exact this.2.2
  · intro i t hi ht
    have hnd : (d.freeReq.entries.take cs.length).Nodup :=
      (hs.imp (fun h => Nat.ne_of_lt h)).sublist (List.take_sublist _ _)
    have hit : i < (d.freeReq.entries.take cs.length).length := by
      simp only [List.length_take]; omega
    have hti : (d.freeReq.entries.take cs.length)[i] = t := by
      have hl : i < d.freeReq.entries.length := by omega
      rw [List.getElem?_eq_getElem hl] at ht
      simp only [List.getElem_take]
      exact Option.some.inj ht
    have hpre : ∀ x ∈ d.freeReq.slots, x.1 ∉ d.freeReq.entries.take cs.length :=
      fun x hx hm => hempty x hx (List.mem_of_mem_take hm)
    have := takeSlot_zip (d.freeReq.entries.take cs.length) cs d.freeReq.slots i hi hit hnd hpre
    rw [hti] at this
    simp only [reqMap.recv, a1, Option.map_map]
    rw [List.getElem?_eq_getElem hi]
    simpa [Function.comp] using this

theorem fifo_wake_witness :
    (parkedThree.releaseAll [1, 0]).freeReq.slots = [(0, 1), (1, 0)] ∧
    (parkedThree.releaseAll [1, 0]).freeReq.entries = [2] :=
  ⟨(fifo_wake parkedThree [1, 0] (by decide) (by decide) (by decide)).1,
   (fifo_wake parkedThree [1, 0] (by decide) (by decide) (by decide)).2.1⟩

theorem deadLocked_conns (x : DC) (r : Nat) (c : poolConn) (h : x.conns[r]? = some c) :
    (x.deadLocked r).conns = x.conns.set r ⟨c.id, c.deleted, true⟩ := by
  have hs : (x.signalDead r).conns = x.conns.set r ⟨c.id, c.deleted, true⟩ := by
    rcases signalDead_cases x r with ⟨h1, _⟩ | ⟨c2, h1, h2⟩
    · rw [h] at h1; cases h1
    · rw [h] at h1; cases h1; rw [h2]
  rcases deadLocked_cases x r with ⟨_, h2⟩ | ⟨_, f, _, h2⟩ <;> rw [h2] <;> exact hs

/-- What an uninterrupted `dead` does to a connection that was not deleted. -/
theorem dead_fresh (d : DC) (r : Nat) (c : poolConn) (hc : d.conns[r]? = some c)
    (hdel : c.deleted = false) :
    (d.dead r).conns = d.conns.set r ⟨c.id, true, true⟩ ∧ (d.dead r).total = d.total - 1 := by
  have hr : r < d.conns.length := (List.getElem?_eq_some.mp hc).1
  unfold DC.dead
  rcases swapDeleted_cases d r with ⟨h, _⟩ | ⟨c2, hc2, h⟩
  · rw [hc] at h; cases h
  · rw [hc] at hc2; cases hc2
    rw [h]
    simp only [hdel]
    constructor
    · rw [deadLocked_conns _ r ⟨c.id, true, c.dead⟩ (by
        simp only [DC.resetStuck]; rw [List.getElem?_set]; simp [hr])]
      simp [DC.resetStuck]
    · rw [(deadLocked_total _ r).1]
      simp [DC.resetStuck]

theorem dead_of_deleted (d : DC) (r : Nat) (h : d.isDeleted r = true) : d.dead r = d := by
  unfold DC.dead
  rcases swapDeleted_cases d r with ⟨hn, _⟩ | ⟨c, hc, hs⟩
  · simp [isDeleted_eq, deletedAt, hn] at h
  · rw [hs]
    have : c.deleted = true := by simpa [isDeleted_eq, deletedAt, hc] using h
    simp [this]

/-- C6 (death idempotence).  For a `poolConn` `r` of the pool, `dead(r)` applied `k >= 1` times
gives the same pool state as applying it once; after it `r` is deleted, `total` has been
decremented exactly once if `r` was not deleted before and not at all otherwise, and the
Dead gate of a connection that was not deleted has fired. -/
theorem dead_idempotent (d : DC) (r k : Nat) (hr : r < d.conns.length) (hk : 1 ≤ k) :
    (fun x => DC.dead x r)^[k] d = d.dead r ∧
    (d.dead r).isDeleted r = true ∧
    (d.dead r).total = (if d.isDeleted r then d.total else d.total - 1) ∧
    (d.isDeleted r = false → (d.dead r).isDead r = true) := by
  obtain ⟨c, hc⟩ : ∃ c, d.conns[r]? = some c := ⟨d.conns[r], List.getElem?_eq_getElem hr⟩
  have hdel : (d.dead r).isDeleted r = true := by
    cases hd : c.deleted
    · rw [isDeleted_eq, (dead_fresh d r c hc hd).1]
      simp [deletedAt, List.getElem?_set, hr]
    · have : d.isDeleted r = true := by simp [isDeleted_eq, deletedAt, hc, hd]
      rw [dead_of_deleted d r this]; exact this
  refine ⟨?_, hdel, ?_, ?_⟩
  · obtain ⟨n, rfl⟩ : ∃ n, k = n + 1 := ⟨k - 1, by omega⟩
    clear hk
    induction n with
    | zero => rfl
    | succ n ih =>
      rw [Function.iterate_succ_apply', ih]
      exact dead_of_deleted _ r hdel
  · cases hd : c.deleted
    · have : d.isDeleted r = false := by simp [isDeleted_eq, deletedAt, hc, hd]
      simp [this, (dead_fresh d r c hc hd).2]
    · have : d.isDeleted r = true := by simp [isDeleted_eq, deletedAt, hc, hd]
      simp [this, dead_of_deleted d r this]
  · intro hd
    have hd2 : c.deleted = false := by simpa [isDeleted_eq, deletedAt, hc] using hd
    rw [isDead_eq, (dead_fresh d r c hc hd2).1]
    simp [deadAt, List.getElem?_set, hr]

theorem dead_idempotent_witness :
    (fun x => DC.dead x 1)^[3] parkedThree = parkedThree.dead 1 ∧
    (parkedThree.dead 1).total = 1 :=
  ⟨(dead_idempotent parkedThree 1 3 (by decide) (by decide)).1,
   (dead_idempotent parkedThree 1 3 (by decide) (by decide)).2.2.1⟩

/-- C5 (cancellation while parked).  A goroutine parked in the third case of `acquire` that
sees its own or the pool's context done: deletes its token from the request map, leaving
`free`, `total` and the channels as they were; drains its channel without blocking; hands a
connection found there to `release`, which puts it on top of `free` or on the channel of the
oldest parked request (never the deleted token), `total` unchanged; and then `acquire` returns
the error and no connection. -/
theorem cancel_parked (d : DC) (key conn : Nat) (e : Err) (ch : Choice) :
    -- leaving the wait of case 3
    threadStep d (PC.parked key) (Choice.ctxDone e) = ⟨d, PC.cancelled key e, []⟩ ∧
    threadStep d (PC.parked key) Choice.poolDone
      = (if d.ctxDone then ⟨d, PC.cancelled key (Err.wrap Wrap.dcClosed Err.canceled), []⟩
         else ⟨d, PC.parked key, []⟩) ∧
    -- delete(key)
    (threadStep d (PC.cancelled key e) ch).pc = PC.cancelDrain key e ∧
    key ∉ (threadStep d (PC.cancelled key e) ch).dc.freeReq.entries ∧
    (threadStep d (PC.cancelled key e) ch).dc.freeReq.slots = d.freeReq.slots ∧
    (threadStep d (PC.cancelled key e) ch).dc.free = d.free ∧
    (threadStep d (PC.cancelled key e) ch).dc.total = d.total ∧
    -- the non-blocking drain
    (threadStep d (PC.cancelDrain key e) ch).dc.free = d.free ∧
    (threadStep d (PC.cancelDrain key e) ch).dc.total = d.total ∧
    (threadStep d (PC.cancelDrain key e) ch).dc.freeReq.entries = d.freeReq.entries ∧
    (∀ c rest, takeSlot key d.freeReq.slots = some (c, rest) →
      (threadStep d (PC.cancelDrain key e) ch).pc = PC.cancelRelease c e ∧
      (threadStep d (PC.cancelDrain key e) ch).dc.freeReq.slots = rest) ∧
    (takeSlot key d.freeReq.slots = none →
      threadStep d (PC.cancelDrain key e) ch = ⟨d, acquireFailed e, []⟩) ∧
    -- release of a stranded connection, then the error
    threadStep d (PC.cancelRelease conn e) ch = ⟨d.release (some conn), acquireFailed e, []⟩ ∧
    (d.release (some conn)).total = d.total ∧
    ((d.freeReq.entries = [] ∧ (d.release (some conn)).free = d.free ++ [conn] ∧
        (d.release (some conn)).freeReq = d.freeReq) ∨
      (∃ k rest, d.freeReq.entries = k :: rest ∧ (d.release (some conn)).free = d.free ∧
        (d.release (some conn)).freeReq.slots = d.freeReq.slots ++ [(k, conn)] ∧
        (d.release (some conn)).freeReq.entries = rest)) ∧
    (∀ k, k ∈ ((threadStep d (PC.cancelled key e) ch).dc.release (some conn)).freeReq.slots.map
        Prod.fst → k ∈ d.freeReq.slots.map Prod.fst ∨ (k ≠ key ∧ k ∈ d.freeReq.entries)) ∧
    (acquireFailed e = PC.retry ∨
      acquireFailed e = PC.returning (some (Err.wrap Wrap.acquireConnection e))) ∧
    (acquireFailed e).ref = none := by
  refine ⟨rfl, ?_, rfl, ?_, rfl, rfl, rfl, ?_, ?_, ?_, ?_, ?_, rfl, (release_total d _).1, ?_, ?_,
    ?_, acquireFailed_ref e⟩
  · simp only [threadStep]
  · simp [threadStep, reqMap.delete]
  · simp only [threadStep]
    rcases recv_cases d.freeReq key with ⟨h, _⟩ | ⟨c, pre, post, h, _, _⟩ <;> rw [h]
  · simp only [threadStep]
    rcases recv_cases d.freeReq key with ⟨h, _⟩ | ⟨c, pre, post, h, _, _⟩ <;> rw [h]
  · simp only [threadStep]
    rcases recv_cases d.freeReq key with ⟨h, _⟩ | ⟨c, pre, post, h, _, _⟩ <;> rw [h]
  · intro c rest h
    simp [threadStep, reqMap.recv, h]
  · intro h
    simp [threadStep, reqMap.recv, h]
  · rcases release_cases d conn with ⟨he, h⟩ | ⟨k, rest, he, h⟩
    · left; rw [h]; exact ⟨he, rfl, rfl⟩
    · right; rw [h]; exact ⟨k, rest, he, rfl, rfl, rfl⟩
  · intro k hk
    simp only [threadStep] at hk
    rcases release_cases { d with freeReq := d.freeReq.delete key } conn
      with ⟨_, h⟩ | ⟨k0, rest, he, h⟩
    · rw [h] at hk; left; simpa [reqMap.delete] using hk
    · rw [h] at hk
      simp only [reqMap.delete, List.map_append, List.mem_append, List.map_cons, List.map_nil,
        List.mem_singleton] at hk
      rcases hk with hk | hk
      · left; exact hk
      · right
        subst hk
        have hm : k ∈ d.freeReq.entries.filter (fun k => decide (k ≠ key)) := by
          simp only [reqMap.delete] at he
          rw [he]; simp
        simp only [List.mem_filter, decide_eq_true_eq] at hm
        exact ⟨hm.2, hm.1⟩
  · unfold acquireFailed; split
    · left; rfl
    · right; rfl

/-- C10 (release after invoke).  After `conn.InvokeRaw` returned nil, `InvokeRaw` calls
`release(conn)` once and returns nil.  After it returned an error: when the Dead gate of
`conn` has fired the loop goes back to `acquire` with the pool untouched, otherwise
`release(conn)` is called once and the error is returned wrapped as `invoke pool`. -/
theorem invoke_release_once (d : DC) (conn : Nat) (e : Err) (c1 c2 c3 : Choice) :
    -- success: one release, then nil
    threadStep d (PC.invoked conn none) c1 = ⟨d, PC.releasing conn none, []⟩ ∧
    threadStep d (PC.releasing conn none) c2 = ⟨d.release (some conn), PC.returning none, []⟩ ∧
    (threadStep (d.release (some conn)) (PC.returning none) c3).pc = PC.done none ∧
    -- failure on a connection whose Dead gate has fired or not
    threadStep d (PC.invoked conn (some e)) c1
      = (if d.isDead conn then ⟨d, PC.retry, []⟩ else ⟨d, PC.releasing conn (some e), []⟩) ∧
    threadStep d (PC.releasing conn (some e)) c2
      = ⟨d.release (some conn), PC.returning (some (Err.wrap Wrap.invokePool e)), []⟩ ∧
    (threadStep (d.release (some conn)) (PC.returning (some (Err.wrap Wrap.invokePool e))) c3).pc
      = PC.done (some (Err.wrap Wrap.invokePool e)) ∧
    -- nothing but the release touches free and the request map on these paths
    (threadStep (d.release (some conn)) (PC.returning none) c3).dc.free
      = (d.release (some conn)).free ∧
    (threadStep (d.release (some conn)) (PC.returning none) c3).dc.freeReq
      = (d.release (some conn)).freeReq := by
  refine ⟨?_, rfl, rfl, ?_, rfl, rfl, rfl, rfl⟩
  · simp [threadStep]
  · simp only [threadStep]
    cases d.isDead conn <;> simp

theorem release_entries (d : DC) (conn : Nat) :
    (d.release (some conn)).freeReq.next = d.freeReq.next ∧
    (d.release (some conn)).freeReq.entries.Sublist d.freeReq.entries := by
  rcases release_cases d conn with ⟨_, h⟩ | ⟨k, rest, he, h⟩ <;> rw [h]
  · exact ⟨rfl, List.Sublist.refl _⟩
  · exact ⟨rfl, by rw [he]; exact List.sublist_cons_self _ _⟩

theorem recv_entries (m : reqMap) (key : Nat) :
    ∀ c m2, m.recv key = some (c, m2) → m2.next = m.next ∧ m2.entries = m.entries := by
  intro c m2 h
  rcases recv_cases m key with ⟨h1, _⟩ | ⟨c1, pre, post, h1, _, _⟩
  · rw [h1] at h; cases h
  · rw [h1] at h; cases h; exact ⟨rfl, rfl⟩

/-- An atomic action either leaves the tokens of the request map a sublist of what they
were, or appends the next token. -/
theorem threadStep_entries (d : DC) (pc : PC) (ch : Choice) :
    ((threadStep d pc ch).dc.freeReq.next = d.freeReq.next ∧
      (threadStep d pc ch).dc.freeReq.entries.Sublist d.freeReq.entries) ∨
    ((threadStep d pc ch).dc.freeReq.next = d.freeReq.next + 1 ∧
      (threadStep d pc ch).dc.freeReq.entries = d.freeReq.entries ++ [d.freeReq.next]) := by
  have hrefl : d.freeReq.next = d.freeReq.next ∧ d.freeReq.entries.Sublist d.freeReq.entries :=
    ⟨rfl, List.Sublist.refl _⟩
  cases pc <;> simp only [threadStep]
  case retry =>
    rcases acquireLocked_cases d with ⟨f, r, _, h2⟩ | ⟨_, _, h2⟩ | ⟨_, _, h2⟩ <;> rw [h2]
    · left; exact hrefl
    · left; exact hrefl
    · right; exact ⟨rfl, rfl⟩
  case parked key =>
    cases ch <;> simp only []
    case deliver =>
      rcases recv_cases d.freeReq key with ⟨h, _⟩ | ⟨c, pre, post, h, _, _⟩ <;> rw [h]
      · left; exact hrefl
      · left; exact ⟨rfl, List.Sublist.refl _⟩
    all_goals first
      | (left; exact hrefl)
      | (left; exact ⟨trivial, List.Sublist.refl _⟩)
      | (split <;> left <;> first | exact hrefl | exact ⟨trivial, List.Sublist.refl _⟩)
  case unstuck key => left; exact ⟨rfl, List.filter_sublist _⟩
  case cancelled key e => left; exact ⟨rfl, List.filter_sublist _⟩
  case unstuckDrain key =>
    rcases recv_cases d.freeReq key with ⟨h, _⟩ | ⟨c, pre, post, h, _, _⟩ <;> rw [h]
    · left; exact hrefl
    · left; exact ⟨rfl, List.Sublist.refl _⟩
  case cancelDrain key e =>
    rcases recv_cases d.freeReq key with ⟨h, _⟩ | ⟨c, pre, post, h, _, _⟩ <;> rw [h]
    · left; exact hrefl
    · left; exact ⟨rfl, List.Sublist.refl _⟩
  case cancelRelease conn e => left; exact release_entries d conn
  case releasing conn res => left; exact release_entries d conn
  case deadSwap r k =>
    have a := swapDeleted_freeReq d r
    have f := afterDead_frame d k
    rcases hs : d.swapDeleted r with ⟨b1, d1⟩
    rw [hs] at a
    left
    cases b1 <;> simp only []
    · rw [a]; exact hrefl
    · rw [f.2.2.1]; exact hrefl
  case deadLock r k =>
    have f := afterDead_frame (d.deadLocked r) k
    left
    rw [f.2.2.1, deadLocked_freeReq]; exact hrefl
  all_goals first
    | (left; exact hrefl)
    | (split <;> left <;> exact hrefl)
    | (cases ch <;> (try simp only []) <;> (try split) <;> left <;>
        first | exact hrefl | exact ⟨trivial, List.Sublist.refl _⟩)

/-- In every reachable state the parked tokens are in increasing order, below the next
token, and no delivery channel of a token still in the map holds a connection. -/
theorem parked_tokens_sorted (max : Int) (s : Sys) (h : Reachable max s) :
    s.dc.freeReq.entries.Pairwise (fun a b => a < b) ∧
    (∀ k ∈ s.dc.freeReq.entries, k < s.dc.freeReq.next) ∧
    (∀ x ∈ s.dc.freeReq.slots, x.1 ∉ s.dc.freeReq.entries) := by
  have hk := keyInv_reachable h
  refine ⟨?_, ?_, ?_⟩
  · have key : s.dc.freeReq.entries.Pairwise (fun a b => a < b) ∧
        ∀ k ∈ s.dc.freeReq.entries, k < s.dc.freeReq.next := by
      clear hk
      induction h with
      | init => simp [Sys.init, NewDC, newReqMap]
      | @step s ev hs ih =>
        by_cases hp : s.dc.panicked = true
        · rw [step_panicked hp]; exact ih
        have hp : s.dc.panicked = false := by simpa using hp
        cases ev with
        | invoke => rw [step_invoke hp]; exact ih
        | close => rw [step_close hp]; exact ih
        | cancelParent => rw [step_cancelParent hp]; exact ih
        | run tid ch =>
          cases hpc : s.threads[tid]? with
          | none => rw [step_run_none ch hpc]; exact ih
          | some pc =>
            rw [step_run_some hp ch hpc]
            simp only []
            rcases threadStep_entries s.dc pc ch with ⟨a, b⟩ | ⟨a, b⟩
            · exact ⟨ih.1.sublist b, fun k hk => by rw [a]; exact ih.2 k (b.subset hk)⟩
            · rw [a, b]
              refine ⟨?_, ?_⟩
              · rw [List.pairwise_append]
                refine ⟨ih.1, by simp, ?_⟩
                intro x hx y hy
                simp only [List.mem_singleton] at hy
                rw [hy]; exact ih.2 x hx
              · intro k hk
                simp only [List.mem_append, List.mem_singleton] at hk
                rcases hk with hk | hk
                · have := ih.2 k hk; omega
                · omega
    exact key.1
  · intro k hmem
    have a := hk.s2 k
    have b := hk.s3 k
    have : 0 < s.dc.entc k := List.count_pos_iff.mpr hmem
    split_ifs at b <;> omega
  · intro x hx hmem
    have a := hk.s1 x.1
    have b := hk.s3 x.1
    have e : 0 < s.dc.entc x.1 := List.count_pos_iff.mpr hmem
    have l : 0 < s.dc.keyc x.1 := by
      unfold DC.keyc
      rw [List.count_pos_iff]
      exact List.mem_map_of_mem Prod.fst hx
    split_ifs at b <;> omega

/-- When the caller's context is done while `acquire` waits in its second case for the
connection it has just created, `acquire` returns without touching the pool: the connection
stays counted in `total`, is not pushed to `free` and is not deleted.  With limit 1 the pool
then sits at `total = 1` with an empty `free` after the only call has returned. -/
theorem cancel_during_create_keeps_count (d : DC) (conn : Nat) (e : Err) :
    threadStep d (PC.waitReady conn) (Choice.ctxDone e) = ⟨d, acquireFailed e, []⟩ ∧
    ((Sys.init 1).run traceCancelCreate).quiescent = true ∧
    ((Sys.init 1).run traceCancelCreate).dc.total = 1 ∧
    ((Sys.init 1).run traceCancelCreate).dc.free = [] ∧
    ((Sys.init 1).run traceCancelCreate).dc.isDeleted 0 = false ∧
    ((Sys.init 1).run traceCancelCreate).threads[0]?
      = some (PC.done (some (Err.wrap Wrap.acquireConnection Err.canceled))) := by
  refine ⟨rfl, ?_, ?_, ?_, ?_, ?_⟩ <;> decide

/-! ### The three cases of `acquire` -/

/-- C11 (create or park).  With an empty free stack the critical section of `acquire` either
increments `total` by one and goes on to create a connection (`nextConn.Inc`, then
`createConnection`, which alone allocates and spawns), exactly when `max < 1` or
`total < max`; or it registers one request in the request map and parks, leaving `total`,
the store of connections and everything else as it was.  With `max < 1` it takes the first
branch whatever `total` is. -/
theorem acquire_create_or_park (d : DC) (ch : Choice) (hfree : d.free = []) :
    -- under capacity or unbounded: total++, then on to the creation
    ((d.max < 1 ∨ d.total < d.max) →
      threadStep d PC.retry ch = ⟨{ d with total := d.total + 1 }, PC.creating, []⟩) ∧
    -- at capacity: one request is registered, nothing else moves
    (¬ (d.max < 1 ∨ d.total < d.max) →
      threadStep d PC.retry ch =
        ⟨{ d with freeReq := ⟨d.freeReq.next + 1, d.freeReq.entries ++ [d.freeReq.next],
                              d.freeReq.slots⟩ },
          PC.parked d.freeReq.next, []⟩) ∧
    -- so a connection is created exactly in the first case, and a request made in the other
    ((threadStep d PC.retry ch).pc = PC.creating ↔ (d.max < 1 ∨ d.total < d.max)) ∧
    ((∃ key, (threadStep d PC.retry ch).pc = PC.parked key) ↔ ¬ (d.max < 1 ∨ d.total < d.max)) ∧
    -- no limit: never parked, whatever total is
    (d.max < 1 → ∀ t : Int, threadStep { d with total := t } PC.retry ch
      = ⟨{ d with total := t + 1 }, PC.creating, []⟩) ∧
    -- the creation itself, from whatever state the pool is in by then
    (∀ (d2 : DC) (c2 : Choice), threadStep d2 PC.creating c2 =
      ⟨{ d2 with nextConn := d2.nextConn + 1 }, PC.created (d2.nextConn + 1), []⟩) ∧
    (∀ (d3 : DC) (id : Int) (c3 : Choice), threadStep d3 (PC.created id) c3 =
      ⟨{ d3 with conns := d3.conns ++ [⟨id, false, false⟩], grp := d3.grp + 1 },
        PC.waitReady d3.conns.length, [PC.running d3.conns.length]⟩) := by
  have hun : d.max < 1 → ∀ t : Int, threadStep { d with total := t } PC.retry ch
      = ⟨{ d with total := t + 1 }, PC.creating, []⟩ := by
    intro hm t
    rcases acquireLocked_cases ({ d with total := t } : DC) with ⟨f, r, h, _⟩ | ⟨_, _, h⟩ | ⟨_, hcap, _⟩
    · rw [show ({ d with total := t } : DC).free = d.free from rfl, hfree] at h; simp at h
    · simp only [threadStep, h]
    · exact absurd (Or.inl hm) hcap
  rcases acquireLocked_cases d with ⟨f, r, h, _⟩ | ⟨_, hcap, h⟩ | ⟨_, hcap, h⟩
  · rw [hfree] at h; simp at h
  · refine ⟨fun _ => ?_, fun hn => absurd hcap hn, ?_, ?_, hun, fun _ _ => rfl, fun _ _ _ => rfl⟩
    · simp only [threadStep, h]
    · simp only [threadStep, h, true_iff]; exact hcap
    · simp only [threadStep, h]; simp [hcap]
  · refine ⟨fun hn => absurd hn hcap, fun _ => ?_, ?_, ?_, hun, fun _ _ => rfl, fun _ _ _ => rfl⟩
    · simp only [threadStep, h]
    · simp only [threadStep, h]; simp [hcap]
    · simp only [threadStep, h]; simp [hcap]

theorem acquire_create_or_park_witness :
    threadStep fullTwo PC.retry Choice.tick
      = ⟨{ fullTwo with freeReq := ⟨1, [0], []⟩ }, PC.parked 0, []⟩ ∧
    threadStep { fullTwo with max := 0 } PC.retry Choice.tick
      = ⟨{ fullTwo with max := 0, total := 3 }, PC.creating, []⟩ :=
  ⟨(acquire_create_or_park fullTwo Choice.tick rfl).2.1 (by decide),
   (acquire_create_or_park { fullTwo with max := 0 } Choice.tick rfl).1 (by decide)⟩

theorem acquire_succ (fuel : Nat) (d : DC) :
    d.acquire (fuel + 1) =
      match d.acquireLocked with
      | (.popped r, d1) =>
        if d1.isDead r then
          if (d1.dead r).panicked then some (none, d1.dead r)
          else DC.acquire fuel (d1.dead r)
        else some (some (.popped r), d1)
      | (a, d1) => some (some a, d1) := by
  rw [DC.acquire]
  all_goals (rcases d.acquireLocked with ⟨a, d1⟩; cases a <;> rfl)

/-- One pass of `acquire` over a non-empty free stack. -/
theorem acquire_pop (fuel : Nat) (d : DC) (f : List Nat) (r : Nat) (h : d.free = f ++ [r]) :
    d.acquire (fuel + 1) =
      if d.isDead r then
        if (({ d with free := f } : DC).dead r).panicked then
          some (none, ({ d with free := f } : DC).dead r)
        else DC.acquire fuel (({ d with free := f } : DC).dead r)
      else some (some (.popped r), { d with free := f }) := by
  rcases acquireLocked_cases d with ⟨f2, r2, h2, e⟩ | ⟨h2, _⟩ | ⟨h2, _⟩
  · rw [h] at h2
    obtain ⟨rfl, hr⟩ := List.append_inj' h2 rfl
    simp only [List.cons.injEq, and_true] at hr
    subst hr
    rw [acquire_succ, e]
    rfl
  · rw [h] at h2; simp at h2
  · rw [h] at h2; simp at h2

/-- The pass of `acquire` over an empty free stack: the second or the third case. -/
theorem acquire_empty (fuel : Nat) (d : DC) (h : d.free = []) :
    d.acquire (fuel + 1) = some (some d.acquireLocked.1, d.acquireLocked.2) ∧
    ∀ r, d.acquireLocked.1 ≠ Acq.popped r := by
  rcases acquireLocked_cases d with ⟨f2, r2, h2, e⟩ | ⟨_, _, e⟩ | ⟨_, _, e⟩
  · rw [h] at h2; simp at h2
  · rw [acquire_succ, e]; simp
  · rw [acquire_succ, e]; simp

/-- C12 (LIFO reuse).  In a pool whose request map is empty, `release(c)` pushes `c` on top
of `free`, and an `acquire` that follows returns `c` after one pass when the Dead gate of `c`
has not fired; the pool state is then what it was before the release, `free` and `total`
included.  This needs no assumption on `c` being absent from `free`.  `release(nil)` changes
nothing. -/
theorem release_acquire_lifo (d : DC) (c fuel : Nat) (hreq : d.freeReq.entries = [])
    (hlive : d.isDead c = false) :
    (d.release (some c)).free = d.free ++ [c] ∧
    (d.release (some c)).total = d.total ∧
    (d.release (some c)).acquire (fuel + 1) = some (some (Acq.popped c), d) ∧
    d.release none = d := by
  rcases release_cases d c with ⟨_, h⟩ | ⟨k, rest, he, _⟩
  · refine ⟨by rw [h], by rw [h], ?_, rfl⟩
    rw [h, acquire_pop fuel _ d.free c rfl]
    have : ({ d with free := d.free ++ [c] } : DC).isDead c = d.isDead c := rfl
    rw [this, hlive]
    rfl
  · rw [hreq] at he; cases he

theorem release_acquire_lifo_witness :
    ({ deadOnTop with free := [0] }.release (some 1)).acquire 1
      = some (some (Acq.popped 1), { deadOnTop with free := [0] }) :=
  (release_acquire_lifo { deadOnTop with free := [0] } 1 0 rfl (by decide)).2.2.1

theorem dead_free_length (d : DC) (r : Nat) : (d.dead r).free.length ≤ d.free.length := by
  unfold DC.dead
  rcases swapDeleted_cases d r with ⟨_, h⟩ | ⟨c, _, h⟩
  · rw [h]
    simp only []
    have hs := signalDead_frame d.resetStuck r
    rw [deadLocked_free_eq, hs.1]
    split_ifs
    · exact le_refl _
    · rw [List.length_eraseIdx]; split <;> simp [DC.resetStuck]
    · exact le_refl _
  · rw [h]
    cases c.deleted
    · simp only []
      have hs := signalDead_frame
        ({ d with conns := d.conns.set r { c with deleted := true } } : DC).resetStuck r
      rw [deadLocked_free_eq, hs.1]
      split_ifs
      · exact le_refl _
      · rw [List.length_eraseIdx]; split <;> simp [DC.resetStuck]
      · exact le_refl _
    · exact le_refl _

/-- The retry loop over the first case ends: every pass pops a connection or leaves the
loop, and `dead` never adds to `free`. -/
theorem acquire_terminates (fuel : Nat) (d : DC) (h : d.free.length < fuel) :
    (d.acquire fuel).isSome = true := by
  induction fuel generalizing d with
  | zero => omega
  | succ n ih =>
    rcases List.eq_nil_or_concat d.free with h0 | ⟨f, r, h0⟩
    · rw [(acquire_empty n d h0).1]; rfl
    · have h0 : d.free = f ++ [r] := by simpa using h0
      rw [acquire_pop n d f r h0]
      split_ifs
      · rfl
      · apply ih
        have := dead_free_length ({ d with free := f } : DC) r
        have hl : d.free.length = f.length + 1 := by rw [h0]; simp
        simp only [] at this
        omega
      · rfl

/-- A connection that `acquire` returns from `free` had its Dead gate unfired when tested. -/
theorem acquire_returns_live (fuel : Nat) (d d2 : DC) (r : Nat)
    (h : d.acquire fuel = some (some (Acq.popped r), d2)) : d2.isDead r = false := by
  induction fuel generalizing d with
  | zero => simp [DC.acquire] at h
  | succ n ih =>
    rcases List.eq_nil_or_concat d.free with h0 | ⟨f, r0, h0⟩
    · have e := acquire_empty n d h0
      rw [e.1] at h
      simp only [Option.some.injEq, Prod.mk.injEq] at h
      exact absurd h.1 (e.2 r)
    · have h0 : d.free = f ++ [r0] := by simpa using h0
      rw [acquire_pop n d f r0 h0] at h
      split_ifs at h with h1 h2
      · simp at h
      · exact ih _ h
      · simp only [Option.some.injEq, Prod.mk.injEq, Acq.popped.injEq] at h
        obtain ⟨rfl, rfl⟩ := h
        simpa using h1

/-- Dead connections on top of `free` cost one pass each and leave nothing behind. -/
theorem acquire_skip_dead (above : List Nat) :
    ∀ (d : DC) (base : List Nat) (fuel : Nat), d.panicked = false → d.free = base ++ above →
      (∀ r ∈ above, d.isDead r = true ∧ d.isDeleted r = true) →
      d.acquire (above.length + fuel) = ({ d with free := base } : DC).acquire fuel := by
  induction above using List.reverseRecOn with
  | nil =>
    intro d base fuel _ hf _
    have hb : base = d.free := by simpa using hf.symm
    subst hb
    simp
  | append_singleton as a ih =>
    intro d base fuel hnp hf hd
    have e : (as ++ [a]).length + fuel = (as.length + fuel) + 1 := by simp; omega
    rw [e, acquire_pop _ d (base ++ as) a (by rw [hf]; simp)]
    have ha := hd a (by simp)
    have hdd : ({ d with free := base ++ as } : DC).dead a = { d with free := base ++ as } :=
      dead_of_deleted _ a ha.2
    rw [ha.1, hdd]
    rw [if_pos rfl, if_neg (by show ¬ d.panicked = true; rw [hnp]; simp)]
    exact ih { d with free := base ++ as } base fuel hnp rfl
      (fun r hr => hd r (by simp [hr]))

/-- In every reachable state a connection whose Dead gate has fired is deleted, and the
panic of `dead` has not been raised: what `acquire_first_case` asks of the pool. -/
theorem dead_deleted_reachable (max : Int) (s : Sys) (h : Reachable max s) :
    s.dc.panicked = false ∧ ∀ r, s.dc.isDead r = true → s.dc.isDeleted r = true := by
  have hi := inv_reachable h
  refine ⟨hi.np, ?_⟩
  intro r hr
  have := hi.won r
  rw [hr] at this
  cases hd : s.dc.isDeleted r
  · rw [hd] at this; simp [b2n] at this
  · rfl

/-- C18 (first case of `acquire`).  In a pool where the free connections whose Dead gate has
fired are deleted (as they are in every reachable state: the gate is signalled by `dead`
only), `acquire` run without interruption returns the topmost connection of `free` whose
Dead gate has not fired, after one pass per dead connection above it and one for itself;
`free` is then what was below it and nothing else has changed.  When every free connection
is dead, `free` is emptied and the pass after the last pop takes the second or third case.
A connection returned from `free` had its gate unfired when it was tested, and the loop ends
within `len(free) + 1` passes, of which at most `len(free)` pop a connection. -/
theorem acquire_first_case (d : DC) (hnp : d.panicked = false)
    (hdel : ∀ r ∈ d.free, d.isDead r = true → d.isDeleted r = true) :
    -- a live connection with only dead ones above it
    (∀ (below above : List Nat) (c : Nat), d.free = below ++ c :: above → d.isDead c = false →
      (∀ r ∈ above, d.isDead r = true) →
      above.length + 1 ≤ d.free.length ∧
      d.acquire (above.length + 1) = some (some (Acq.popped c), { d with free := below })) ∧
    -- every free connection is dead
    ((∀ r ∈ d.free, d.isDead r = true) →
      d.acquire (d.free.length + 1)
        = some (some ({ d with free := [] } : DC).acquireLocked.1,
                ({ d with free := [] } : DC).acquireLocked.2) ∧
      ∀ r, ({ d with free := [] } : DC).acquireLocked.1 ≠ Acq.popped r) ∧
    -- what is returned was live when tested, and the loop ends
    (∀ (fuel r : Nat) (d2 : DC), d.acquire fuel = some (some (Acq.popped r), d2) →
      d2.isDead r = false) ∧
    (d.acquire (d.free.length + 1)).isSome = true := by
  refine ⟨?_, ?_, fun fuel r d2 h => acquire_returns_live fuel d d2 r h,
    acquire_terminates _ d (by omega)⟩
  · intro below above c hf hc ha
    refine ⟨by rw [hf]; simp, ?_⟩
    rw [acquire_skip_dead above d (below ++ [c]) 1 hnp (by rw [hf]; simp)
      (fun r hr => ⟨ha r hr, hdel r (by rw [hf]; simp [hr]) (ha r hr)⟩)]
    rw [acquire_pop 0 _ below c rfl]
    have : ({ d with free := below ++ [c] } : DC).isDead c = d.isDead c := rfl
    rw [this, hc]
    rfl
  · intro ha
    have := acquire_skip_dead d.free d [] 1 hnp (by simp)
      (fun r hr => ⟨ha r hr, hdel r hr (ha r hr)⟩)
    rw [this]
    exact acquire_empty 0 _ rfl

theorem acquire_first_case_witness :
    deadOnTop.acquire 3 = some (some (Acq.popped 1), { deadOnTop with free := [0] }) :=
  ((acquire_first_case deadOnTop (by decide) (by decide)).1 [0] [2, 3] 1 (by decide) (by decide)
    (by decide)).2

/-! ### The `closed` flag -/

theorem release_closed (d : DC) (r : Option Nat) : (d.release r).closed = d.closed := by
  cases r with
  | none => simp [DC.release]
  | some r => rcases release_cases d r with ⟨_, h⟩ | ⟨k, rest, _, h⟩ <;> rw [h]

theorem afterDead_closed (d : DC) (k : Caller) : (afterDead d k).dc.closed = d.closed := by
  cases k <;> simp [afterDead]

theorem deadLocked_closed (d : DC) (r : Nat) : (d.deadLocked r).closed = d.closed := by
  have s : (d.signalDead r).closed = d.closed := by
    rcases signalDead_cases d r with ⟨_, h⟩ | ⟨c, _, h⟩ <;> rw [h]
  rcases deadLocked_cases d r with ⟨_, h⟩ | ⟨_, f, _, h⟩ <;> rw [h] <;> simp [s]

theorem swapDeleted_closed (d : DC) (r : Nat) : (d.swapDeleted r).2.closed = d.closed := by
  rcases swapDeleted_cases d r with ⟨_, h⟩ | ⟨c, _, h⟩ <;> rw [h]

/-- Only the test-and-set of `Close` writes `closed`. -/
theorem threadStep_closed (d : DC) (pc : PC) (ch : Choice) (h : pc ≠ PC.closeStart) :
    (threadStep d pc ch).dc.closed = d.closed := by
  cases pc <;> simp only [threadStep]
  case closeStart => exact absurd rfl h
  case retry =>
    rcases acquireLocked_cases d with ⟨f, r, _, h⟩ | ⟨_, hc, h⟩ | ⟨_, _, h⟩ <;> rw [h]
  case deadSwap r k =>
    have a := swapDeleted_closed d r
    have b := afterDead_closed d k
    rcases hs : d.swapDeleted r with ⟨b1, d1⟩
    rw [hs] at a
    cases b1 <;> simp_all
  case deadLock r k =>
    rw [afterDead_closed, deadLocked_closed]
  case cancelRelease c e => simp [release_closed]
  case releasing c e => simp [release_closed]
  all_goals first
    | rfl
    | (split <;> rfl)
    | (cases ch <;> simp only [] <;> (try split) <;> rfl)

theorem threadStep_closed_mono (d : DC) (pc : PC) (ch : Choice) (h : d.closed = true) :
    (threadStep d pc ch).dc.closed = true := by
  by_cases hp : pc = PC.closeStart
  · subst hp; simp [threadStep, h]
  · rw [threadStep_closed d pc ch hp]; exact h

theorem step_closed_mono (s : Sys) (ev : Event) (h : s.dc.closed = true) :
    (s.step ev).dc.closed = true := by
  by_cases hp : s.dc.panicked = true
  · rw [step_panicked hp]; exact h
  · have hp : s.dc.panicked = false := by simpa using hp
    cases ev with
    | invoke => rw [step_invoke hp]; exact h
    | close => rw [step_close hp]; exact h
    | cancelParent => rw [step_cancelParent hp]; exact h
    | run tid ch =>
      cases hpc : s.threads[tid]? with
      | none => rw [step_run_none ch hpc]; exact h
      | some pc => rw [step_run_some hp ch hpc]; exact threadStep_closed_mono _ _ _ h

theorem run_closed_mono (evs : List Event) (s : Sys) (h : s.dc.closed = true) :
    (s.run evs).dc.closed = true := by
  induction evs generalizing s with
  | nil => exact h
  | cons ev evs ih => exact ih _ (step_closed_mono s ev h)


theorem threadStep_closing (d : DC) (pc : PC) (ch : Choice)
    (h : (threadStep d pc ch).pc.closing = true) :
    pc.closing = true ∨ (threadStep d pc ch).dc.closed = true := by
  cases pc <;> simp only [threadStep] at h ⊢
  case closeStart => right; split <;> simp_all
  case closeWait b => left; rfl
  case closeCancel => left; rfl
  case closeGrp => left; rfl
  case closeDone r => left; rfl
  case retry =>
    rcases acquireLocked_cases d with ⟨f, r, _, e⟩ | ⟨_, hc, e⟩ | ⟨_, _, e⟩ <;> rw [e] at h <;>
      simp [PC.closing] at h
  case deadSwap r k =>
    rcases hs : d.swapDeleted r with ⟨b1, d1⟩
    rw [hs] at h
    cases b1 <;> cases k <;> simp [afterDead, PC.closing] at h
  case deadLock r k => cases k <;> simp [afterDead, PC.closing] at h
  all_goals first
    | (simp [PC.closing] at h; done)
    | (simp only [acquireFailed] at h; split at h <;> simp [PC.closing] at h; done)
    | (split at h <;> simp [PC.closing] at h; done)
    | (cases ch <;> (try simp only [] at h) <;> (try split at h) <;>
        (try simp only [acquireFailed] at h) <;> (try split at h) <;> simp [PC.closing] at h)

theorem threadStep_spawn_closing (d : DC) (pc : PC) (ch : Choice) :
    ∀ t ∈ (threadStep d pc ch).spawn, t.closing = false := by
  cases pc <;> simp only [threadStep]
  case retry =>
    rcases acquireLocked_cases d with ⟨f, r, _, e⟩ | ⟨_, hc, e⟩ | ⟨_, _, e⟩ <;> rw [e] <;> simp
  case deadSwap r k =>
    rcases hs : d.swapDeleted r with ⟨b1, d1⟩
    cases b1 <;> cases k <;> simp [afterDead]
  case deadLock r k => cases k <;> simp [afterDead]
  all_goals first
    | (simp [PC.closing]; done)
    | (split <;> simp)
    | (cases ch <;> simp only [] <;> (try split) <;> simp)

/-- Once a call of `Close` is past its test-and-set, `closed` is set. -/
theorem closing_closed {max : Int} {s : Sys} (h : Reachable max s) :
    ∀ t ∈ s.threads, t.closing = true → s.dc.closed = true := by
  induction h with
  | init => simp [Sys.init]
  | @step s ev hs ih =>
    by_cases hp : s.dc.panicked = true
    · rw [step_panicked hp]; exact ih
    · have hp : s.dc.panicked = false := by simpa using hp
      cases ev with
      | invoke =>
        rw [step_invoke hp]
        intro t ht hc
        rcases List.mem_append.mp ht with ht | ht
        · exact ih t ht hc
        · simp at ht; subst ht; simp [PC.closing] at hc
      | close =>
        rw [step_close hp]
        intro t ht hc
        rcases List.mem_append.mp ht with ht | ht
        · exact ih t ht hc
        · simp at ht; subst ht; simp [PC.closing] at hc
      | cancelParent => rw [step_cancelParent hp]; exact ih
      | run tid ch =>
        cases hpc : s.threads[tid]? with
        | none => rw [step_run_none ch hpc]; exact ih
        | some pc =>
          rw [step_run_some hp ch hpc]
          intro t ht hc
          simp only [] at ht ⊢
          rcases List.mem_append.mp ht with ht | ht
          · rcases List.mem_or_eq_of_mem_set ht with ht | ht
            · by_cases hcs : pc = PC.closeStart
              · subst hcs
                simp only [threadStep]; split <;> simp_all
              · rw [threadStep_closed _ _ _ hcs]; exact ih t ht hc
            · subst ht
              rcases threadStep_closing _ _ _ hc with h1 | h1
              · have := ih pc (List.mem_iff_getElem?.mpr ⟨_, hpc⟩) h1
                exact threadStep_closed_mono _ _ _ this
              · exact h1
          · rw [threadStep_spawn_closing _ _ _ t ht] at hc; cases hc

/-- C13 (closed pool).  When `closed` is set, `InvokeRaw` returns `DC is closed` at its first
step: it does not reach `ongoing.Add`, `acquire` or a connection, and the pool state is
unchanged.  `closed` is never unset, and it is set once a call of `Close` is past its
test-and-set; so from any such state, whatever happens next, a call of `InvokeRaw` that
makes its closed check returns that error and leaves the pool and the other goroutines as
they are. -/
theorem invoke_after_close (max : Int) (s : Sys) (evs : List Event) (tid : Nat) (ch : Choice)
    (h : Reachable max s)
    (hc : s.dc.closed = true ∨ ∃ t ∈ s.threads, t.closing = true)
    (hst : (s.run evs).threads[tid]? = some PC.start) :
    -- the closed check of InvokeRaw, in any pool state
    (∀ (d : DC) (c : Choice), d.closed = true →
      threadStep d PC.start c = ⟨d, PC.done (some Err.dcIsClosed), []⟩) ∧
    -- closed stays set, so a call that starts later returns at its first step
    (s.run evs).dc.closed = true ∧
    ((s.run evs).step (Event.run tid ch)).dc = (s.run evs).dc ∧
    ((s.run evs).step (Event.run tid ch)).threads
      = (s.run evs).threads.set tid (PC.done (some Err.dcIsClosed)) := by
  have hcl : s.dc.closed = true := by
    rcases hc with hc | ⟨t, ht, hc⟩
    · exact hc
    · exact closing_closed h t ht hc
  have hrun := run_closed_mono evs s hcl
  have hr : Reachable max (s.run evs) := by
    clear hst hrun hcl hc
    induction evs generalizing s with
    | nil => exact h
    | cons ev evs ih => exact ih _ (Reachable.step ev h)
  have hnp := (inv_reachable hr).np
  refine ⟨fun d c hd => by simp [threadStep, hd], hrun, ?_, ?_⟩
  · rw [step_run_some hnp ch hst]; simp [threadStep, hrun]
  · rw [step_run_some hnp ch hst]; simp [threadStep, hrun]

theorem invoke_after_close_witness :
    ((Sys.init 2).run (traceCloseTwice.take 3)).threads[0]? = some (PC.closeWait false) ∧
    ((((Sys.init 2).run (traceCloseTwice.take 3)).run [Event.run 1 Choice.tick, Event.invoke]).step
        (Event.run 2 Choice.tick)).threads
      = (((Sys.init 2).run (traceCloseTwice.take 3)).run
          [Event.run 1 Choice.tick, Event.invoke]).threads.set 2
            (PC.done (some Err.dcIsClosed)) :=
  ⟨by decide,
   (invoke_after_close 2 ((Sys.init 2).run (traceCloseTwice.take 3))
      [Event.run 1 Choice.tick, Event.invoke] 2 Choice.tick (reachable_run 2 _)
      (Or.inr ⟨PC.closeWait false, by decide, rfl⟩) (by decide)).2.2.2⟩

theorem passes_closed (s : Sys) (ev : Event) :
    b2n (s.passesClose ev) + b2n s.dc.closed = b2n (s.step ev).dc.closed := by
  by_cases hp : s.dc.panicked = true
  · rw [step_panicked hp]; cases ev <;> simp [Sys.passesClose, hp, b2n]
  · have hp : s.dc.panicked = false := by simpa using hp
    cases ev with
    | invoke => rw [step_invoke hp]; simp [Sys.passesClose, b2n]
    | close => rw [step_close hp]; simp [Sys.passesClose, b2n]
    | cancelParent => rw [step_cancelParent hp]; simp [Sys.passesClose, b2n]
    | run tid ch =>
      cases hpc : s.threads[tid]? with
      | none => rw [step_run_none ch hpc]; simp [Sys.passesClose, hpc, b2n]
      | some pc =>
        rw [step_run_some hp ch hpc]
        by_cases hcs : pc = PC.closeStart
        · subst hcs
          cases hcl : s.dc.closed <;> simp [Sys.passesClose, hpc, hp, hcl, b2n, threadStep]
        · simp only []
          rw [threadStep_closed _ _ _ hcs]
          simp [Sys.passesClose, hpc, hp, hcs, b2n]

theorem closePasses_closed (evs : List Event) (s : Sys) :
    closePasses s evs + b2n s.dc.closed = b2n (s.run evs).dc.closed := by
  induction evs generalizing s with
  | nil => simp [closePasses, Sys.run]
  | cons ev evs ih =>
    have h1 := passes_closed s ev
    have h2 := ih (s.step ev)
    simp only [closePasses, Sys.run, List.foldl_cons] at h2 ⊢
    omega

/-- C14 (close once).  The test-and-set of `Close` on a pool that is not closed sets `closed`
and goes on to the wait; on a closed pool it returns `DC already closed` at once, with the
pool state unchanged (the pool context is not cancelled, the supervisor is not waited for).
Along any execution from `NewDC`, the calls of `Close` that pass the check of `closed` number
one if `closed` is set at the end and none otherwise; once `closed` is set it stays set and no
further call passes. -/
theorem close_once (max : Int) (evs : List Event) (d : DC) (ch : Choice) :
    -- the test-and-set of Close on an open and on a closed pool
    (d.closed = false →
      threadStep d PC.closeStart ch = ⟨{ d with closed := true }, PC.closeWait false, []⟩) ∧
    (d.closed = true →
      threadStep d PC.closeStart ch = ⟨d, PC.closeDone (some Err.dcAlreadyClosed), []⟩) ∧
    -- over any execution
    closePasses (Sys.init max) evs = b2n ((Sys.init max).run evs).dc.closed ∧
    closePasses (Sys.init max) evs ≤ 1 ∧
    (∀ ev, ((Sys.init max).run evs).dc.closed = true →
      (((Sys.init max).run evs).step ev).dc.closed = true ∧
      ((Sys.init max).run evs).passesClose ev = false) := by
  have h := closePasses_closed evs (Sys.init max)
  have h0 : b2n (Sys.init max).dc.closed = 0 := rfl
  refine ⟨fun hd => by simp [threadStep, hd], fun hd => by simp [threadStep, hd], by omega, ?_, ?_⟩
  · have := b2n_le ((Sys.init max).run evs).dc.closed
    omega
  · intro ev hc
    refine ⟨step_closed_mono _ ev hc, ?_⟩
    cases ev <;> simp [Sys.passesClose, hc]

/-- Two calls of `Close`: the first passes the check, the second is turned away. -/
theorem close_twice_example :
    closePasses (Sys.init 2) traceCloseTwice = 1 ∧
    ((Sys.init 2).run traceCloseTwice).threads[0]? = some (PC.closeWait false) ∧
    ((Sys.init 2).run traceCloseTwice).threads[1]? = some (PC.closeDone (some Err.dcAlreadyClosed)) := by
  decide

/-! ### Connection ids -/

theorem release_ids (d : DC) (r : Option Nat) :
    (d.release r).conns = d.conns ∧ (d.release r).nextConn = d.nextConn := by
  cases r with
  | none => simp [DC.release]
  | some r => rcases release_cases d r with ⟨_, h⟩ | ⟨k, rest, _, h⟩ <;> rw [h] <;> simp

theorem swapDeleted_ids (d : DC) (r : Nat) :
    (d.swapDeleted r).2.conns.map (fun c => c.id) = d.conns.map (fun c => c.id) ∧
    (d.swapDeleted r).2.nextConn = d.nextConn := by
  rcases swapDeleted_cases d r with ⟨_, h⟩ | ⟨c, hc, h⟩ <;> rw [h]
  · simp
  · exact ⟨map_id_set hc rfl, rfl⟩

theorem deadLocked_ids (d : DC) (r : Nat) :
    (d.deadLocked r).conns.map (fun c => c.id) = d.conns.map (fun c => c.id) ∧
    (d.deadLocked r).nextConn = d.nextConn := by
  have s : (d.signalDead r).conns.map (fun c => c.id) = d.conns.map (fun c => c.id) ∧
      (d.signalDead r).nextConn = d.nextConn := by
    rcases signalDead_cases d r with ⟨_, h⟩ | ⟨c, hc, h⟩ <;> rw [h]
    · simp
    · exact ⟨map_id_set hc rfl, rfl⟩
  rcases deadLocked_cases d r with ⟨_, h⟩ | ⟨_, f, _, h⟩ <;> rw [h] <;> exact s

theorem afterDead_pendId (d : DC) (k : Caller) (i : Int) : (afterDead d k).pc.pendId i = 0 := by
  cases k <;> rfl

theorem ids_frame {d : DC} {pc : PC} {o : Out} {i : Int}
    (hc : o.dc.conns.map (fun c => c.id) = d.conns.map (fun c => c.id))
    (hn : o.dc.nextConn = d.nextConn) (hs : o.spawn = [])
    (h1 : pc.pendId i = 0) (h2 : o.pc.pendId i = 0) : IdStep d pc o i := by
  refine ⟨by omega, ?_⟩
  have : ¬ (d.nextConn < i ∧ i ≤ o.dc.nextConn) := by omega
  simp [DC.idc, hc, hs, h1, h2, weigh, this]

/-- Every id taken from `nextConn` goes to one connection: an atomic action moves an id from
the counter to the goroutine or from the goroutine to the store, and nothing else. -/
theorem threadStep_ids (d : DC) (pc : PC) (ch : Choice) (i : Int) :
    IdStep d pc (threadStep d pc ch) i := by
  have aw := acquireFailed_w
  cases pc <;> simp only [threadStep]
  case creating =>
    refine ⟨by simp [DC.incNextConn], ?_⟩
    simp only [DC.incNextConn, DC.idc, PC.pendId, weigh]
    simp
    split_ifs <;> omega
  case created id =>
    refine ⟨by simp [DC.createConnection], ?_⟩
    simp [DC.idc, DC.createConnection, PC.pendId, weigh, List.count_append, List.count_cons]
  case retry =>
    rcases acquireLocked_cases d with ⟨f, r, _, h⟩ | ⟨_, hc, h⟩ | ⟨_, _, h⟩ <;> rw [h] <;>
      apply ids_frame <;> simp [PC.pendId]
  case deadSwap r k =>
    have a := swapDeleted_ids d r
    obtain ⟨f1, f2, f3, f4, f5, f6, f7, f8, f9⟩ := afterDead_frame d k
    rcases hs : d.swapDeleted r with ⟨b1, d1⟩
    rw [hs] at a
    simp only [] at a
    cases b1 <;> simp only []
    · apply ids_frame <;> simp [PC.pendId, a]
    · apply ids_frame <;> (try simp only [afterDead_pendId]) <;> simp [PC.pendId, f1, f4, f7]
  case deadLock r k =>
    have a := deadLocked_ids d r
    obtain ⟨f1, f2, f3, f4, f5, f6, f7, f8, f9⟩ := afterDead_frame (d.deadLocked r) k
    apply ids_frame <;> (try simp only [afterDead_pendId]) <;> simp [PC.pendId, f1, f4, f7, a]
  case cancelRelease c e =>
    apply ids_frame <;> (try simp only [aw]) <;> simp [PC.pendId, release_ids]
  case releasing c e =>
    apply ids_frame <;> simp [PC.pendId, release_ids]
  all_goals first
    | (apply ids_frame <;> (try simp only [aw]) <;> (try simp [PC.pendId, DC.resetStuck]); done)
    | (split <;> apply ids_frame <;> (try simp only [aw]) <;> (try simp [PC.pendId]); done)
    | (cases ch <;> (try simp only []) <;> (try split) <;> apply ids_frame <;>
        (try simp only [aw]) <;> (try simp [PC.pendId]); done)


/-- The ids from 1 to `nextConn`, and no others, are each with one connection of the store
or with one goroutine that is about to create the connection. -/
theorem ids_reachable {max : Int} {s : Sys} (h : Reachable max s) (i : Int) :
    s.dc.idc i + weigh (PC.pendId i) s.threads
      = if 1 ≤ i ∧ i ≤ s.dc.nextConn then 1 else 0 := by
  induction h with
  | init =>
    have : ¬ (1 ≤ i ∧ i ≤ 0) := by omega
    simp [Sys.init, NewDC, DC.idc, weigh, this]
  | @step s ev hs ih =>
    have hn := (inv_reachable hs).next
    by_cases hp : s.dc.panicked = true
    · rw [step_panicked hp]; exact ih
    · have hp : s.dc.panicked = false := by simpa using hp
      cases ev with
      | invoke => rw [step_invoke hp]; simpa [weigh_append, weigh, PC.pendId] using ih
      | close => rw [step_close hp]; simpa [weigh_append, weigh, PC.pendId] using ih
      | cancelParent => rw [step_cancelParent hp]; simpa [DC.idc] using ih
      | run tid ch =>
        cases hpc : s.threads[tid]? with
        | none => rw [step_run_none ch hpc]; exact ih
        | some pc =>
          rw [step_run_some hp ch hpc]
          obtain ⟨k1, k2⟩ := threadStep_ids s.dc pc ch i
          have w := weigh_set (PC.pendId i) hpc (threadStep s.dc pc ch).pc
          simp only [weigh_append]
          split_ifs at ih k2 ⊢ <;> omega

/-- C15 (connection ids), as amended.  `nextConn` starts at 0 and every `Inc` returns one
more than the call before it, so the ids handed out are 1, 2, 3, ... in the order of the
`Inc` calls.  In every reachable state two connections of the pool have different ids (which
`dead` relies on when it looks a connection up in `free` by id), every id lies in
`1..nextConn`, and every id of that range is with exactly one connection or with the one
goroutine that is about to create it.  The order of creation is left open: see
`second_created_has_id_one`. -/
theorem conn_ids_distinct (max : Int) (s : Sys) (h : Reachable max s) :
    -- the counter: starts at 0 and Inc returns the value it stores, one more than before
    (NewDC max).nextConn = 0 ∧
    (∀ d : DC, d.incNextConn = (d.nextConn + 1, { d with nextConn := d.nextConn + 1 })) ∧
    -- two connections of the pool have different ids
    (∀ p q, p < s.dc.conns.length → q < s.dc.conns.length → s.dc.connId p = s.dc.connId q →
      p = q) ∧
    -- the ids are among 1..nextConn, and each of these is given out once
    (∀ p, p < s.dc.conns.length → 1 ≤ s.dc.connId p ∧ s.dc.connId p ≤ s.dc.nextConn) ∧
    (∀ i, 1 ≤ i → i ≤ s.dc.nextConn → s.dc.idc i + weigh (PC.pendId i) s.threads = 1) := by
  have hid := ids_reachable h
  refine ⟨rfl, fun _ => rfl, ?_, ?_, ?_⟩
  · exact connId_inj (fun i => by have := hid i; split_ifs at this <;> omega)
  · intro p hp
    have := hid (s.dc.connId p)
    have hm : 1 ≤ s.dc.idc (s.dc.connId p) := by
      simp only [DC.idc]
      apply List.count_pos_iff.mpr
      simp only [List.mem_map]
      exact ⟨s.dc.conns[p], List.getElem_mem _, by simp [DC.connId, hp]⟩
    split_ifs at this with hc
    · exact hc
    · omega
  · intro i h1 h2
    have := hid i
    rw [if_pos ⟨h1, h2⟩] at this
    exact this

theorem conn_ids_distinct_witness :
    ((Sys.init 2).run traceCrossCreate).dc.connId 0 ≠ ((Sys.init 2).run traceCrossCreate).dc.connId 1 :=
  fun e => absurd ((conn_ids_distinct 2 _ (reachable_run 2 traceCrossCreate)).2.2.1 0 1
    (by decide) (by decide) e) (by decide)

/-- With two overlapping calls of `InvokeRaw` the connection created first has id 2 and
the one created second has id 1: the ids do not increase in the order of creation. -/
theorem second_created_has_id_one :
    Reachable 2 ((Sys.init 2).run traceCrossCreate) ∧
    ((Sys.init 2).run traceCrossCreate).dc.conns.length = 2 ∧
    ((Sys.init 2).run traceCrossCreate).dc.connId 0 = 2 ∧
    ((Sys.init 2).run traceCrossCreate).dc.connId 1 = 1 :=
  ⟨reachable_run 2 _, by decide, by decide, by decide⟩

/-! ### The effect of `dead` -/

theorem idAt_map (cs : List poolConn) (q : Nat) :
    idAt cs q = ((cs.map (fun c => c.id))[q]?).getD 0 := by
  simp only [idAt, List.getElem?_map]
  cases cs[q]? <;> rfl

theorem connId_set (d : DC) {r : Nat} {c c2 : poolConn} (h : d.conns[r]? = some c)
    (hid : c2.id = c.id) : ({ d with conns := d.conns.set r c2 } : DC).connId = d.connId := by
  funext q
  simp only [connId_eq, idAt_map, map_id_set h hid]

theorem filter_eraseIdx {f : Nat → Int} {l : List Nat} (hn : (l.map f).Nodup) (j : Nat)
    (hj : j < l.length) : l.eraseIdx j = l.filter (fun q => decide (f q ≠ f l[j])) := by
  obtain ⟨pre, post, h1, h2⟩ := eraseIdx_decomp l j hj
  rw [h2]
  generalize l[j] = x at h1 ⊢
  subst h1
  simp only [List.map_append, List.map_cons] at hn
  have hn2 := List.nodup_append.mp hn
  have hpost := (List.nodup_cons.mp hn2.2.1)
  have a : ∀ q ∈ pre, f q ≠ f x := by
    intro q hq e
    exact hn2.2.2 (List.mem_map_of_mem f hq) (by rw [e]; simp)
  have b : ∀ q ∈ post, f q ≠ f x := by
    intro q hq e
    exact hpost.1 (by rw [← e]; exact List.mem_map_of_mem f hq)
  rw [List.filter_append, List.filter_cons]
  simp only [ne_eq, not_true_eq_false, decide_False, Bool.false_eq_true, if_false]
  rw [List.filter_eq_self.mpr (fun q hq => by simpa using a q hq),
    List.filter_eq_self.mpr (fun q hq => by simpa using b q hq)]

/-- The whole effect of `dead` on a connection that is not deleted, in a pool where `total`
is at least 1 and the ids of the free connections are distinct. -/
theorem dead_eq (d : DC) (r : Nat) (c : poolConn) (hc : d.conns[r]? = some c)
    (hnd : c.deleted = false) (hid : (d.free.map d.connId).Nodup) (ht : 1 ≤ d.total) :
    d.dead r = { d with conns := d.conns.set r ⟨c.id, true, true⟩, stuck := d.stuck + 1,
                        total := d.total - 1,
                        free := d.free.filter (fun q => decide (d.connId q ≠ d.connId r)) } := by
  have hr : r < d.conns.length := (List.getElem?_eq_some.mp hc).1
  have hcid : d.connId r = c.id := by simp [DC.connId, hc]
  unfold DC.dead
  rcases swapDeleted_cases d r with ⟨h, _⟩ | ⟨c2, hc2, h⟩
  · rw [hc] at h; cases h
  · rw [hc] at hc2; cases hc2
    rw [h]
    simp only [hnd]
    have e0 : (({ d with conns := d.conns.set r { c with deleted := true } } : DC).resetStuck).connId
        = d.connId := connId_set d hc rfl
    have e1 : (({ d with conns := d.conns.set r { c with deleted := true } } : DC).resetStuck).conns[r]?
        = some { c with deleted := true } := by
      simp only [DC.resetStuck]; rw [List.getElem?_set]; simp [hr]
    have hsig : (({ d with conns := d.conns.set r { c with deleted := true } } : DC).resetStuck).signalDead r
        = { d with conns := d.conns.set r ⟨c.id, true, true⟩, stuck := d.stuck + 1 } := by
      rcases signalDead_cases
        (({ d with conns := d.conns.set r { c with deleted := true } } : DC).resetStuck) r
        with ⟨h1, _⟩ | ⟨c3, h1, h2⟩
      · rw [e1] at h1; cases h1
      · rw [e1] at h1; cases h1
        rw [h2]; simp [DC.resetStuck]
    have hfree := deadLocked_free
      (({ d with conns := d.conns.set r { c with deleted := true } } : DC).resetStuck) r
      (by simp only [DC.resetStuck]; omega)
    rw [e0] at hfree
    have hfr : ((({ d with conns := d.conns.set r { c with deleted := true } } : DC).resetStuck).deadLocked r).free
        = d.free.filter (fun q => decide (d.connId q ≠ d.connId r)) := by
      rcases hfree with ⟨h1, h2⟩ | ⟨j, hj, h1, h2⟩
      · rw [h1]
        simp only [DC.resetStuck] at h2 ⊢
        exact (List.filter_eq_self.mpr (fun q hq => by simpa using h2 q hq)).symm
      · rw [h1]
        simp only [DC.resetStuck] at hj h2 ⊢
        rw [filter_eraseIdx hid j hj, h2]
    rcases deadLocked_cases
      (({ d with conns := d.conns.set r { c with deleted := true } } : DC).resetStuck) r
      with ⟨h1, _⟩ | ⟨_, f, _, h2⟩
    · rw [hsig] at h1; simp only [] at h1; omega
    · rw [h2, hsig] at hfr
      simp only [] at hfr
      rw [h2, hsig, hfr]


/-- The effect of `dead(r)` on a connection that is not deleted, from any pool state where
`total >= 1` and each id occurs at most once in `free`: `r` is deleted and its Dead gate
fired, `total` is one less, the entry of `free` with the id of `r` is gone and the others
keep their order. -/
theorem dead_effect (d : DC) (r : Nat) (hr : r < d.conns.length) (hnd : d.isDeleted r = false)
    (hid : (d.free.map d.connId).Nodup) (ht : 1 ≤ d.total) :
    -- the connection
    (d.dead r).isDeleted r = true ∧ (d.dead r).isDead r = true ∧
    (d.dead r).connId = d.connId ∧
    (∀ q, q ≠ r → (d.dead r).isDeleted q = d.isDeleted q ∧ (d.dead r).isDead q = d.isDead q) ∧
    -- total
    (d.dead r).total = d.total - 1 ∧ (d.dead r).panicked = d.panicked ∧
    -- free: the entry with the id of r is gone, the others stay in order
    (d.dead r).free = d.free.filter (fun q => decide (d.connId q ≠ d.connId r)) ∧
    (∀ q ∈ (d.dead r).free, d.connId q ≠ d.connId r) ∧
    (d.dead r).free.Sublist d.free ∧
    (d.dead r).free.length
      = (if d.connId r ∈ d.free.map d.connId then d.free.length - 1 else d.free.length) ∧
    ((∀ q ∈ d.free, d.connId q = d.connId r → q = r) →
      (d.dead r).free.length = (if r ∈ d.free then d.free.length - 1 else d.free.length)) ∧
    -- the rest of the pool
    (d.dead r).stuck = d.stuck + 1 ∧ (d.dead r).freeReq = d.freeReq ∧ (d.dead r).max = d.max ∧
    (d.dead r).nextConn = d.nextConn ∧ (d.dead r).conns.length = d.conns.length := by
  obtain ⟨c, hc⟩ : ∃ c, d.conns[r]? = some c := ⟨d.conns[r], List.getElem?_eq_getElem hr⟩
  have hdel : c.deleted = false := by simpa [isDeleted_eq, deletedAt, hc] using hnd
  have e := dead_eq d r c hc hdel hid ht
  have hlen : (d.free.filter (fun q => decide (d.connId q ≠ d.connId r))).length
      = (if d.connId r ∈ d.free.map d.connId then d.free.length - 1 else d.free.length) := by
    split_ifs with hm
    · obtain ⟨q, hq, hqr⟩ := List.mem_map.mp hm
      obtain ⟨j, hj, rfl⟩ := List.mem_iff_getElem.mp hq
      rw [← hqr, ← filter_eraseIdx hid j hj, List.length_eraseIdx, if_pos hj]
    · rw [List.filter_eq_self.mpr]
      intro q hq
      simp only [ne_eq, decide_not, Bool.not_eq_true', decide_eq_false_iff_not]
      intro hqr
      exact hm (List.mem_map.mpr ⟨q, hq, hqr⟩)
  rw [e]
  refine ⟨?_, ?_, connId_set d hc rfl, ?_, rfl, rfl, rfl, ?_, List.filter_sublist _, hlen, ?_,
    rfl, rfl, rfl, rfl, by simp⟩
  · simp [DC.isDeleted, List.getElem?_set, hr]
  · simp [DC.isDead, List.getElem?_set, hr]
  · intro q hq
    have : ¬ r = q := fun h => hq h.symm
    simp [DC.isDeleted, DC.isDead, List.getElem?_set, this]
  · intro q hq
    simpa using (List.mem_filter.mp hq).2
  · intro hinj
    simp only []
    rw [hlen]
    have : d.connId r ∈ d.free.map d.connId ↔ r ∈ d.free := by
      constructor
      · intro hm
        obtain ⟨q, hq, hqr⟩ := List.mem_map.mp hm
        rw [← hinj q hq hqr]; exact hq
      · intro hm; exact List.mem_map_of_mem _ hm
    simp only [this]

theorem dead_effect_witness :
    (deadOnTop.dead 1).free = [0, 2, 3] ∧ (deadOnTop.dead 1).total = 1 :=
  ⟨(dead_effect deadOnTop 1 (by decide) (by decide) (by decide) (by decide)).2.2.2.2.2.2.1,
   (dead_effect deadOnTop 1 (by decide) (by decide) (by decide) (by decide)).2.2.2.2.1⟩

/-- Why `dead_effect` asks for `total >= 1` and speaks of ids: two pool states that no
execution reaches.  In the first `total` is 0 with a connection in `free`: `dead(0)` panics
after the decrement and connection 0 stays in `free`.  In the second connection 1 has the id
of connection 0 and is in `free`: `dead(0)` removes it. -/
theorem dead_panics_or_removes_namesake :
    ((freeButUncounted.free.map freeButUncounted.connId).Nodup ∧
      freeButUncounted.isDeleted 0 = false ∧
      (freeButUncounted.dead 0).panicked = true ∧ 0 ∈ (freeButUncounted.dead 0).free) ∧
    ((sameIdTwice.free.map sameIdTwice.connId).Nodup ∧ sameIdTwice.isDeleted 0 = false ∧
      0 ∉ sameIdTwice.free ∧ (sameIdTwice.dead 0).free.length = sameIdTwice.free.length - 1) := by
  decide

/-- What the invariant gives `dead` for a connection that is not deleted: its Dead gate has
not fired, `total` counts it, and the free connections have distinct ids, none of them the
id of another connection. -/
theorem dead_pre_reachable (max : Int) (s : Sys) (r : Nat) (h : Reachable max s)
    (hr : r < s.dc.conns.length) (hnd : s.dc.isDeleted r = false) :
    s.dc.isDead r = false ∧ 1 ≤ s.dc.total ∧ (s.dc.free.map s.dc.connId).Nodup ∧
    (∀ q ∈ s.dc.free, s.dc.connId q = s.dc.connId r → q = r) := by
  have hi := inv_reachable h
  have hids : ∀ i, s.dc.idc i ≤ 1 := fun i => by
    have := hi.ids i
    split_ifs at this <;> omega
  have hfl : ∀ q ∈ s.dc.free, q < s.dc.conns.length := by
    intro q hq
    by_contra hge
    have := hi.valid q (by omega)
    have hc : 0 < s.dc.free.count q := List.count_pos_iff.mpr hq
    omega
  have hdead : s.dc.isDead r = false := by
    have := hi.won r
    rw [hnd] at this
    cases hd : s.dc.isDead r
    · rfl
    · rw [hd] at this; simp [b2n] at this
  refine ⟨hdead, ?_, ?_, ?_⟩
  · have ht := hi.total
    have hl : 1 ≤ live s.dc.conns := by
      simp only [live]
      apply List.countP_pos_iff.mpr
      refine ⟨s.dc.conns[r], List.getElem_mem _, ?_⟩
      have : s.dc.isDead r = s.dc.conns[r].dead := by simp [DC.isDead, hr]
      rw [this] at hdead
      simp [hdead]
    omega
  · apply List.Nodup.map_on
    · intro x hx y hy hxy
      exact connId_inj hids x y (hfl x hx) (hfl y hy) hxy
    · rw [List.nodup_iff_count_le_one]
      intro p
      have := hi.own p
      omega
  · intro q hq hqr
    exact connId_inj hids q r (hfl q hq) hr hqr

/-- C19 (effect of `dead`).  In every reachable pool state each id occurs at most once in
`free`, and for every connection `r` of the pool that is not yet deleted, `dead(r)`: sets
`r.deleted` and signals the Dead gate of `r`, leaving the other connections and all ids as
they are; decreases `total` by exactly 1, without panicking; leaves no entry with the id of
`r` in `free` and keeps all other entries in their order, so that `len(free)` drops by 1 if
`r` was in `free` and is unchanged otherwise; resets `stuck` once and leaves the request map,
`max` and `nextConn` alone. -/
theorem dead_effect_reachable (max : Int) (s : Sys) (r : Nat) (h : Reachable max s)
    (hr : r < s.dc.conns.length) (hnd : s.dc.isDeleted r = false) :
    -- each id occurs at most once in free
    (s.dc.free.map s.dc.connId).Nodup ∧
    -- the connection
    (s.dc.dead r).isDeleted r = true ∧ (s.dc.dead r).isDead r = true ∧
    (s.dc.dead r).connId = s.dc.connId ∧
    (∀ q, q ≠ r →
      (s.dc.dead r).isDeleted q = s.dc.isDeleted q ∧ (s.dc.dead r).isDead q = s.dc.isDead q) ∧
    -- total
    (s.dc.dead r).total = s.dc.total - 1 ∧ (s.dc.dead r).panicked = false ∧
    -- free
    (∀ q ∈ (s.dc.dead r).free, s.dc.connId q ≠ s.dc.connId r) ∧
    (s.dc.dead r).free = s.dc.free.filter (fun q => decide (q ≠ r)) ∧
    (s.dc.dead r).free.Sublist s.dc.free ∧
    (s.dc.dead r).free.length
      = (if r ∈ s.dc.free then s.dc.free.length - 1 else s.dc.free.length) ∧
    -- the rest of the pool
    (s.dc.dead r).stuck = s.dc.stuck + 1 ∧ (s.dc.dead r).freeReq = s.dc.freeReq ∧
    (s.dc.dead r).max = s.dc.max ∧ (s.dc.dead r).nextConn = s.dc.nextConn := by
  obtain ⟨_, ht, hid, hinj⟩ := dead_pre_reachable max s r h hr hnd
  obtain ⟨e1, e2, e3, e4, e5, e6, e7, e8, e9, _, e11, e12, e13, e14, e15, _⟩ :=
    dead_effect s.dc r hr hnd hid ht
  refine ⟨hid, e1, e2, e3, e4, e5, ?_, e8, ?_, e9, e11 hinj, e12, e13, e14, e15⟩
  · rw [e6]; exact (inv_reachable h).np
  · rw [e7]
    apply List.filter_congr
    intro q hq
    by_cases hqr : q = r
    · subst hqr; simp
    · have : s.dc.connId q ≠ s.dc.connId r := fun e => hqr (hinj q hq e)
      simp [hqr, this]

theorem dead_effect_reachable_witness :
    (((Sys.init 2).run traceCold).dc.dead 0).free = [] ∧
    (((Sys.init 2).run traceCold).dc.dead 0).total = 0 ∧
    ((Sys.init 2).run traceCold).dc.free = [0] ∧ ((Sys.init 2).run traceCold).dc.total = 1 := by
  have h := dead_effect_reachable 2 ((Sys.init 2).run traceCold) 0 (reachable_run 2 traceCold)
    (by decide) (by decide)
  refine ⟨?_, ?_, by decide, by decide⟩
  · rw [h.2.2.2.2.2.2.2.2.1]; decide
  · rw [h.2.2.2.2.2.1]; decide

end Pool

namespace Uploader

/-! ## Theorems on part.go -/

theorem checkPartSize_cases (partSize : Int) :
    (partSize = 0 ∧ checkPartSize partSize = some (some .isZero)) ∨
    (partSize ≠ 0 ∧ Int.tmod partSize 1024 ≠ 0 ∧
      checkPartSize partSize = some (some (.notDivisibleBy1024 partSize))) ∨
    (partSize ≠ 0 ∧ Int.tmod partSize 1024 = 0 ∧ Int.tmod 524288 partSize ≠ 0 ∧
      checkPartSize partSize = some (some (.notDivisorOf524288 partSize))) ∨
    (partSize ≠ 0 ∧ Int.tmod partSize 1024 = 0 ∧ Int.tmod 524288 partSize = 0 ∧
      checkPartSize partSize = some none) := by
  by_cases h0 : partSize = 0
  · left; exact ⟨h0, by simp [checkPartSize, h0]⟩
  · right
    by_cases h1 : Int.tmod partSize 1024 = 0
    · right
      by_cases h2 : Int.tmod 524288 partSize = 0
      · right
        exact ⟨h0, h1, h2,
          by simp [checkPartSize, rem, paddingPartSize, MaximumPartSize, h0, h1, h2]⟩
      · left
        exact ⟨h0, h1, h2,
          by simp [checkPartSize, rem, paddingPartSize, MaximumPartSize, h0, h1, h2]⟩
    · left; exact ⟨h0, h1, by simp [checkPartSize, rem, paddingPartSize, h0, h1]⟩

/-- The result is nil exactly when none of the three cases of the `switch` applies. -/
theorem checkPartSize_nil_tmod (partSize : Int) :
    checkPartSize partSize = some none ↔
      partSize ≠ 0 ∧ Int.tmod partSize 1024 = 0 ∧ Int.tmod 524288 partSize = 0 := by
  rcases checkPartSize_cases partSize with
    ⟨h0, h⟩ | ⟨h0, h1, h⟩ | ⟨h0, h1, h2, h⟩ | ⟨h0, h1, h2, h⟩
  · rw [h]; simp [h0]
  · rw [h]; simp [h1]
  · rw [h]; simp [h2]
  · rw [h]; simp [h0, h1, h2]

/-- C16 (`checkPartSize`).  The result is nil exactly when `partSize` is not zero,
`partSize % 1024 = 0` and `524288 % partSize = 0`, with Go's remainder (first line) or, what
is the same for a comparison with zero, the mathematical one (second line); in every other
case it is one of the three errors.  The function never panics: the case `partSize == 0` is
taken first, and the remainder `524288 % partSize` has no value only for `partSize = 0`. -/
theorem checkPartSize_nil_iff (partSize : Int) :
    (checkPartSize partSize = some none ↔
      partSize ≠ 0 ∧ Int.tmod partSize 1024 = 0 ∧ Int.tmod 524288 partSize = 0) ∧
    (checkPartSize partSize = some none ↔
      partSize ≠ 0 ∧ partSize % 1024 = 0 ∧ 524288 % partSize = 0) ∧
    (checkPartSize partSize ≠ some none → ∃ e, checkPartSize partSize = some (some e)) ∧
    checkPartSize partSize ≠ none ∧
    checkPartSize 0 = some (some PartSizeErr.isZero) ∧
    (rem MaximumPartSize partSize = none ↔ partSize = 0) := by
  have hrem : rem MaximumPartSize partSize = none ↔ partSize = 0 := by
    unfold rem; split <;> simp_all
  refine ⟨checkPartSize_nil_tmod partSize, ?_, ?_, ?_, by decide, hrem⟩
  · rw [checkPartSize_nil_tmod, ← Int.dvd_iff_tmod_eq_zero, ← Int.dvd_iff_tmod_eq_zero,
      Int.dvd_iff_emod_eq_zero, Int.dvd_iff_emod_eq_zero]
  · intro hne
    rcases checkPartSize_cases partSize with
      ⟨h0, h⟩ | ⟨h0, h1, h⟩ | ⟨h0, h1, h2, h⟩ | ⟨h0, h1, h2, h⟩
    · exact ⟨_, h⟩
    · exact ⟨_, h⟩
    · exact ⟨_, h⟩
    · exact absurd h hne
  · rcases checkPartSize_cases partSize with
      ⟨h0, h⟩ | ⟨h0, h1, h⟩ | ⟨h0, h1, h2, h⟩ | ⟨h0, h1, h2, h⟩ <;>
      rw [h] <;> simp

theorem accepted_iff_dvd (p : Int) :
    checkPartSize p = some none ↔ p ≠ 0 ∧ (1024 : Int) ∣ p ∧ p ∣ (524288 : Int) := by
  rw [checkPartSize_nil_tmod, ← Int.dvd_iff_tmod_eq_zero, ← Int.dvd_iff_tmod_eq_zero]

/-- A multiple of 2^10 that divides 2^19 is, up to sign, 2^10 times a power of two. -/
theorem natAbs_pow_two (p : Int) (h1 : (1024 : Int) ∣ p) (h2 : p ∣ (524288 : Int)) :
    ∃ k, k ≤ 9 ∧ p.natAbs = 1024 * 2 ^ k := by
  have a : p.natAbs ∣ 2 ^ 19 := by
    have := Int.natAbs_dvd_natAbs.mpr h2
    simpa using this
  have b : 2 ^ 10 ∣ p.natAbs := by
    have := Int.natAbs_dvd_natAbs.mpr h1
    simpa using this
  obtain ⟨m, hm, e⟩ := (Nat.dvd_prime_pow Nat.prime_two).mp a
  rw [e] at b
  have hle : 10 ≤ m := (Nat.pow_dvd_pow_iff_le_right (by norm_num)).mp b
  refine ⟨m - 10, by omega, ?_⟩
  rw [e]
  have : m = 10 + (m - 10) := by omega
  conv => lhs; rw [this, pow_add]
  norm_num

/-- The part count is refused exactly for an upload that is not big and has more than
`partsLimit` = 2999 parts. -/
theorem initUpload_count_check (partSize : Int) (newId : Except Nat Int) (upload : Upload)
    (n : Int) (hn : computeParts partSize upload = some n) :
    (initUpload partSize newId upload
        = some (some (InitErr.partSizeTooSmall upload.totalBytes partSize), upload)
      ↔ upload.totalBytes ≤ bigFileLimit ∧ 2999 < n) := by
  unfold initUpload
  simp only [hn]
  by_cases hrej : (!decide (upload.totalBytes > bigFileLimit) && decide (n > partsLimit)) = true
  · rw [if_pos hrej]
    simp only [Bool.and_eq_true, Bool.not_eq_true', decide_eq_false_iff_not, decide_eq_true_eq,
      partsLimit] at hrej
    simp only [true_iff]
    omega
  · rw [if_neg hrej]
    simp only [Bool.and_eq_true, Bool.not_eq_true', decide_eq_false_iff_not, decide_eq_true_eq,
      partsLimit] at hrej
    have hr : ¬ (upload.totalBytes ≤ bigFileLimit ∧ 2999 < n) := by
      intro h; exact hrej ⟨by omega, h.2⟩
    simp only [hr, iff_false]
    split_ifs
    · cases newId <;> simp
    · simp
    · simp

/-- C17 (limit on the part count): what the code does at 3000 parts.  The upload
`upload3000` is not big and `computeParts` gives it 3000 parts, whose sequence numbers are
0 to 2,999; `initUpload` refuses it with `part size is too small`, because it compares the
count with `partsLimit` = 2999. -/
theorem initUpload_rejects_3000_parts :
    upload3000.totalBytes ≤ bigFileLimit ∧
    computeParts 1024 upload3000 = some 3000 ∧
    initUpload 1024 (Except.ok 7) upload3000
      = some (some (InitErr.partSizeTooSmall 3072000 1024), upload3000) := by
  decide

/-- C20 (accepted part sizes), as amended.  `checkPartSize` returns nil exactly for the
sizes `1024 * 2^k` and `-(1024 * 2^k)` with `0 <= k <= 9`; among the positive sizes exactly
for the ten values `1024 * 2^k`; an accepted size is never zero and its absolute value lies
between 1024 and 524288. -/
theorem checkPartSize_accepts (partSize : Int) :
    (checkPartSize partSize = some none ↔
      ∃ k : Nat, k ≤ 9 ∧ (partSize = 1024 * 2 ^ k ∨ partSize = -(1024 * 2 ^ k))) ∧
    (0 < partSize →
      (checkPartSize partSize = some none ↔ ∃ k : Nat, k ≤ 9 ∧ partSize = 1024 * 2 ^ k)) ∧
    (checkPartSize partSize = some none → partSize ≠ 0 ∧
      1024 ≤ partSize.natAbs ∧ partSize.natAbs ≤ 524288) := by
  have main : checkPartSize partSize = some none ↔
      ∃ k : Nat, k ≤ 9 ∧ (partSize = 1024 * 2 ^ k ∨ partSize = -(1024 * 2 ^ k)) := by
    rw [accepted_iff_dvd]
    constructor
    · rintro ⟨_, h1, h2⟩
      obtain ⟨k, hk, e⟩ := natAbs_pow_two partSize h1 h2
      refine ⟨k, hk, ?_⟩
      rcases Int.natAbs_eq partSize with h | h
      · left; rw [h, e]; push_cast; ring
      · right; rw [h, e]; push_cast; ring
    · rintro ⟨k, hk, h | h⟩
      all_goals
        subst h
        have hp : (0 : Int) < 2 ^ k := by positivity
        refine ⟨by omega, ?_, ?_⟩
        · first
            | exact Dvd.intro _ rfl
            | exact (Int.dvd_neg).mpr (Dvd.intro _ rfl)
        · have e : (524288 : Int) = 1024 * 2 ^ k * 2 ^ (9 - k) := by
            rw [mul_assoc, ← pow_add]
            have : k + (9 - k) = 9 := by omega
            rw [this]; norm_num
          first
            | exact ⟨2 ^ (9 - k), e⟩
            | exact (Int.neg_dvd).mpr ⟨2 ^ (9 - k), e⟩
  refine ⟨main, ?_, ?_⟩
  · intro hpos
    rw [main]
    constructor
    · rintro ⟨k, hk, h | h⟩
      · exact ⟨k, hk, h⟩
      · have hp : (0 : Int) < 2 ^ k := by positivity
        omega
    · rintro ⟨k, hk, h⟩
      exact ⟨k, hk, Or.inl h⟩
  · intro h
    obtain ⟨h0, h1, h2⟩ := (accepted_iff_dvd partSize).mp h
    obtain ⟨k, hk, e⟩ := natAbs_pow_two partSize h1 h2
    refine ⟨h0, ?_, ?_⟩
    · rw [e]; have : 0 < 2 ^ k := by positivity
      omega
    · rw [e]
      have : 2 ^ k ≤ 2 ^ 9 := Nat.pow_le_pow_right (by norm_num) hk
      omega

/-- The negative size -1024 passes all three cases of the `switch`: it is not zero, and Go
gives `-1024 % 1024 = 0` and `524288 % -1024 = 0`. -/
theorem checkPartSize_accepts_negative :
    (-1024 : Int) < 0 ∧ checkPartSize (-1024) = some none ∧
    ¬ ∃ k : Nat, k ≤ 9 ∧ (-1024 : Int) = 1024 * 2 ^ k := by
  refine ⟨by decide, by decide, ?_⟩
  rintro ⟨k, _, h⟩
  have hp : (0 : Int) < 2 ^ k := by positivity
  omega

/-- What `computeParts` returns for a positive size and a positive part size. -/
theorem computeParts_pos (partSize : Int) (upload : Upload) (hp : 0 < partSize)
    (hb : 0 < upload.totalBytes) :
    computeParts partSize upload
      = some (if Int.tmod upload.totalBytes partSize ≠ 0
          then Int.tdiv upload.totalBytes partSize + 1 else Int.tdiv upload.totalBytes partSize) := by
  have h1 : ¬ upload.totalBytes ≤ 0 := by omega
  have h2 : partSize ≠ 0 := by omega
  simp only [computeParts, quo, rem, h1, h2, if_false]
  split_ifs <;> rfl

/-- C21 (`computeParts`).  For a positive part size and a positive number of bytes,
`computeParts` returns the ceiling of `totalBytes / partSize`: the number `n >= 1` with
`(n - 1) * partSize < totalBytes <= n * partSize`, which is the least `n` whose parts hold
all the bytes.  With `totalBytes <= 0` it returns 0 for every part size, zero included, so
nothing is divided. -/
theorem computeParts_ceil (partSize : Int) (upload : Upload) (hp : 0 < partSize)
    (hb : 0 < upload.totalBytes) :
    (∃ n : Int, computeParts partSize upload = some n ∧ 1 ≤ n ∧
      (n - 1) * partSize < upload.totalBytes ∧ upload.totalBytes ≤ n * partSize ∧
      (∀ m : Int, upload.totalBytes ≤ m * partSize → n ≤ m) ∧
      n = ⌈(upload.totalBytes : ℚ) / (partSize : ℚ)⌉) ∧
    (∀ (ps : Int) (up : Upload), up.totalBytes ≤ 0 → computeParts ps up = some 0) := by
  constructor
  · have hq0 : 0 ≤ upload.totalBytes := by omega
    have hp0 : 0 ≤ partSize := by omega
    have hd : Int.tdiv upload.totalBytes partSize = upload.totalBytes / partSize :=
      Int.tdiv_eq_ediv hq0 hp0
    have hm : Int.tmod upload.totalBytes partSize = upload.totalBytes % partSize :=
      Int.tmod_eq_emod hq0 hp0
    have e1 := Int.emod_add_ediv upload.totalBytes partSize
    have e2 := Int.emod_nonneg upload.totalBytes (by omega : partSize ≠ 0)
    have e3 := Int.emod_lt_of_pos upload.totalBytes hp
    have key : ∀ n : Int, (n - 1) * partSize < upload.totalBytes →
        upload.totalBytes ≤ n * partSize →
        computeParts partSize upload = some n →
        ∃ n : Int, computeParts partSize upload = some n ∧ 1 ≤ n ∧
          (n - 1) * partSize < upload.totalBytes ∧ upload.totalBytes ≤ n * partSize ∧
          (∀ m : Int, upload.totalBytes ≤ m * partSize → n ≤ m) ∧
          n = ⌈(upload.totalBytes : ℚ) / (partSize : ℚ)⌉ := by
      intro n h1 h2 hc
      have hpq : (0 : ℚ) < (partSize : ℚ) := by exact_mod_cast hp
      refine ⟨n, hc, ?_, h1, h2, ?_, ?_⟩
      · by_contra hn
        have : n ≤ 0 := by omega
        have : n * partSize ≤ 0 := Int.mul_nonpos_of_nonpos_of_nonneg this hp0
        omega
      · intro m hmm
        by_contra hlt
        have : m ≤ n - 1 := by omega
        have : m * partSize ≤ (n - 1) * partSize := Int.mul_le_mul_of_nonneg_right this hp0
        omega
      · symm
        rw [Int.ceil_eq_iff]
        constructor
        · rw [lt_div_iff₀ hpq]
          exact_mod_cast h1
        · rw [div_le_iff₀ hpq]
          exact_mod_cast h2
    have hc := computeParts_pos partSize upload hp hb
    rw [hd, hm] at hc
    by_cases hr : upload.totalBytes % partSize = 0
    · apply key (upload.totalBytes / partSize)
      · nlinarith
      · nlinarith
      · rw [hc]; simp [hr]
    · apply key (upload.totalBytes / partSize + 1)
      · have : 0 < upload.totalBytes % partSize := by omega
        nlinarith
      · nlinarith
      · rw [hc]; simp [hr]
  · intro ps up h
    simp [computeParts, h]


theorem computeParts_ceil_witness :
    computeParts 1024 resumed = some 3 ∧ (3 : Int) = ⌈((2500 : Int) : ℚ) / ((1024 : Int) : ℚ)⌉ := by
  obtain ⟨n, h1, _, _, _, _, h6⟩ :=
    (computeParts_ceil 1024 resumed (by decide) (by decide)).1
  have h3 : computeParts 1024 resumed = some 3 := by decide
  rw [h3] at h1
  cases h1
  exact ⟨h3, h6⟩

/-- The contents of `*upload` when `initUpload` returns, case by case. -/
theorem initUpload_cases (partSize : Int) (newId : Except Nat Int) (upload : Upload)
    (n : Int) (hn : computeParts partSize upload = some n) :
    (initUpload partSize newId upload
        = some (some (InitErr.partSizeTooSmall upload.totalBytes partSize), upload) ∧
      upload.totalBytes ≤ bigFileLimit ∧ partsLimit < n) ∨
    (¬ (upload.totalBytes ≤ bigFileLimit ∧ partsLimit < n) ∧
      ((∃ e, initUpload partSize newId upload = some (some (InitErr.idGeneration e), upload) ∧
        upload.id = 0 ∧ newId = Except.error e) ∨
      (initUpload partSize newId upload
          = some (some (InitErr.previousPartSize upload.partSize partSize), upload) ∧
        upload.id ≠ 0 ∧ upload.partSize ≠ partSize) ∨
      (∃ id, initUpload partSize newId upload
          = some (none, { upload with id := id, partSize := partSize,
                                      big := decide (upload.totalBytes > bigFileLimit),
                                      totalParts := n }) ∧
        upload.id = 0 ∧ newId = Except.ok id) ∨
      (initUpload partSize newId upload
          = some (none, { upload with big := decide (upload.totalBytes > bigFileLimit),
                                      totalParts := n }) ∧
        upload.id ≠ 0 ∧ upload.partSize = partSize))) := by
  unfold initUpload
  simp only [hn]
  by_cases hrej : (!decide (upload.totalBytes > bigFileLimit) && decide (n > partsLimit)) = true
  · left
    rw [if_pos hrej]
    simp only [Bool.and_eq_true, Bool.not_eq_true', decide_eq_false_iff_not, decide_eq_true_eq]
      at hrej
    exact ⟨rfl, by omega, by omega⟩
  · right
    rw [if_neg hrej]
    simp only [Bool.and_eq_true, Bool.not_eq_true', decide_eq_false_iff_not, decide_eq_true_eq]
      at hrej
    refine ⟨fun h => hrej ⟨by omega, by omega⟩, ?_⟩
    by_cases hid : upload.id = 0
    · rw [if_pos hid]
      cases newId with
      | error e => left; exact ⟨e, rfl, hid, rfl⟩
      | ok id => right; right; left; exact ⟨id, rfl, hid, rfl⟩
    · rw [if_neg hid]
      by_cases hps : upload.partSize ≠ partSize
      · rw [if_pos hps]
        right; left; exact ⟨rfl, hid, hps⟩
      · rw [if_neg hps]
        right; right; right
        exact ⟨rfl, hid, by simpa using hps⟩

/-- C22 (`initUpload` and the upload it is given).  Whenever `initUpload` returns an error,
`*upload` is what it was.  The errors are three: the part count of an upload that is not big
exceeds `partsLimit`; failing that, `u.id()` fails for a new upload (`id == 0`); or the
`partSize` of a resumed upload (`id != 0`) differs from the one of the uploader.  When a
resumed upload is accepted, `id` and `partSize` (equal to the one of the uploader) and
`totalBytes` are kept, `big` is `totalBytes > bigFileLimit` and `totalParts` is what
`computeParts` returns. -/
theorem initUpload_atomic (partSize : Int) (newId : Except Nat Int) (upload : Upload) :
    -- an error leaves the upload as it was
    (∀ (e : InitErr) (up2 : Upload), initUpload partSize newId upload = some (some e, up2) →
      up2 = upload) ∧
    -- the three errors and when they are returned
    (∀ n, computeParts partSize upload = some n →
      ((∃ up2, initUpload partSize newId upload
          = some (some (InitErr.partSizeTooSmall upload.totalBytes partSize), up2))
        ↔ upload.totalBytes ≤ bigFileLimit ∧ partsLimit < n) ∧
      (∀ c, (∃ up2, initUpload partSize newId upload = some (some (InitErr.idGeneration c), up2))
        ↔ ¬ (upload.totalBytes ≤ bigFileLimit ∧ partsLimit < n) ∧ upload.id = 0
            ∧ newId = Except.error c) ∧
      ((∃ up2, initUpload partSize newId upload
          = some (some (InitErr.previousPartSize upload.partSize partSize), up2))
        ↔ ¬ (upload.totalBytes ≤ bigFileLimit ∧ partsLimit < n) ∧ upload.id ≠ 0
            ∧ upload.partSize ≠ partSize)) ∧
    -- success on a resumed upload
    (upload.id ≠ 0 → ∀ up2 : Upload, initUpload partSize newId upload = some (none, up2) →
      up2.id = upload.id ∧ up2.partSize = upload.partSize ∧ upload.partSize = partSize ∧
      up2.big = decide (upload.totalBytes > bigFileLimit) ∧
      computeParts partSize upload = some up2.totalParts ∧
      up2.totalBytes = upload.totalBytes) := by
  cases hn : computeParts partSize upload with
  | none =>
    have hnone : initUpload partSize newId upload = none := by
      unfold initUpload; simp only [hn]
    refine ⟨?_, ?_, ?_⟩
    · intro e up2 h; rw [hnone] at h; cases h
    · intro n h; cases h
    · intro _ up2 h; rw [hnone] at h; cases h
  | some n =>
    have hc := initUpload_cases partSize newId upload n hn
    refine ⟨?_, ?_, ?_⟩
    · intro e up2 h
      rcases hc with ⟨h1, _⟩ | ⟨_, ⟨c, h1, _⟩ | ⟨h1, _⟩ | ⟨id, h1, _⟩ | ⟨h1, _⟩⟩ <;>
        rw [h1] at h <;> simp at h <;> exact h.2.symm
    · intro m hm
      cases hm
      rcases hc with ⟨h1, a, b⟩ |
        ⟨g, ⟨c, h1, a, b⟩ | ⟨h1, a, b⟩ | ⟨id, h1, a, b⟩ | ⟨h1, a, b⟩⟩
      · rw [h1]; simp [a, b]
      · rw [h1]; simp [a, b, g]
      · rw [h1]; simp [a, b, g]
      · rw [h1]; simp [a, b, g]
      · rw [h1]; simp [a, b, g]
    · intro hid up2 h
      rcases hc with ⟨h1, _⟩ | ⟨_, ⟨c, h1, a, _⟩ | ⟨h1, _⟩ | ⟨id, h1, a, _⟩ | ⟨h1, _, b⟩⟩
      · rw [h1] at h; simp at h
      · exact absurd a hid
      · rw [h1] at h; simp at h
      · exact absurd a hid
      · rw [h1] at h
        simp only [Option.some.injEq, Prod.mk.injEq, true_and] at h
        subst h
        exact ⟨rfl, rfl, b, rfl, rfl, rfl⟩


/-- The three errors and the two successes of `initUpload` on concrete uploads. -/
theorem initUpload_examples :
    initUpload 1024 (Except.ok 7) upload3000
      = some (some (InitErr.partSizeTooSmall 3072000 1024), upload3000) ∧
    initUpload 1024 (Except.error 1) { resumed with id := 0 }
      = some (some (InitErr.idGeneration 1), { resumed with id := 0 }) ∧
    initUpload 2048 (Except.ok 7) resumed
      = some (some (InitErr.previousPartSize 1024 2048), resumed) ∧
    initUpload 1024 (Except.ok 7) resumed = some (none, { resumed with totalParts := 3 }) ∧
    initUpload 2048 (Except.ok 7) { resumed with id := 0 }
      = some (none, { resumed with id := 7, partSize := 2048, totalParts := 2 }) ∧
    initUpload 0 (Except.ok 7) resumed = none := by
  decide

end Uploader
